import Mathlib

/-!
# The dynamic module registry of `winsup/cygwin/dll_init.cc`

A shallow embedding of the registry (`dll_list`), its topological sort and the
fork replay engine, followed by theorems about them.

Conventions of the embedding

* A pointer to a `dll` is an `Option Nat`: `none` is `NULL`, `some a` is the
  address `a`.  The sentinel `dlls.start` lives at address `0`, so `&start` is
  `some 0`; records obtained from `cmalloc` live at other addresses.
* The heap is the total function `dll_list.mem`; a field assignment
  `d->f = v` is a `Function.update` of the heap at `d`.
* Wide strings are lists of code units without the terminating NUL.
* Loops and recursions that follow pointers take a fuel argument and fail
  with `Fault.out_of_fuel` when it runs out; an operation the C standard leaves
  undefined (dereferencing `NULL`, reading an array out of bounds) fails with
  `Fault.undefined`; `fabort` never returns and is `Fault.fabort`.
-/

/-! ## Definitions -/

/-- Wide character string, the code units before the terminating NUL. -/
abbrev WStr := List Nat

/-- The `dll_type` enumeration of `dll_init.h`. -/
inductive dll_type where
  | DLL_NONE
  | DLL_LINK
  | DLL_LOAD
  | DLL_ANY
deriving DecidableEq, Repr

/-- The fields of `per_process` that `dll_init.cc` reads (all are addresses). -/
structure per_process where
  envptr : Nat
  ctors : Nat
  dtors : Nat
  data_start : Nat
  data_end : Nat
  bss_start : Nat
  bss_end : Nat
  main : Nat
deriving DecidableEq, Repr

/-- The per-module metadata `per_module` kept in every record. -/
structure per_module where
  envptr : Nat
  ctors : Nat
  dtors : Nat
  data_start : Nat
  data_end : Nat
  bss_start : Nat
  bss_end : Nat
  main : Nat
deriving DecidableEq, Repr

/-- The assignment `per_module::operator= (per_process *)` used by `d->p = p`:
every field of the metadata is overwritten by the supplied one. -/
def per_module.assign (p : per_process) : per_module :=
  { envptr := p.envptr, ctors := p.ctors, dtors := p.dtors,
    data_start := p.data_start, data_end := p.data_end,
    bss_start := p.bss_start, bss_end := p.bss_end, main := p.main }

/-- One module record, `struct dll`. -/
structure dll where
  next : Option Nat
  prev : Option Nat
  p : per_module
  handle : Nat
  count : Int
  has_dtors : Bool
  type : dll_type
  ndeps : Int
  deps : List Nat
  image_size : Nat
  preferred_base : Nat
  modname : WStr
  name : WStr
deriving DecidableEq, Repr

/-- The registry `dll_list`: the heap of records (address `0` is `start`), the
`end` pointer, the iterator state and the counters. -/
structure dll_list where
  mem : Nat → dll
  tail : Option Nat
  hold : Option Nat
  hold_type : dll_type
  loaded_dlls : Int
  reload_on_fork : Int

/-- The ways an operation can fail to return normally. -/
inductive Fault where
  | out_of_fuel
  | undefined
  | fabort (msg : Nat)
deriving DecidableEq, Repr

/-- What the registry consumes from the host and the C library: `towlower`,
the path `GetModuleFileNameW` reports for a handle, the `SizeOfImage` and
`ImageBase` header fields of the image at a handle, and the module names in the
descriptors of the modules the image at a handle imports (already widened by
`sys_mbstowcs`). -/
structure Env where
  towlower : Nat → Nat
  GetModuleFileNameW : Nat → WStr
  SizeOfImage : Nat → Nat
  ImageBase : Nat → Nat
  imports : Nat → List WStr

/-- The loop of `wcscasecmp`: compare the lowered code units, the end of a
list being the NUL; the result is the difference at the first position that
differs, `0` when there is none. -/
def wcscasecmp (tl : Nat → Nat) : WStr → WStr → Int
  | [], [] => 0
  | [], c2 :: _ => (tl 0 : Int) - (tl c2 : Int)
  | c1 :: _, [] => (tl c1 : Int) - (tl 0 : Int)
  | c1 :: s1, c2 :: s2 =>
    if (tl c1 : Int) - (tl c2 : Int) ≠ 0 then (tl c1 : Int) - (tl c2 : Int)
    else wcscasecmp tl s1 s2

/-- The field assignment `d->... = ...`: store `v` at address `d`. -/
def dll_list.store (s : dll_list) (d : Nat) (v : dll) : dll_list :=
  { s with mem := Function.update s.mem d v }

/-- The address of the sentinel `dlls.start`. -/
def START : Nat := 0

/-- `dll_list::operator[]`: the first record after `d` whose full path
compares equal to `name`, `NULL` when there is none. -/
def dll_list.operator_index (tl : Nat → Nat) : Nat → dll_list → Nat → WStr →
    Except Fault (Option Nat)
  | 0, _, _, _ => .error .out_of_fuel
  | f + 1, s, d, name =>
    match (s.mem d).next with
    | none => .ok none
    | some n =>
      if wcscasecmp tl name (s.mem n).name = 0 then .ok (some n)
      else dll_list.operator_index tl f s n name

/-- `dll_list::find_by_modname`: the first record after `d` whose base name
compares equal to `modname`, `NULL` when there is none. -/
def dll_list.find_by_modname (tl : Nat → Nat) : Nat → dll_list → Nat → WStr →
    Except Fault (Option Nat)
  | 0, _, _, _ => .error .out_of_fuel
  | f + 1, s, d, modname =>
    match (s.mem d).next with
    | none => .ok none
    | some n =>
      if wcscasecmp tl modname (s.mem n).modname = 0 then .ok (some n)
      else dll_list.find_by_modname tl f s n modname

/-- `dll_list::append`. -/
def dll_list.append (s : dll_list) (d : Nat) : dll_list :=
  let e : Nat := match s.tail with
    | none => START
    | some e => e
  let s1 := s.store e { s.mem e with next := some d }
  let s2 := s1.store d { s1.mem d with next := none }
  let s3 := s2.store d { s2.mem d with prev := some e }
  { s3 with tail := some d }

/-- The backslash. -/
def BSLASH : Nat := 92

/-- The long path marker `\\?\` tested by the first `wcsncmp`. -/
def LONG_PREFIX : WStr := [92, 92, 63, 92]

/-- The marker `UNC\` tested by the second `wcsncmp`. -/
def UNC_PREFIX : WStr := [85, 78, 67, 92]

/-- The path normalisation at the head of `dll_list::alloc`: after `\\?\` four
units are skipped, and when `UNC\` follows two more are skipped and the unit
then under `name` is overwritten by a backslash. -/
def alloc_name (buf : WStr) : WStr :=
  if buf.take 4 = LONG_PREFIX then
    let name := buf.drop 4
    if name.take 4 = UNC_PREFIX then BSLASH :: (name.drop 2).drop 1
    else name
  else buf

/-- The part of `name` after its last backslash, what `wcsrchr (name, L'\\') + 1`
points to; `none` when `name` has no backslash (`wcsrchr` returns `NULL`). -/
def wcsrchr_succ : WStr → Option WStr
  | [] => none
  | c :: cs =>
    match wcsrchr_succ cs with
    | some r => some r
    | none => if c = BSLASH then some cs else none

/-- The number of a `fabort` diagnostic: 1 "Loaded to different address",
2 "Loaded different DLL with same basename in forked child". -/
def MSG_DIFFERENT_ADDRESS : Nat := 1

/-- See `MSG_DIFFERENT_ADDRESS`. -/
def MSG_DIFFERENT_DLL : Nat := 2

/-- The mismatch test of `dll_list::alloc` on the recorded and the supplied
metadata (the source compares `data_start` twice). -/
def alloc_meta_differs (dp : per_module) (p : per_process) : Bool :=
  dp.data_start != p.data_start
    || dp.data_start != p.data_start
    || dp.bss_start != p.bss_start
    || dp.bss_end != p.bss_end
    || dp.ctors != p.ctors
    || dp.dtors != p.dtors

/-- The lookup of `dll_list::alloc`,
`(type == DLL_LINK) ? dlls.find_by_modname (modname) : dlls[name]`. -/
def alloc_find (tl : Nat → Nat) (fuel : Nat) (s : dll_list) (type : dll_type)
    (name modname : WStr) : Except Fault (Option Nat) :=
  if type = dll_type.DLL_LINK then dll_list.find_by_modname tl fuel s START modname
  else dll_list.operator_index tl fuel s START name

/-- The record `dll_list::alloc` fills in at the address `d` that `cmalloc`
returned. -/
def alloc_record (env : Env) (s : dll_list) (d h : Nat) (p : per_process)
    (type : dll_type) (name modname : WStr) : dll :=
  { s.mem d with
    name := name, modname := modname, handle := h, count := 0,
    has_dtors := true, p := per_module.assign p, ndeps := 0, deps := [],
    image_size := env.SizeOfImage h, preferred_base := env.ImageBase h,
    type := type }

/-- `dll_list::alloc (h, p, type)`.  `fresh` is the address `cmalloc` returns
when a record is allocated.  The result is the registry and the returned
record. -/
def dll_list.alloc (env : Env) (fuel : Nat) (s : dll_list) (h : Nat) (p : per_process)
    (type : dll_type) (fresh : Nat) : Except Fault (dll_list × Nat) :=
  let name := alloc_name (env.GetModuleFileNameW h)
  match wcsrchr_succ name with
  | none => .error .undefined
  | some modname =>
    match alloc_find env.towlower fuel s type name modname with
    | .error e => .error e
    | .ok (some d) =>
      if (s.mem d).handle ≠ h then .error (.fabort MSG_DIFFERENT_ADDRESS)
      else if type = dll_type.DLL_LINK ∧ wcscasecmp env.towlower name (s.mem d).name ≠ 0
          ∧ alloc_meta_differs (s.mem d).p p = true then
        .error (.fabort MSG_DIFFERENT_DLL)
      else .ok (s.store d { s.mem d with p := per_module.assign p }, d)
    | .ok none =>
      let d := fresh
      let s1 := (s.store d (alloc_record env s d h p type name modname)).append d
      let s2 := if type = dll_type.DLL_LOAD
        then { s1 with loaded_dlls := s1.loaded_dlls + 1 } else s1
      .ok (s2, d)

/-- The import loop of `dll_list::populate_deps`: every import name that
`find_by_modname` resolves is stored at `d->deps[d->ndeps++]`. -/
def populate_deps_loop (tl : Nat → Nat) (fuel : Nat) : dll_list → Nat → List WStr →
    Except Fault dll_list
  | s, _, [] => .ok s
  | s, d, wmodname :: rest =>
    match dll_list.find_by_modname tl fuel s START wmodname with
    | .error e => .error e
    | .ok none => populate_deps_loop tl fuel s d rest
    | .ok (some dep) =>
      populate_deps_loop tl fuel
        (s.store d { s.mem d with deps := (s.mem d).deps ++ [dep],
                                  ndeps := (s.mem d).ndeps + 1 }) d rest

/-- `dll_list::populate_deps`.  A record without dependencies gets a new
array; the capacity bookkeeping (`maxdeps`, `crealloc`) has no counterpart
because the array is a list.  The count ends one above the number of
entries. -/
def dll_list.populate_deps (env : Env) (fuel : Nat) (s : dll_list) (d : Nat) :
    Except Fault dll_list :=
  let s0 := if (s.mem d).ndeps = 0 then s.store d { s.mem d with deps := [] } else s
  match populate_deps_loop env.towlower fuel s0 d (env.imports (s0.mem d).handle) with
  | .error e => .error e
  | .ok s1 => .ok (s1.store d { s1.mem d with ndeps := (s1.mem d).ndeps + 1 })

/-- The first loop of `dll_list::topsort`, `while ((d = d->next))`, with the
scratch list `dlopen_deps` of the records opened so far (`none` is `NULL`, its
length is `dlopen_ndeps`). -/
def topsort_deps (env : Env) : Nat → dll_list → Nat → Option (List Nat) →
    Except Fault dll_list
  | 0, _, _, _ => .error .out_of_fuel
  | f + 1, s, d, dlopen_deps =>
    match (s.mem d).next with
    | none => .ok s
    | some n =>
      if (s.mem n).ndeps = 0 then
        if (s.mem n).type = dll_type.DLL_LOAD then
          match dlopen_deps with
          | none => .error .undefined
          | some opened =>
            let s1 := if opened.length ≠ 0
              then s.store n { s.mem n with ndeps := opened.length, deps := opened }
              else s
            match dll_list.populate_deps env f s1 n with
            | .error e => .error e
            | .ok s2 => topsort_deps env f s2 n (some (opened ++ [n]))
        else
          match dll_list.populate_deps env f s n with
          | .error e => .error e
          | .ok s2 => topsort_deps env f s2 n dlopen_deps
      else topsort_deps env f s n dlopen_deps

mutual
/-- `dll_list::topsort_visit (d, seek_tail)`. -/
def dll_list.topsort_visit : Nat → dll_list → Nat → Bool → Except Fault dll_list
  | 0, _, _, _ => .error .out_of_fuel
  | f + 1, s, d, seek_tail =>
    match (match seek_tail, (s.mem d).next with
           | true, some n => dll_list.topsort_visit f s n true
           | _, _ => .ok s) with
    | .error e => .error e
    | .ok s1 =>
      if (s1.mem d).ndeps > 0 then
        let s2 := s1.store d { s1.mem d with ndeps := - (s1.mem d).ndeps }
        match topsort_visit_deps f s2 d 1 with
        | .error e => .error e
        | .ok s3 => .ok (s3.append d)
      else .ok s1
/-- The loop `for (long i = 1; i < -d->ndeps; i++) topsort_visit (d->deps[i - 1], false)`
from the iteration `i` on. -/
def topsort_visit_deps : Nat → dll_list → Nat → Nat → Except Fault dll_list
  | 0, _, _, _ => .error .out_of_fuel
  | f + 1, s, d, i =>
    if (i : Int) < - (s.mem d).ndeps then
      match (s.mem d).deps[i - 1]? with
      | none => .error .undefined
      | some y =>
        match dll_list.topsort_visit f s y false with
        | .error e => .error e
        | .ok s1 => topsort_visit_deps f s1 d (i + 1)
    else .ok s
end

/-- The last loop of `dll_list::topsort`: clear the markings and free the
dependency arrays of the records after `d`. -/
def topsort_clear : Nat → dll_list → Nat → Except Fault dll_list
  | 0, _, _ => .error .out_of_fuel
  | f + 1, s, d =>
    match (s.mem d).next with
    | none => .ok s
    | some n => topsort_clear f (s.store n { s.mem n with ndeps := 0, deps := [] }) n

/-- `dll_list::topsort`. -/
def dll_list.topsort (env : Env) (fuel : Nat) (s : dll_list) : Except Fault dll_list :=
  if s.tail = none ∨ s.tail = some START then .ok s
  else
    let dlopen_deps : Option (List Nat) := if s.loaded_dlls > 0 then some [] else none
    match topsort_deps env fuel s START dlopen_deps with
    | .error e => .error e
    | .ok s1 =>
      match (s1.mem START).next with
      | none => .error .undefined
      | some d =>
        let s2 := { s1.store START { s1.mem START with next := none } with tail := none }
        match dll_list.topsort_visit fuel s2 d true with
        | .error e => .error e
        | .ok s3 => topsort_clear fuel s3 START

/-- `dll_list::find` after `VirtualQuery` reported the allocation base `h`:
the first record after `d` whose handle is `h`. -/
def dll_list.find : Nat → dll_list → Nat → Nat → Except Fault (Option Nat)
  | 0, _, _, _ => .error .out_of_fuel
  | f + 1, s, d, h =>
    match (s.mem d).next with
    | none => .ok none
    | some n => if (s.mem n).handle = h then .ok (some n) else dll_list.find f s n h

/-- The pointer assignments of `dll_list::detach` for the record `d`, whose
`prev` pointer is `pv`: `d->prev->next = d->next`, and `d->next->prev = d->prev`
when `d->next` is not `NULL`. -/
def detach_relink (s : dll_list) (d pv : Nat) : dll_list :=
  let s1 := s.store pv { s.mem pv with next := (s.mem d).next }
  match (s1.mem d).next with
  | some nx => s1.store nx { s1.mem nx with prev := (s1.mem d).prev }
  | none => s1

/-- The unlinking statements of `dll_list::detach` for the record `d`, whose
`prev` pointer is `pv`: the pointer assignments, the decrement of `loaded_dlls`
for a `DLL_LOAD` record, and `end = d->prev` when `d` was the last record. -/
def detach_unlink (s : dll_list) (d pv : Nat) : dll_list :=
  let s2 := detach_relink s d pv
  let s3 := if (s2.mem d).type = dll_type.DLL_LOAD
    then { s2 with loaded_dlls := s2.loaded_dlls - 1 } else s2
  if s3.tail = some d then { s3 with tail := (s3.mem d).prev } else s3

/-- `dll_list::detach (retaddr)`.  `myself` and `in_forkee` are the two
globals the guard reads, `query` is the allocation base `VirtualQuery` reports
for `retaddr` (`none` when it fails).  The finalizer and the destructors of the
record run before it is unlinked; they do not touch the registry. -/
def dll_list.detach (fuel : Nat) (s : dll_list) (myself in_forkee : Bool)
    (query : Option Nat) : Except Fault dll_list :=
  if myself = false ∨ in_forkee = true then .ok s
  else
    match query with
    | none => .ok s
    | some h =>
      match dll_list.find fuel s START h with
      | .error e => .error e
      | .ok none => .ok s
      | .ok (some d) =>
        match (s.mem d).prev with
        | none => .error .undefined
        | some pv => .ok (detach_unlink s d pv)

/-- A zeroed `dll`, the content of static storage. -/
def dll.zero : dll :=
  { next := none, prev := none,
    p := { envptr := 0, ctors := 0, dtors := 0, data_start := 0, data_end := 0,
           bss_start := 0, bss_end := 0, main := 0 },
    handle := 0, count := 0, has_dtors := false, type := dll_type.DLL_NONE,
    ndeps := 0, deps := [], image_size := 0, preferred_base := 0,
    modname := [], name := [] }

/-- The global `dll_list dlls` as the program starts: static storage, all
zero. -/
def dlls : dll_list :=
  { mem := fun _ => dll.zero, tail := none, hold := none,
    hold_type := dll_type.DLL_NONE, loaded_dlls := 0, reload_on_fork := 0 }

/-- The records of the chain in order: follow `next` from `d` for at most
`fuel` steps (`none` when the chain does not end within them). -/
def chain_from : Nat → dll_list → Nat → Option (List Nat)
  | 0, _, _ => none
  | f + 1, s, d =>
    match (s.mem d).next with
    | none => some []
    | some n => (chain_from f s n).map (fun l => n :: l)

/-- The `next` pointers from `d` run through exactly the records `l` and end
in `NULL`, and the `prev` pointer of each of them designates its
predecessor. -/
def links (s : dll_list) : Nat → List Nat → Prop
  | d, [] => (s.mem d).next = none
  | d, x :: xs => (s.mem d).next = some x ∧ (s.mem x).prev = some d ∧ links s x xs

/-- `links` can be checked by evaluation. -/
instance links_decidable (s : dll_list) : ∀ (d : Nat) (l : List Nat), Decidable (links s d l)
  | d, [] => by unfold links; exact inferInstance
  | d, x :: xs => by
    unfold links
    exact @instDecidableAnd _ _ _ (@instDecidableAnd _ _ _ (links_decidable s x xs))

/-- The registry is the well-formed chain of the records `L`, in this order:
the links from `start` run through `L`, no record occurs twice or is the
sentinel, and `end` designates the last record (when there is none, `end` is
`NULL` or `&start`). -/
def dll_list.is_chain (s : dll_list) (L : List Nat) : Prop :=
  links s START L ∧ START ∉ L ∧ L.Nodup ∧
    (if L = [] then (s.tail = none ∨ s.tail = some START) else s.tail = L.getLast?)

/-- `is_chain` can be checked by evaluation. -/
instance dll_list.is_chain_decidable (s : dll_list) (L : List Nat) : Decidable (s.is_chain L) := by
  unfold dll_list.is_chain; exact inferInstance

/-- The record without its links and its sort scratch: the fields neither
`append`, `detach` nor `topsort` may change. -/
def dll.payload (d : dll) : dll :=
  { d with next := none, prev := none, ndeps := 0, deps := [] }

/-- Position of `a` before `b` in the list `l` (both occur in it). -/
def precedes (l : List Nat) (a b : Nat) : Prop :=
  l.indexOf a < l.indexOf b ∧ b ∈ l

/-- `precedes` can be checked by evaluation. -/
instance precedes_decidable (l : List Nat) (a b : Nat) : Decidable (precedes l a b) := by
  unfold precedes; exact inferInstance

/-- The state of the traversal: the records marked so far (their `ndeps` is
negative) and the rebuilt chain. -/
structure SortSt where
  marked : List Nat
  out : List Nat
deriving DecidableEq, Repr

/-- What a frame of the traversal does: visit one record, or visit the
records of a list one after the other. -/
inductive SortCmd where
  | visit (d : Nat)
  | each (ys : List Nat)

/-- Big-step semantics of the traversal over the dependency lists `G`: a
marked record is skipped; an unmarked one is marked, its dependencies are
visited in order, and it is appended. -/
inductive SortRun (G : Nat → List Nat) : SortSt → SortCmd → SortSt → Prop
  | skip (st : SortSt) (d : Nat) : d ∈ st.marked → SortRun G st (.visit d) st
  | enter (st st1 : SortSt) (d : Nat) : d ∉ st.marked →
      SortRun G ⟨d :: st.marked, st.out⟩ (.each (G d)) st1 →
      SortRun G st (.visit d) ⟨st1.marked, st1.out ++ [d]⟩
  | done (st : SortSt) : SortRun G st (.each []) st
  | step (st st1 st2 : SortSt) (y : Nat) (ys : List Nat) :
      SortRun G st (.visit y) st1 → SortRun G st1 (.each ys) st2 →
      SortRun G st (.each (y :: ys)) st2

/-- The traversal as a function; `k` bounds the depth of the recursion. -/
def sort_visit (G : Nat → List Nat) : Nat → SortSt → Nat → SortSt
  | 0, st, _ => st
  | k + 1, st, d =>
    if d ∈ st.marked then st
    else
      let st1 := (G d).foldl (sort_visit G k) ⟨d :: st.marked, st.out⟩
      ⟨st1.marked, st1.out ++ [d]⟩

/-- The order `topsort` gives the chain `L` whose dependency lists are `G`:
the records are visited from the last to the first. -/
def sorted_chain (G : Nat → List Nat) (L : List Nat) : List Nat :=
  (L.reverse.foldl (sort_visit G (L.length + 1)) ⟨[], []⟩).out

/-- The records a command names. -/
def SortCmd.targets : SortCmd → List Nat
  | .visit d => [d]
  | .each ys => ys

/-- The dependency edges of the records of `L`: `a` has an edge to every entry
of its dependency array. -/
def dep_edge (G : Nat → List Nat) (L : List Nat) (a b : Nat) : Prop :=
  a ∈ L ∧ b ∈ G a

/-- Every dependency of a record of `out` stands before it in `out`, unless
the dependency itself depends, directly or not, on the record. -/
def deps_first (G : Nat → List Nat) (L : List Nat) (out : List Nat) : Prop :=
  ∀ x, x ∈ out → ∀ y, y ∈ G x → precedes out y x ∨ Relation.TransGen (dep_edge G L) y x

/-- The records of `L` not yet marked. -/
def unmarked (L : List Nat) (st : SortSt) : List Nat :=
  L.filter (fun x => decide (x ∉ st.marked))

/-- The second registry differs from the first at most in links, sort
scratch and `end`. -/
def dll_list.frame (s0 s : dll_list) : Prop :=
  (∀ a, (s.mem a).payload = (s0.mem a).payload) ∧ s.hold = s0.hold ∧
    s.hold_type = s0.hold_type ∧ s.loaded_dlls = s0.loaded_dlls ∧
    s.reload_on_fork = s0.reload_on_fork

/-- The record `end` designates, `&start` standing for `NULL`. -/
def dll_list.last (s : dll_list) : Nat :=
  match s.tail with
  | none => START
  | some e => e

/-- How the registry during the sort and the state of the traversal are
related: the rebuilt chain is `st.out`; every record of `L` carries its
dependency list, the count one above its length, negated when the record is
marked; nothing else changed since `s0`. -/
def sort_inv (L : List Nat) (G : Nat → List Nat) (s0 s : dll_list) (st : SortSt) : Prop :=
  s.is_chain st.out ∧
  (∀ x, x ∈ L → (s.mem x).deps = G x ∧
    (s.mem x).ndeps =
      if x ∈ st.marked then -(((G x).length : Int) + 1) else ((G x).length : Int) + 1) ∧
  s0.frame s ∧
  (∀ x, x ∈ st.out → x ∈ st.marked) ∧ (∀ x, x ∈ st.out → x ∈ L) ∧ START ∉ L

/-- What the code does for a command of the traversal. -/
def sim_post (L : List Nat) (G : Nat → List Nat) (s0 : dll_list) (st : SortSt)
    (c : SortCmd) (s : dll_list) (st1 : SortSt) : Prop :=
  match c with
  | .visit d => ∃ f0 s1, (∀ f, f0 ≤ f → dll_list.topsort_visit f s d false = .ok s1) ∧
      sort_inv L G s0 s1 st1
  | .each ys => ∀ owner j, owner ∈ L → owner ∈ st.marked → (G owner).drop j = ys →
      ∃ f0 s1, (∀ f, f0 ≤ f → topsort_visit_deps f s owner (j + 1) = .ok s1) ∧
        sort_inv L G s0 s1 st1

/-- The `next` pointers from `d` run through `l` and end in `NULL`. -/
def nexts (s : dll_list) : Nat → List Nat → Prop
  | d, [] => (s.mem d).next = none
  | d, x :: xs => (s.mem d).next = some x ∧ nexts s x xs

/-- The record `find_by_modname` designates in the chain `L`: the first one
whose base name compares equal to `m`. -/
def chain_find_modname (tl : Nat → Nat) (s : dll_list) (L : List Nat) (m : WStr) : Option Nat :=
  L.find? (fun y => decide (wcscasecmp tl m (s.mem y).modname = 0))

/-- The record `operator[]` designates in the chain `L`: the first one whose
full path compares equal to `name`. -/
def chain_find_name (tl : Nat → Nat) (s : dll_list) (L : List Nat) (name : WStr) : Option Nat :=
  L.find? (fun y => decide (wcscasecmp tl name (s.mem y).name = 0))

/-- The record `find` designates in the chain `L`: the first one whose handle
is `h`. -/
def chain_find_handle (s : dll_list) (L : List Nat) (h : Nat) : Option Nat :=
  L.find? (fun y => decide ((s.mem y).handle = h))

/-- The dependency array the first loop of `topsort` builds for the record
`x` of the chain `L`: when `x` is `DLL_LOAD`, the `DLL_LOAD` records before it
in the chain; then, for every import name of its image that `find_by_modname`
resolves, the record found. -/
def chain_deps (env : Env) (s : dll_list) (L : List Nat) (x : Nat) : List Nat :=
  (if (s.mem x).type = dll_type.DLL_LOAD
   then (L.take (L.indexOf x)).filter (fun y => decide ((s.mem y).type = dll_type.DLL_LOAD))
   else []) ++
  (env.imports (s.mem x).handle).filterMap (chain_find_modname env.towlower s L)

/-- The registry at rest, between two operations: a well-formed chain of the
records `L`, none of which carries a dependency count or array, and a loaded
count that is the number of `DLL_LOAD` records. -/
def dll_list.is_registry (s : dll_list) (L : List Nat) : Prop :=
  s.is_chain L ∧ (∀ x, x ∈ L → (s.mem x).ndeps = 0 ∧ (s.mem x).deps = []) ∧
    s.loaded_dlls =
      ((L.filter (fun y => decide ((s.mem y).type = dll_type.DLL_LOAD))).length : Int)

/-- `is_registry` can be checked by evaluation. -/
instance dll_list.is_registry_decidable (s : dll_list) (L : List Nat) :
    Decidable (s.is_registry L) := by
  unfold dll_list.is_registry; exact inferInstance

/-- The dependency edges `topsort` builds for the registry `s` with chain `L`
have no cycle. -/
def acyclic_deps (env : Env) (s : dll_list) (L : List Nat) : Prop :=
  ∀ x, ¬ Relation.TransGen (dep_edge (chain_deps env s L) L) x x

/-- The `towlower` of the examples: the ASCII capitals are lowered. -/
def ascii_towlower (c : Nat) : Nat := if 65 ≤ c ∧ c ≤ 90 then c + 32 else c

/-- The host of the examples: the image with handle `h` is the file `C:\h`
whose one-letter name is the code unit `h`; `imports` is given. -/
def example_env (imports : Nat → List WStr) : Env :=
  { towlower := ascii_towlower,
    GetModuleFileNameW := fun h => [67, 58, 92, h],
    SizeOfImage := fun _ => 65536,
    ImageBase := fun h => h * 65536,
    imports := imports }

/-- A record of the examples: the module with handle `h`, see `example_env`. -/
def example_dll (h : Nat) (type : dll_type) (next prev : Option Nat) : dll :=
  { dll.zero with
    handle := h, type := type, next := next, prev := prev, has_dtors := true,
    image_size := 65536, preferred_base := h * 65536,
    name := [67, 58, 92, h], modname := [h] }

/-- The example registry of three records at the addresses 1, 2, 3, in this
order, with the handles 65, 66, 67 (the modules `A`, `B`, `C`), all of the
kind `type`. -/
def example_three (type : dll_type) : dll_list :=
  { dlls with
    mem := fun a =>
      if a = 0 then { dll.zero with next := some 1 }
      else if a = 1 then example_dll 65 type (some 2) (some 0)
      else if a = 2 then example_dll 66 type (some 3) (some 1)
      else if a = 3 then example_dll 67 type none (some 2)
      else dll.zero,
    tail := some 3,
    loaded_dlls := if type = dll_type.DLL_LOAD then 3 else 0 }

/-- In this host the module `A` (handle 65) imports the module `B`. -/
def example_env_a_imports_b : Env :=
  example_env (fun h => if h = 65 then [[66]] else [])

/-- In this host no module imports another. -/
def example_env_no_imports : Env := example_env (fun _ => [])

/-- The example registry of the diamond: four `DLL_LINK` records at the
addresses 1, 2, 3, 4 with the handles 68, 66, 67, 65 (`D`, `B`, `C`, `A`). -/
def example_diamond : dll_list :=
  { dlls with
    mem := fun a =>
      if a = 0 then { dll.zero with next := some 1 }
      else if a = 1 then example_dll 68 dll_type.DLL_LINK (some 2) (some 0)
      else if a = 2 then example_dll 66 dll_type.DLL_LINK (some 3) (some 1)
      else if a = 3 then example_dll 67 dll_type.DLL_LINK (some 4) (some 2)
      else if a = 4 then example_dll 65 dll_type.DLL_LINK none (some 3)
      else dll.zero,
    tail := some 4 }

/-- In this host `D` imports `B` and `C`, and `B` and `C` import `A`. -/
def example_env_diamond : Env :=
  example_env (fun h =>
    if h = 68 then [[66], [67]] else if h = 66 ∨ h = 67 then [[65]] else [])

/-- The record `alloc` looks for in the chain `L`. -/
def chain_alloc_find (tl : Nat → Nat) (s : dll_list) (L : List Nat) (type : dll_type)
    (name modname : WStr) : Option Nat :=
  if type = dll_type.DLL_LINK then chain_find_modname tl s L modname
  else chain_find_name tl s L name

/-- The registry `alloc` leaves when it allocates the record `d`. -/
def alloc_inserted (env : Env) (s : dll_list) (d h : Nat) (p : per_process)
    (type : dll_type) (name modname : WStr) : dll_list :=
  if type = dll_type.DLL_LOAD then
    { (s.store d (alloc_record env s d h p type name modname)).append d with
      loaded_dlls := ((s.store d (alloc_record env s d h p type name modname)).append d).loaded_dlls + 1 }
  else (s.store d (alloc_record env s d h p type name modname)).append d

/-- The registries the program can be in between two operations: the initial
one, and those `alloc`, `detach` and `topsort` return from such a registry.
`alloc` gets from `cmalloc` an address that is not the sentinel and is not in
the chain (the block is new). -/
inductive dll_list.reachable (env : Env) : dll_list → Prop
  | start : dll_list.reachable env dlls
  | alloc (s s1 : dll_list) (f h : Nat) (p : per_process) (type : dll_type) (fresh d : Nat) :
      dll_list.reachable env s → fresh ≠ START → (∀ L, s.is_chain L → fresh ∉ L) →
      dll_list.alloc env f s h p type fresh = .ok (s1, d) → dll_list.reachable env s1
  | detach (s s1 : dll_list) (f : Nat) (myself in_forkee : Bool) (query : Option Nat) :
      dll_list.reachable env s → dll_list.detach f s myself in_forkee query = .ok s1 →
      dll_list.reachable env s1
  | topsort (s s1 : dll_list) (f : Nat) :
      dll_list.reachable env s → dll_list.topsort env f s = .ok s1 →
      dll_list.reachable env s1

/-- What identifies the records of the chain `L`: every record carries the
path the host reports for its handle and the base name of that path; two
`DLL_LINK` records differ in their base names, two `DLL_LOAD` records in their
full paths, and any two records in their handles. -/
def registry_unique (env : Env) (s : dll_list) (L : List Nat) : Prop :=
  (∀ x, x ∈ L → (s.mem x).name = alloc_name (env.GetModuleFileNameW (s.mem x).handle) ∧
    wcsrchr_succ (s.mem x).name = some (s.mem x).modname) ∧
  (∀ x, x ∈ L → ∀ y, y ∈ L → x ≠ y → (s.mem x).type = dll_type.DLL_LINK →
    (s.mem y).type = dll_type.DLL_LINK →
    wcscasecmp env.towlower (s.mem x).modname (s.mem y).modname ≠ 0) ∧
  (∀ x, x ∈ L → ∀ y, y ∈ L → x ≠ y → (s.mem x).type = dll_type.DLL_LOAD →
    (s.mem y).type = dll_type.DLL_LOAD →
    wcscasecmp env.towlower (s.mem x).name (s.mem y).name ≠ 0) ∧
  (∀ x, x ∈ L → ∀ y, y ∈ L → x ≠ y → (s.mem x).handle ≠ (s.mem y).handle)

/-- The metadata block of the examples, all zero. -/
def example_meta : per_process :=
  { envptr := 0, ctors := 0, dtors := 0, data_start := 0, data_end := 0,
    bss_start := 0, bss_end := 0, main := 0 }

/-- The example registry after the module `A` (handle 65) registered as
`DLL_LINK` in the initial registry, its record at the address 1. -/
def example_one : dll_list :=
  alloc_inserted example_env_no_imports dlls 1 65 example_meta dll_type.DLL_LINK
    [67, 58, 92, 65] [65]

/-- The example registry after the module `B` (handle 66) registered as
`DLL_LINK` in `example_one`, its record at the address 2. -/
def example_two : dll_list :=
  alloc_inserted example_env_no_imports example_one 2 66 example_meta dll_type.DLL_LINK
    [67, 58, 92, 66] [66]

/-- The metadata block of the examples whose `data_start` is 4096, all other
fields zero. -/
def example_meta_moved : per_process :=
  { envptr := 0, ctors := 0, dtors := 0, data_start := 4096, data_end := 0,
    bss_start := 0, bss_end := 0, main := 0 }

/-- The example registry of one `DLL_LINK` record at the address 1 for the
module with handle 65 and base name `A`, recorded with the path `D:\A` (the
parent found it in another directory than the one the host reports,
`C:\A`). -/
def example_other_path : dll_list :=
  { dlls with
    mem := fun a =>
      if a = 0 then { dll.zero with next := some 1 }
      else if a = 1 then
        { example_dll 65 dll_type.DLL_LINK none (some 0) with name := [68, 58, 92, 65] }
      else dll.zero,
    tail := some 1 }

/-- The registry `example_three` of linked modules with the metadata of the
first record replaced by `example_meta_moved`. -/
def example_three_refreshed : dll_list :=
  (example_three dll_type.DLL_LINK).store 1
    { (example_three dll_type.DLL_LINK).mem 1 with
      p := per_module.assign example_meta_moved }

/-- One call of the replay engine to the host, with what the host answered.
There is one constructor for every place in `load_after_fork_impl`,
`reserve_at` and `release_at` that calls the host; the calls made for a record
carry the record. -/
inductive replay_event where
  /-- Step 2, `VirtualFree (d->handle, 0, MEM_RELEASE)`. -/
  | release_protective (d : dll) (ok : Bool)
  /-- Step 2, `LoadLibraryExW (d->name, NULL, DONT_RESOLVE_DLL_REFERENCES)`,
  called in a frame whose retry counter is `retries`. -/
  | interim_mapping (d : dll) (retries : Nat) (h : Nat)
  /-- Step 2, `FreeLibrary (h)` of a mapping in the wrong place. -/
  | free_interim (d : dll) (h : Nat) (ok : Bool)
  /-- The `VirtualQuery (here, ...)` of `reserve_at`; the answer is `none` when
  the call fails, else whether the region is `MEM_FREE` and its `RegionSize`. -/
  | query (here : Nat) (r : Option (Bool × Nat))
  /-- The `VirtualAlloc (here, size, MEM_RESERVE, PAGE_NOACCESS)` of `reserve_at`. -/
  | reserve (here size : Nat) (ok : Bool)
  /-- The `VirtualFree (here, 0, MEM_RELEASE)` of `release_at`. -/
  | release (here : Nat) (ok : Bool)
  /-- Step 3, `VirtualFree (d->handle, 0, MEM_RELEASE)`. -/
  | release_preferred (d : dll) (ok : Bool)
  /-- Step 3, `FreeLibrary (d->handle)`. -/
  | unload_interim (d : dll) (ok : Bool)
  /-- Step 3, `LoadLibraryW (d->name)`. -/
  | load (d : dll) (h : Nat)
  /-- Step 3, `LoadLibraryW (d->name)` in the loop that fixes the OS reference
  count. -/
  | load_again (d : dll) (h : Nat)
deriving DecidableEq

/-- The host as the replay engine sees it: what each call answers, which may
depend on everything that happened before (the log of the earlier calls).
A handle or boolean `0` or `false` is the failure value. -/
structure Host where
  VirtualFree : List replay_event → Nat → Bool
  LoadLibraryExW : List replay_event → WStr → Nat
  FreeLibrary : List replay_event → Nat → Bool
  VirtualQuery : List replay_event → Nat → Option (Bool × Nat)
  VirtualAlloc : List replay_event → Nat → Nat → Bool
  LoadLibraryW : List replay_event → WStr → Nat

/-- The number of a `fabort` diagnostic of the replay engine: "couldn't
examine memory". -/
def MSG_EXAMINE : Nat := 3

/-- "couldn't allocate memory ... alignment". -/
def MSG_ALLOCATE : Nat := 4

/-- "couldn't release memory ... alignment". -/
def MSG_RELEASE : Nat := 5

/-- "unable to release protective reservation". -/
def MSG_PROTECTIVE : Nat := 6

/-- "unable to create interim mapping". -/
def MSG_INTERIM : Nat := 7

/-- "unable to block off ... to prevent ... from loading there". -/
def MSG_BLOCK : Nat := 8

/-- "unable to remap ... to same address as parent - try running rebaseall". -/
def MSG_REBASE : Nat := 9

/-- "unable to unload interim mapping". -/
def MSG_UNLOAD : Nat := 10

/-- "unable to map". -/
def MSG_MAP : Nat := 11

/-- "unable to map ... to same address as parent". -/
def MSG_MAP_ADDRESS : Nat := 12

/-- `DLL_RETRY_MAX`. -/
def DLL_RETRY_MAX : Nat := 6

/-- A value converted to `DWORD`. -/
def to_DWORD (x : Int) : Nat := (x % 4294967296).toNat

/-- `reserve_at (name, here, dll_base, dll_size)`: the log after the call and
the pointer returned (`0` for `NULL`).  Addresses are natural numbers, `size`
is a `DWORD`. -/
def reserve_at (H : Host) (log : List replay_event) (here dll_base dll_size : Nat) :
    List replay_event × Except Fault Nat :=
  let mb := H.VirtualQuery log here
  let log1 := log ++ [replay_event.query here mb]
  match mb with
  | none => (log1, .error (.fabort MSG_EXAMINE))
  | some (free, RegionSize) =>
    if free = false then (log1, .ok 0)
    else
      let size := to_DWORD RegionSize
      let tail_end := here + size
      let dll_end := dll_base + dll_size
      let here1 := if dll_base < here ∧ dll_end > here then dll_end else here
      let end1 :=
        if dll_base < here ∧ dll_end > here then tail_end
        else if dll_base ≥ here ∧ dll_base < tail_end then dll_base
        else tail_end
      let size1 := to_DWORD ((end1 : Int) - (here1 : Int))
      let ok := H.VirtualAlloc log1 here1 size1
      let log2 := log1 ++ [replay_event.reserve here1 size1 ok]
      if ok = false then (log2, .error (.fabort MSG_ALLOCATE))
      else (log2, .ok here1)

/-- `release_at (name, here)`. -/
def release_at (H : Host) (log : List replay_event) (here : Nat) :
    List replay_event × Option Fault :=
  let ok := H.VirtualFree log here
  let log1 := log ++ [replay_event.release here ok]
  if ok = false then (log1, some (.fabort MSG_RELEASE)) else (log1, none)

/-- The loop `for (int cnt = 1; cnt < d->count; ++cnt) LoadLibraryW (d->name)`
with `n` iterations left. -/
def fix_reference_count (H : Host) (d : dll) : Nat → List replay_event → List replay_event
  | 0, log => log
  | n + 1, log =>
    fix_reference_count H d n (log ++ [replay_event.load_again d (H.LoadLibraryW log d.name)])

/-- Step 3 of `load_after_fork_impl` on the records `ds` the iteration
`dlls.istart (DLL_LOAD)`, `dlls.inext ()` still has to yield. -/
def load_after_fork_step3 (H : Host) : List replay_event → List dll →
    List replay_event × Option Fault
  | log, [] => (log, none)
  | log, d :: rest =>
    let r :=
      if d.handle = d.preferred_base then
        let ok := H.VirtualFree log d.handle
        (log ++ [replay_event.release_preferred d ok],
          if ok = false then some (Fault.fabort MSG_PROTECTIVE) else none)
      else
        let ok := H.FreeLibrary log d.handle
        (log ++ [replay_event.unload_interim d ok],
          if ok = false then some (Fault.fabort MSG_UNLOAD) else none)
    match r with
    | (log1, some e) => (log1, some e)
    | (log1, none) =>
      let h := H.LoadLibraryW log1 d.name
      let log2 := log1 ++ [replay_event.load d h]
      if h = 0 then (log2, some (.fabort MSG_MAP))
      else if h ≠ d.handle then (log2, some (.fabort MSG_MAP_ADDRESS))
      else load_after_fork_step3 H (fix_reference_count H d (d.count - 1).toNat log2) rest

/-- `dll_list::load_after_fork_impl (parent, d, retries)`.  `all` are the
records the iteration over the `DLL_LOAD` records yields from `istart` on, `ds`
those it yields from `d` on (`[]` when `d` is `NULL`).  The result is the log of
the calls to the host and the fault, if any, that ended the replay. -/
def load_after_fork_impl (H : Host) (all : List dll) : Nat → List replay_event → List dll →
    Nat → List replay_event × Option Fault
  | 0, log, _, _ => (log, some .out_of_fuel)
  | _ + 1, log, [], _ => load_after_fork_step3 H log all
  | f + 1, log, d :: rest, retries =>
    if d.handle ≠ d.preferred_base then
      let r1 :=
        if retries = 0 then
          let ok := H.VirtualFree log d.handle
          (log ++ [replay_event.release_protective d ok], ok)
        else (log, true)
      if r1.2 = false then (r1.1, some (.fabort MSG_PROTECTIVE))
      else
        let h := H.LoadLibraryExW r1.1 d.name
        let log2 := r1.1 ++ [replay_event.interim_mapping d retries h]
        if h = 0 then (log2, some (.fabort MSG_INTERIM))
        else if h ≠ d.handle then
          let log3 := log2 ++ [replay_event.free_interim d h (H.FreeLibrary log2 h)]
          match reserve_at H log3 h d.handle d.image_size with
          | (log4, .error e) => (log4, some e)
          | (log4, .ok reservation) =>
            if reservation = 0 then (log4, some (.fabort MSG_BLOCK))
            else if retries < DLL_RETRY_MAX then
              match load_after_fork_impl H all f log4 (d :: rest) (retries + 1) with
              | (log5, some e) => (log5, some e)
              | (log5, none) => release_at H log5 reservation
            else (log4, some (.fabort MSG_REBASE))
        else load_after_fork_impl H all f log2 rest retries
    else load_after_fork_impl H all f log rest retries

/-- `dll_list::load_after_fork (parent)`: the replay over the records `all`
that the iteration over the `DLL_LOAD` records of the registry yields.  The
flag `in_load_after_fork` it sets and clears is read by `dll_dllcrt0_1` only. -/
def load_after_fork (H : Host) (fuel : Nat) (all : List dll) :
    List replay_event × Option Fault :=
  load_after_fork_impl H all fuel [] all 0

/-- The realizing loads of a log, in order: the record and the handle
`LoadLibraryW` returned. -/
def realizing_loads : List replay_event → List (dll × Nat)
  | [] => []
  | replay_event.load d h :: rest => (d, h) :: realizing_loads rest
  | _ :: rest => realizing_loads rest

/-- An event of Step 3. -/
def replay_event.is_step3 : replay_event → Bool
  | .release_preferred _ _ => true
  | .unload_interim _ _ => true
  | .load _ _ => true
  | .load_again _ _ => true
  | _ => false

/-- An interim mapping that landed at an address other than the handle of its
record. -/
def replay_event.is_wrong_landing : replay_event → Bool
  | .interim_mapping d _ h => decide (h ≠ 0 ∧ h ≠ d.handle)
  | _ => false

/-- The retry counter follows the wrong landings: every interim mapping of the
log is requested with the counter `c` plus the number of interim mappings that
landed at a wrong address before it. -/
def counters_follow : Nat → List replay_event → Prop
  | _, [] => True
  | c, e :: rest =>
    (match e with
      | .interim_mapping _ r _ => r = c
      | _ => True) ∧
    counters_follow (if e.is_wrong_landing then c + 1 else c) rest

/-- `counters_follow` can be checked by evaluation. -/
instance counters_follow_decidable : ∀ (c : Nat) (log : List replay_event),
    Decidable (counters_follow c log)
  | _, [] => by unfold counters_follow; exact inferInstance
  | c, e :: rest => by
    unfold counters_follow
    have := counters_follow_decidable (if e.is_wrong_landing then c + 1 else c) rest
    cases e <;> exact inferInstance

/-- Whether the event is an interim mapping request. -/
def replay_event.is_interim : replay_event → Bool
  | .interim_mapping _ _ _ => true
  | _ => false

/-- An example host for the modules `mods`: memory calls succeed, every
region queried is free and one megabyte long, `LoadLibraryW` maps a module at
the handle of its record, and `LoadLibraryExW` maps it at its handle once
`wrong` interim mappings were requested; before that it maps it at its
preferred base, one megabyte further up for every interim mapping requested
so far. -/
def example_host (mods : List dll) (wrong : Nat) : Host :=
  { VirtualFree := fun _ _ => true,
    LoadLibraryExW := fun log name =>
      match mods.find? (fun d => decide (d.name = name)) with
      | none => 0
      | some d =>
        if (log.filter replay_event.is_interim).length < wrong then
          d.preferred_base + 1048576 * (log.filter replay_event.is_interim).length
        else d.handle,
    FreeLibrary := fun _ _ => true,
    VirtualQuery := fun _ _ => some (true, 1048576),
    VirtualAlloc := fun _ _ _ => true,
    LoadLibraryW := fun _ name =>
      match mods.find? (fun d => decide (d.name = name)) with
      | none => 0
      | some d => d.handle }

/-- Whether the log holds a blockade at the address `here`. -/
def log_blocked (log : List replay_event) (here : Nat) : Bool :=
  log.any (fun e => match e with
    | .reserve a _ ok => decide (a = here) && ok
    | _ => false)

/-- Whether the log holds the release of the protective reservation of the
record with handle `h`. -/
def log_released (log : List replay_event) (h : Nat) : Bool :=
  log.any (fun e => match e with
    | .release_protective d ok => decide (d.handle = h) && ok
    | _ => false)

/-- A host that honours reservations, for the modules `mods`: `LoadLibraryExW`
maps a module at its preferred base unless the replay blocked that address; it
then maps it at the handle of its record when the protective reservation there
was released, and one megabyte further up for every blockade otherwise.
Everything else is as in `example_host`. -/
def example_host_strict (mods : List dll) : Host :=
  { example_host mods 0 with
    LoadLibraryExW := fun log name =>
      match mods.find? (fun d => decide (d.name = name)) with
      | none => 0
      | some d =>
        if log_blocked log d.preferred_base = false then d.preferred_base
        else if log_released log d.handle then d.handle
        else d.preferred_base + 1048576 * (log.filter (fun e => match e with
          | .reserve _ _ _ => true
          | _ => false)).length }

/-- The example record of the module `A` in the forked child: the parent had
it at `0x10000000`, its preferred base is `0x70000000`, it was opened twice. -/
def example_loaded_a : dll :=
  { dll.zero with
    name := [67, 58, 92, 65], modname := [65], handle := 268435456,
    preferred_base := 1879048192, image_size := 65536, count := 2,
    type := dll_type.DLL_LOAD, has_dtors := true }

/-- The example record of the module `B` in the forked child: the parent had
it at `0x20000000`, its preferred base is `0x71000000`, it was opened once. -/
def example_loaded_b : dll :=
  { dll.zero with
    name := [67, 58, 92, 66], modname := [66], handle := 536870912,
    preferred_base := 1895825408, image_size := 65536, count := 1,
    type := dll_type.DLL_LOAD, has_dtors := true }

/-- The example record of the module `C` in the forked child: the parent had
it at its preferred base `0x30000000`, it was opened once. -/
def example_loaded_c : dll :=
  { dll.zero with
    name := [67, 58, 92, 67], modname := [67], handle := 805306368,
    preferred_base := 805306368, image_size := 65536, count := 1,
    type := dll_type.DLL_LOAD, has_dtors := true }

/-- The log with which a frame of Step 2 requests the interim mapping of `d`:
the release of the protective reservation is logged when the retry counter is
`0`. -/
def step2_entry (H : Host) (log : List replay_event) (d : dll) (retries : Nat) :
    List replay_event :=
  if retries = 0 then log ++ [replay_event.release_protective d (H.VirtualFree log d.handle)]
  else log

/-- The log of a frame of Step 2 after the interim mapping of `d`. -/
def step2_mapped (H : Host) (log : List replay_event) (d : dll) (retries : Nat) :
    List replay_event :=
  step2_entry H log d retries ++
    [replay_event.interim_mapping d retries (H.LoadLibraryExW (step2_entry H log d retries) d.name)]

/-- The log of a frame of Step 2 after it unloaded an interim mapping in the
wrong place. -/
def step2_freed (H : Host) (log : List replay_event) (d : dll) (retries : Nat) :
    List replay_event :=
  step2_mapped H log d retries ++
    [replay_event.free_interim d (H.LoadLibraryExW (step2_entry H log d retries) d.name)
      (H.FreeLibrary (step2_mapped H log d retries)
        (H.LoadLibraryExW (step2_entry H log d retries) d.name))]

/-- What it means that the host gave the answer the event records when the log
of the earlier calls was `pre`. -/
def replay_event.answered (H : Host) (pre : List replay_event) : replay_event → Prop
  | .release_protective d ok => ok = H.VirtualFree pre d.handle
  | .interim_mapping d _ h => h = H.LoadLibraryExW pre d.name
  | .free_interim _ h ok => ok = H.FreeLibrary pre h
  | .query here r => r = H.VirtualQuery pre here
  | .reserve here size ok => ok = H.VirtualAlloc pre here size
  | .release here ok => ok = H.VirtualFree pre here
  | .release_preferred d ok => ok = H.VirtualFree pre d.handle
  | .unload_interim d ok => ok = H.FreeLibrary pre d.handle
  | .load d h => h = H.LoadLibraryW pre d.name
  | .load_again d h => h = H.LoadLibraryW pre d.name

/-- Every event of the log `ext`, which continues the log `pre`, records what
the host answered at that point. -/
def host_answers (H : Host) : List replay_event → List replay_event → Prop
  | _, [] => True
  | pre, e :: rest => e.answered H pre ∧ host_answers H (pre ++ [e]) rest

/-- The number of interim mappings of a log that landed at a wrong address. -/
def wrong_count (log : List replay_event) : Nat :=
  (log.filter replay_event.is_wrong_landing).length

/-- A stretch of log without interim mappings and without events of Step 3. -/
def quiet (ext : List replay_event) : Prop :=
  ∀ e ∈ ext, replay_event.is_interim e = false ∧ replay_event.is_step3 e = false

/-- The invariant of Step 2 in a frame whose retry counter is `r`: `r` wrong
landings so far, every interim mapping requested with the counter that follows
the wrong landings before it, no event of Step 3, and no wrong landing with the
counter at `DLL_RETRY_MAX`. -/
def step2_inv (r : Nat) (log : List replay_event) : Prop :=
  wrong_count log = r ∧ counters_follow 0 log ∧
  (∀ e ∈ log, replay_event.is_step3 e = false) ∧
  (∀ d c h, replay_event.interim_mapping d c h ∈ log →
    c ≤ DLL_RETRY_MAX ∧ (c = DLL_RETRY_MAX → h = 0 ∨ h = d.handle))

/-- What the replay guarantees about the retry counter, stated on its result:
the counter follows the wrong landings, it never exceeds `DLL_RETRY_MAX`, a
wrong landing with the counter at `DLL_RETRY_MAX` ends the replay with a fault
before Step 3, and the rebase diagnostic is produced in that case only. -/
def replay_post (res : List replay_event × Option Fault) : Prop :=
  counters_follow 0 res.1 ∧
  (∀ d c h, replay_event.interim_mapping d c h ∈ res.1 → c ≤ DLL_RETRY_MAX) ∧
  (∀ d h, replay_event.interim_mapping d DLL_RETRY_MAX h ∈ res.1 → h ≠ 0 → h ≠ d.handle →
    (∃ m, res.2 = some (.fabort m) ∧
      (m = MSG_REBASE ∨ m = MSG_EXAMINE ∨ m = MSG_ALLOCATE ∨ m = MSG_BLOCK)) ∧
    ∀ e ∈ res.1, replay_event.is_step3 e = false) ∧
  (res.2 = some (.fabort MSG_REBASE) →
    ∃ d h, replay_event.interim_mapping d DLL_RETRY_MAX h ∈ res.1 ∧ h ≠ 0 ∧ h ≠ d.handle)

/-- The records that survive `dll_list::detach`, when `R` are the records
before it: the first record with the handle that `VirtualQuery` reported leaves,
unless the guard returns early or no record has that handle. -/
def detach_survivors (s : dll_list) (R : List Nat) (myself in_forkee : Bool)
    (query : Option Nat) : List Nat :=
  if myself = false ∨ in_forkee = true then R
  else
    match query with
    | none => R
    | some h =>
      match chain_find_handle s R h with
      | none => R
      | some d => R.erase d

/-- In this host the module `A` (handle 65) imports the module `B` (handle 66)
and `B` imports `A`: the cycle `P -> Q`, `Q -> P`. -/
def example_env_cycle : Env :=
  example_env (fun h => if h = 65 then [[66]] else if h = 66 then [[65]] else [])

/-- In this host the module `A` (handle 65) names itself among its
imported modules. -/
def example_env_self : Env :=
  example_env (fun h => if h = 65 then [[65]] else [])

/-- The scan `for (i = 1; pfunc[i]; i++);` of `per_module::run_ctors` from the
index `i` on: the first index at or after `i` whose entry is null.  `pfunc`
gives the entry at every index of the array, `0` being the null pointer; the
array has fewer than `2^31` entries, so the `int` index does not overflow. -/
def run_ctors_scan (pfunc : Nat → Nat) : Nat → Nat → Except Fault Nat
  | 0, _ => .error .out_of_fuel
  | f + 1, i => if pfunc i ≠ 0 then run_ctors_scan pfunc f (i + 1) else .ok i

/-- The loop `for (int j = i - 1; j > 0; j--) (pfunc[j]) ();` of
`per_module::run_ctors` started with the index `j`: the functions called, in
order. -/
def run_ctors_calls (pfunc : Nat → Nat) : Nat → List Nat
  | 0 => []
  | j + 1 => pfunc (j + 1) :: run_ctors_calls pfunc j

/-- `per_module::run_ctors`: the functions called, in order.  `arrays a` is the
function pointer array at the address `a`. -/
def per_module.run_ctors (arrays : Nat → Nat → Nat) (fuel : Nat) (p : per_module) :
    Except Fault (List Nat) :=
  if p.ctors ≠ 0 then
    match run_ctors_scan (arrays p.ctors) fuel 1 with
    | .error e => .error e
    | .ok i => .ok (run_ctors_calls (arrays p.ctors) (i - 1))
  else .ok []

/-- The function pointer arrays of the examples: the array at the address 4096
holds the entries 9, 11, 12, 13 and then null. -/
def example_arrays (a i : Nat) : Nat :=
  if a = 4096 then (if i = 0 then 9 else if i = 1 then 11 else if i = 2 then 12
    else if i = 3 then 13 else 0)
  else 0

/-- The metadata of the examples whose constructor array is at the address
4096. -/
def example_module : per_module :=
  { envptr := 0, ctors := 4096, dtors := 0, data_start := 0, data_end := 0,
    bss_start := 0, bss_end := 0, main := 0 }

/-- The calls of the normal host loader (`LoadLibraryW`, made in Step 3 only)
in a log, in order: the record each call was made for. -/
def loader_calls : List replay_event → List dll
  | [] => []
  | replay_event.load d _ :: rest => d :: loader_calls rest
  | replay_event.load_again d _ :: rest => d :: loader_calls rest
  | _ :: rest => loader_calls rest

/-- The number of times Step 3 calls the normal host loader for the record
`d`: the realizing load and the loads of the loop
`for (int cnt = 1; cnt < d->count; ++cnt)`. -/
def loader_call_count (d : dll) : Nat := 1 + (d.count - 1).toNat

/-- The example record of a module that the host loader mapped without
`dlopen`, with the reference count `0` that `dll_list::alloc` gives a record:
the parent had it at its preferred base `0x40000000`. -/
def example_loaded_uncounted : dll :=
  { dll.zero with
    name := [67, 58, 92, 68], modname := [68], handle := 1073741824,
    preferred_base := 1073741824, image_size := 65536, count := 0,
    type := dll_type.DLL_LOAD, has_dtors := true }

/-- The registry together with the static flag `dll_global_dtors_recorded`. -/
structure Process where
  dlls : dll_list
  dll_global_dtors_recorded : Bool

/-- What the runtime around the registry provides: the function pointer array
at an address (see `per_module.run_ctors`), the value the entry function at an
address returns when called as `main (0, 0, 0)`, the global
`__cygwin_user_data`, and whether `check_sanity_and_sync` accepts a metadata
block (it ends the process when it does not). -/
structure Runtime where
  arrays : Nat → Nat → Nat
  call_main : Nat → Int
  __cygwin_user_data : per_process
  check_sanity_and_sync : per_process → Bool

/-- A call that `dll::init` makes into the module, with the function called. -/
inductive init_event where
  | ctor (fn : Nat)
  | main (fn : Nat)
deriving DecidableEq

/-- `dll::init` (the `x86_64` build, which does not touch `envptr`): the value
returned and the calls made into the module. -/
def dll.init (R : Runtime) (fuel : Nat) (in_forkee : Bool) (d : dll) :
    Except Fault (Int × List init_event) :=
  if in_forkee = false then
    match d.p.run_ctors R.arrays fuel with
    | .error e => .error e
    | .ok cs =>
      if d.p.main ≠ 0 then
        .ok (R.call_main d.p.main, cs.map init_event.ctor ++ [init_event.main d.p.main])
      else .ok (1, cs.map init_event.ctor)
  else .ok (1, [])

/-- The loop `while ((d = d->next)) d->init ();` of `dll_list::init`: the calls
made into the modules. -/
def dll_list_init_loop (R : Runtime) (in_forkee : Bool) : Nat → dll_list → Nat →
    Except Fault (List init_event)
  | 0, _, _ => .error .out_of_fuel
  | f + 1, s, d =>
    match (s.mem d).next with
    | none => .ok []
    | some n =>
      match dll.init R f in_forkee (s.mem n) with
      | .error e => .error e
      | .ok (_, ev) =>
        match dll_list_init_loop R in_forkee f s n with
        | .error e => .error e
        | .ok evs => .ok (ev ++ evs)

/-- `dll_list::init`: the flag records whether the chain has a record, then
every record is initialised. -/
def dll_list.init (R : Runtime) (fuel : Nat) (in_forkee : Bool) (g : Process) :
    Except Fault (Process × List init_event) :=
  let g1 : Process :=
    { g with dll_global_dtors_recorded := decide ((g.dlls.mem START).next ≠ none) }
  match dll_list_init_loop R in_forkee fuel g1.dlls START with
  | .error e => .error e
  | .ok evs => .ok (g1, evs)

/-- The loop `for (dll *d = dlls.end; d != &dlls.start; d = d->prev) d->run_dtors ();`
from the record `d` on: the records on which `run_dtors` is called, in order.
(`dll::run_dtors` is declared in `dll_init.h`; the call is recorded.) -/
def dtors_loop : Nat → dll_list → Option Nat → Except Fault (List Nat)
  | 0, _, _ => .error .out_of_fuel
  | f + 1, s, d =>
    match d with
    | none => .error .undefined
    | some a =>
      if a = START then .ok []
      else
        match dtors_loop f s (s.mem a).prev with
        | .error e => .error e
        | .ok l => .ok (a :: l)

/-- `dll_global_dtors`: the state it leaves and, when it runs the destructor
pass, the records on which the pass called `run_dtors`, in order (`none` when
the pass is not run). -/
def dll_global_dtors (fuel : Nat) (in_forkee : Bool) (g : Process) :
    Except Fault (Process × Option (List Nat)) :=
  if in_forkee = true then .ok (g, none)
  else
    let recorded := g.dll_global_dtors_recorded
    let g1 : Process := { g with dll_global_dtors_recorded := false }
    if recorded = true ∧ (g1.dlls.mem START).next ≠ none then
      match dtors_loop fuel g1.dlls g1.dlls.tail with
      | .error e => .error e
      | .ok l => .ok (g1, some l)
    else .ok (g1, none)

/-- The registries reached from the initial one by `alloc` and `detach` alone,
each with the records that survive in it, in the order in which they were
registered: `alloc` adds the record it creates at the end, `detach` takes the
record it unlinks out. -/
inductive dll_list.registered (env : Env) : dll_list → List Nat → Prop
  | start : dll_list.registered env dlls []
  | alloc (s s1 : dll_list) (R : List Nat) (f h : Nat) (p : per_process) (type : dll_type)
      (fresh d : Nat) :
      dll_list.registered env s R → fresh ≠ START → fresh ∉ R →
      dll_list.alloc env f s h p type fresh = .ok (s1, d) →
      dll_list.registered env s1 (if d ∈ R then R else R ++ [d])
  | detach (s s1 : dll_list) (R : List Nat) (f : Nat) (myself in_forkee : Bool)
      (query : Option Nat) :
      dll_list.registered env s R → dll_list.detach f s myself in_forkee query = .ok s1 →
      dll_list.registered env s1 (detach_survivors s R myself in_forkee query)

/-- The states of the registry and the flag reached from the initial ones by
`alloc` (insert), `detach`, `dll_list::init` and `dll_global_dtors` with
`in_forkee` false. -/
inductive process_reachable (env : Env) (R : Runtime) : Process → Prop
  | start : process_reachable env R ⟨dlls, false⟩
  | insert (g : Process) (s1 : dll_list) (f h : Nat) (p : per_process) (type : dll_type)
      (fresh d : Nat) :
      process_reachable env R g → fresh ≠ START → (∀ L, g.dlls.is_chain L → fresh ∉ L) →
      dll_list.alloc env f g.dlls h p type fresh = .ok (s1, d) →
      process_reachable env R { g with dlls := s1 }
  | detach (g : Process) (s1 : dll_list) (f : Nat) (myself in_forkee : Bool)
      (query : Option Nat) :
      process_reachable env R g → dll_list.detach f g.dlls myself in_forkee query = .ok s1 →
      process_reachable env R { g with dlls := s1 }
  | init (g g1 : Process) (f : Nat) (in_forkee : Bool) (ev : List init_event) :
      process_reachable env R g → dll_list.init R f in_forkee g = .ok (g1, ev) →
      process_reachable env R g1
  | dtors (g g1 : Process) (f : Nat) (r : Option (List Nat)) :
      process_reachable env R g → dll_global_dtors f false g = .ok (g1, r) →
      process_reachable env R g1

/-- The runtime of the examples: the arrays `example_arrays`, entry functions
that return their own address minus 100 (the entry function at the address 100
returns 0), and a sanity check that accepts every block. -/
def example_runtime : Runtime :=
  { arrays := example_arrays,
    call_main := fun fn => (fn : Int) - 100,
    __cygwin_user_data := example_meta,
    check_sanity_and_sync := fun _ => true }

/-- The example registry after the module `C` (handle 67) registered as
`DLL_LINK` in `example_two`, its record at the address 3. -/
def example_three_registered : dll_list :=
  alloc_inserted example_env_no_imports example_two 3 67 example_meta dll_type.DLL_LINK
    [67, 58, 92, 67] [67]

/-- The globals the entry stub and `dll::init` read. -/
structure Globals where
  dynamically_loaded : Bool
  cygwin_finished_initializing : Bool
  in_load_after_fork : Bool
  in_forkee : Bool

/-- The `PVOID` that `dll_dllcrt0` returns: `(PVOID) 1`, `(PVOID) -1`, or the
record `d`. -/
inductive dllcrt0_result where
  | one
  | minus_one
  | record (d : Nat)
deriving DecidableEq

/-- The number of the fatal diagnostic of `check_sanity_and_sync`. -/
def MSG_SANITY : Nat := 13

/-- The kind `dll_dllcrt0_1` gives the module: `DLL_LINK` when
`linked = !cygwin_finished_initializing && !in_load_after_fork`, else
`DLL_LOAD`. -/
def dllcrt0_linked (fl : Globals) : Bool :=
  !fl.cygwin_finished_initializing && !fl.in_load_after_fork

/-- The block `p` after `if (p == NULL) p = &__cygwin_user_data;`. -/
def dllcrt0_meta (R : Runtime) (p : Option per_process) : per_process :=
  match p with
  | none => R.__cygwin_user_data
  | some q => q

/-- `dll_dllcrt0_1`: the registry it leaves, the value it stores in `res`, and
the calls `dll::init` made into the module.  `p` is `none` for `NULL`.  The
store through `impure_ptr_ptr` and the pseudo-relocator do not touch the
registry and have no counterpart. -/
def dll_dllcrt0_1 (env : Env) (R : Runtime) (fuel : Nat) (fl : Globals) (s : dll_list)
    (h : Nat) (p : Option per_process) (fresh : Nat) :
    Except Fault (dll_list × dllcrt0_result × List init_event) :=
  let p1 : per_process := dllcrt0_meta R p
  let linked := dllcrt0_linked fl
  if R.check_sanity_and_sync p1 = false then .error (.fabort MSG_SANITY)
  else
    let type := if linked = true then dll_type.DLL_LINK else dll_type.DLL_LOAD
    let s0 := if linked = true then s else { s with reload_on_fork := 1 }
    match dll_list.alloc env fuel s0 h p1 type fresh with
    | .error e => .error e
    | .ok (s1, d) =>
      if linked = true then .ok (s1, dllcrt0_result.record d, [])
      else
        match dll.init R fuel fl.in_forkee (s1.mem d) with
        | .error e => .error e
        | .ok (ret, ev) =>
          if ret = 0 then .ok (s1, dllcrt0_result.minus_one, ev)
          else .ok (s1, dllcrt0_result.record d, ev)

/-- `dll_dllcrt0 (h, p)`. -/
def dll_dllcrt0 (env : Env) (R : Runtime) (fuel : Nat) (fl : Globals) (s : dll_list)
    (h : Nat) (p : Option per_process) (fresh : Nat) :
    Except Fault (dll_list × dllcrt0_result × List init_event) :=
  if fl.dynamically_loaded = true then .ok (s, dllcrt0_result.one, [])
  else dll_dllcrt0_1 env R fuel fl s h p fresh

/-- The metadata block of the examples whose entry function is at the address
100. -/
def example_meta_main : per_process :=
  { envptr := 0, ctors := 0, dtors := 0, data_start := 0, data_end := 0,
    bss_start := 0, bss_end := 0, main := 100 }

/-- The example registry after the module `A` (handle 65) registered as
`DLL_LOAD` in the initial registry, its record at the address 1. -/
def example_one_loaded : dll_list :=
  alloc_inserted example_env_no_imports dlls 1 65 example_meta dll_type.DLL_LOAD
    [67, 58, 92, 65] [65]

/-- No import name of a record of the chain `L` resolves to another record of
the chain: a record of `L` whose base name compares equal to an import name of
`x` is `x` itself. -/
def imports_none_other (env : Env) (s : dll_list) (L : List Nat) : Prop :=
  ∀ x, x ∈ L → ∀ m, m ∈ env.imports (s.mem x).handle → ∀ y, y ∈ L →
    wcscasecmp env.towlower m (s.mem y).modname = 0 → y = x

/-- `imports_none_other` can be checked by evaluation. -/
instance imports_none_other_decidable (env : Env) (s : dll_list) (L : List Nat) :
    Decidable (imports_none_other env s L) := by
  unfold imports_none_other; exact inferInstance

/-- The blockades a log reserves: the addresses of the reservations of
`reserve_at` that the host granted, in order. -/
def reserved_blockades : List replay_event → List Nat
  | [] => []
  | replay_event.reserve a _ true :: rest => a :: reserved_blockades rest
  | _ :: rest => reserved_blockades rest

/-- The blockades a log releases: the addresses of the releases of `release_at`
that the host granted, in order. -/
def released_blockades : List replay_event → List Nat
  | [] => []
  | replay_event.release a true :: rest => a :: released_blockades rest
  | _ :: rest => released_blockades rest

/-- A call of `release_at`. -/
def replay_event.is_release : replay_event → Bool
  | .release _ _ => true
  | _ => false

/-- A call of `reserve_at` or `release_at` that concerns a blockade. -/
def replay_event.is_blockade : replay_event → Bool
  | .reserve _ _ _ => true
  | .release _ _ => true
  | _ => false

/-- The releases of the blockades `l`, last reserved first, each granted. -/
def blockade_releases (l : List Nat) : List replay_event :=
  l.reverse.map (fun a => replay_event.release a true)

/-! ## Theorems -/


/-! ## The chain as a list -/

section chain_lemmas

theorem store_mem_same (s : dll_list) (d : Nat) (v : dll) : (s.store d v).mem d = v := by
  simp [dll_list.store]

theorem store_mem_other (s : dll_list) (d a : Nat) (v : dll) (h : a ≠ d) :
    (s.store d v).mem a = s.mem a := by
  simp [dll_list.store, Function.update_noteq h]

theorem store_tail (s : dll_list) (d : Nat) (v : dll) : (s.store d v).tail = s.tail := rfl

theorem store_loaded (s : dll_list) (d : Nat) (v : dll) :
    (s.store d v).loaded_dlls = s.loaded_dlls := rfl

/-- Links only depend on the `next` and `prev` fields along the path. -/
theorem links_congr (s t : dll_list) : ∀ (l : List Nat) (d : Nat),
    (∀ a, a = d ∨ a ∈ l → (t.mem a).next = (s.mem a).next) →
    (∀ a, a ∈ l → (t.mem a).prev = (s.mem a).prev) →
    links s d l → links t d l
  | [], d, hn, _, h => by
    unfold links at *
    rw [hn d (Or.inl rfl)]; exact h
  | x :: xs, d, hn, hp, h => by
    unfold links at *
    obtain ⟨h1, h2, h3⟩ := h
    refine ⟨?_, ?_, ?_⟩
    · rw [hn d (Or.inl rfl)]; exact h1
    · rw [hp x (List.mem_cons_self _ _)]; exact h2
    · apply links_congr s t xs x _ _ h3
      · intro a ha
        apply hn
        rcases ha with ha | ha
        · right; rw [ha]; exact List.mem_cons_self _ _
        · right; exact List.mem_cons_of_mem _ ha
      · intro a ha
        exact hp a (List.mem_cons_of_mem _ ha)

theorem links_next_last (s : dll_list) : ∀ (l : List Nat) (d : Nat),
    links s d l → (s.mem ((d :: l).getLast (List.cons_ne_nil _ _))).next = none
  | [], d, h => by simpa [links] using h
  | x :: xs, d, h => by
    unfold links at h
    have := links_next_last s xs x h.2.2
    simpa [List.getLast_cons] using this

/-- The links determine the list. -/
theorem links_unique (s : dll_list) : ∀ (l l2 : List Nat) (d : Nat),
    links s d l → links s d l2 → l = l2
  | [], [], _, _, _ => rfl
  | [], y :: ys, d, h1, h2 => by
    unfold links at h1 h2; rw [h1] at h2; exact absurd h2.1 (by simp)
  | x :: xs, [], d, h1, h2 => by
    unfold links at h1 h2; rw [h2] at h1; exact absurd h1.1 (by simp)
  | x :: xs, y :: ys, d, h1, h2 => by
    unfold links at h1 h2
    have hxy : x = y := by
      have := h1.1; rw [h2.1] at this; exact (Option.some.inj this).symm
    subst hxy
    rw [links_unique s xs ys x h1.2.2 h2.2.2]

theorem is_chain_unique (s : dll_list) (l l2 : List Nat)
    (h1 : s.is_chain l) (h2 : s.is_chain l2) : l = l2 :=
  links_unique s l l2 START h1.1 h2.1

end chain_lemmas

/-! ## The sort as a depth-first traversal of lists -/

section sort_lemmas

variable {G : Nat → List Nat}

theorem SortRun.each_append {st2 : SortSt} : ∀ (l1 l2 : List Nat) (st : SortSt),
    SortRun G st (.each (l1 ++ l2)) st2 →
    ∃ st1, SortRun G st (.each l1) st1 ∧ SortRun G st1 (.each l2) st2
  | [], l2, st, h => ⟨st, SortRun.done st, h⟩
  | y :: l1, l2, st, h => by
    cases h with
    | step _ sta _ _ _ h1 h2 =>
      obtain ⟨st1, h3, h4⟩ := SortRun.each_append l1 l2 sta h2
      exact ⟨st1, SortRun.step _ _ _ _ _ h1 h3, h4⟩

theorem SortRun.each_single {st st1 : SortSt} {y : Nat}
    (h : SortRun G st (.each [y]) st1) : SortRun G st (.visit y) st1 := by
  cases h with
  | step _ sta _ _ _ h1 h2 =>
    cases h2
    exact h1

/-- The effect of a run: records are appended to the rebuilt chain; they are
exactly the records the run marked, each once. -/
theorem SortRun.added {st st1 : SortSt} {c : SortCmd} (h : SortRun G st c st1) :
    ∃ added : List Nat, st1.out = st.out ++ added ∧ added.Nodup ∧
      (∀ x, x ∈ st1.marked ↔ x ∈ st.marked ∨ x ∈ added) ∧
      (∀ x, x ∈ added → x ∉ st.marked) := by
  induction h with
  | skip st d hd => exact ⟨[], by simp, by simp, by simp, by simp⟩
  | enter st st1 d hd _ ih =>
    obtain ⟨added, h1, h2, h3, h4⟩ := ih
    refine ⟨added ++ [d], ?_, ?_, ?_, ?_⟩
    · simp [h1]
    · rw [List.nodup_append]
      refine ⟨h2, by simp, ?_⟩
      intro a ha hb
      simp at hb
      subst hb
      exact h4 a ha (by simp)
    · intro x
      rw [h3 x]
      simp
      tauto
    · intro x hx
      simp at hx
      rcases hx with hx | hx
      · have := h4 x hx
        simp at this
        exact this.2
      · subst hx; exact hd
  | done st => exact ⟨[], by simp, by simp, by simp, by simp⟩
  | step st st1 st2 y ys _ _ ih1 ih2 =>
    obtain ⟨a1, h1, h2, h3, h4⟩ := ih1
    obtain ⟨a2, k1, k2, k3, k4⟩ := ih2
    refine ⟨a1 ++ a2, ?_, ?_, ?_, ?_⟩
    · rw [k1, h1]; simp
    · rw [List.nodup_append]
      refine ⟨h2, k2, ?_⟩
      intro a ha hb
      exact k4 a hb ((h3 a).2 (Or.inr ha))
    · intro x
      rw [k3 x, h3 x]
      simp
      tauto
    · intro x hx
      simp at hx
      rcases hx with hx | hx
      · exact h4 x hx
      · intro hm
        exact k4 x hx ((h3 x).2 (Or.inl hm))

theorem SortRun.marked_mono {st st1 : SortSt} {c : SortCmd} (h : SortRun G st c st1)
    {x : Nat} (hx : x ∈ st.marked) : x ∈ st1.marked := by
  obtain ⟨added, _, _, h3, _⟩ := h.added
  exact (h3 x).2 (Or.inl hx)

theorem SortRun.visit_marked {st st1 : SortSt} {d : Nat}
    (h : SortRun G st (.visit d) st1) : d ∈ st1.marked := by
  cases h with
  | skip _ _ hd => exact hd
  | enter _ st2 _ hd h2 =>
    exact h2.marked_mono (by simp)

end sort_lemmas

section precedes_lemmas

theorem precedes_append_left {l : List Nat} (m : List Nat) {a b : Nat}
    (h : precedes l a b) : precedes (l ++ m) a b := by
  obtain ⟨h1, h2⟩ := h
  have ha : a ∈ l := by
    rw [← List.indexOf_lt_length]
    exact lt_trans h1 (List.indexOf_lt_length.2 h2)
  refine ⟨?_, List.mem_append_left _ h2⟩
  rw [List.indexOf_append_of_mem ha, List.indexOf_append_of_mem h2]
  exact h1

theorem precedes_append_split {l m : List Nat} {a b : Nat}
    (ha : a ∈ l) (hb : b ∉ l) (hm : b ∈ m) : precedes (l ++ m) a b := by
  refine ⟨?_, List.mem_append_right _ hm⟩
  rw [List.indexOf_append_of_mem ha, List.indexOf_append_of_not_mem hb]
  have := List.indexOf_lt_length.2 ha
  omega

theorem precedes_mem_left {l : List Nat} {a b : Nat} (h : precedes l a b) : a ∈ l := by
  rw [← List.indexOf_lt_length]
  exact lt_trans h.1 (List.indexOf_lt_length.2 h.2)

theorem precedes_ne {l : List Nat} {a b : Nat} (h : precedes l a b) : a ≠ b := by
  intro hab
  subst hab
  exact lt_irrefl _ h.1

theorem first_occurrence {l : List Nat} {b : Nat} (hb : b ∈ l) :
    ∃ s t, l = s ++ b :: t ∧ b ∉ s := by
  induction l with
  | nil => exact absurd hb (by simp)
  | cons e l ih =>
    by_cases heb : e = b
    · exact ⟨[], l, by simp [heb], by simp⟩
    · have hb2 : b ∈ l := by
        rcases List.mem_cons.1 hb with hb2 | hb2
        · exact absurd hb2.symm heb
        · exact hb2
      obtain ⟨s2, t2, h5, h6⟩ := ih hb2
      refine ⟨e :: s2, t2, by simp [h5], ?_⟩
      simp
      exact ⟨fun hh => heb hh.symm, h6⟩

/-- A record before another splits the list around the later one. -/
theorem precedes_split {l : List Nat} {a b : Nat} (h : precedes l a b) :
    ∃ s t, l = s ++ b :: t ∧ a ∈ s ∧ b ∉ s := by
  obtain ⟨s, t, h1, h2⟩ := first_occurrence h.2
  refine ⟨s, t, h1, ?_, h2⟩
  by_contra ha
  have h3 := h.1
  rw [h1, List.indexOf_append_of_not_mem h2, List.indexOf_append_of_not_mem ha] at h3
  simp at h3

end precedes_lemmas

section sort_props

variable {G : Nat → List Nat}

theorem SortRun.each_marked {st st1 : SortSt} {c : SortCmd} (h : SortRun G st c st1) :
    ∀ y, y ∈ c.targets → y ∈ st1.marked := by
  induction h with
  | skip st d hd => intro y hy; simp [SortCmd.targets] at hy; subst hy; exact hd
  | enter st st1 d hd h2 _ =>
    intro y hy; simp [SortCmd.targets] at hy; subst hy
    exact h2.marked_mono (by simp)
  | done st => intro y hy; simp [SortCmd.targets] at hy
  | step st st1 st2 y ys h1 h2 ih1 ih2 =>
    intro z hz
    simp [SortCmd.targets] at hz
    rcases hz with hz | hz
    · subst hz; exact h2.marked_mono (ih1 z (by simp [SortCmd.targets]))
    · exact ih2 z (by simpa [SortCmd.targets] using hz)

/-- Only the records named and their transitive dependencies get marked. -/
theorem SortRun.marked_closed {st st1 : SortSt} {c : SortCmd} (h : SortRun G st c st1)
    (L : List Nat) (hcl : ∀ x, x ∈ L → ∀ y, y ∈ G x → y ∈ L) :
    (∀ y, y ∈ c.targets → y ∈ L) → ∀ x, x ∈ st1.marked → x ∈ st.marked ∨ x ∈ L := by
  induction h with
  | skip st d hd => intro _ x hx; exact Or.inl hx
  | enter st st1 d hd h2 ih =>
    intro ht x hx
    have hdL : d ∈ L := ht d (by simp [SortCmd.targets])
    rcases ih (fun y hy => hcl d hdL y (by simpa [SortCmd.targets] using hy)) x hx with h | h
    · simp at h
      rcases h with h | h
      · right; rw [h]; exact hdL
      · left; exact h
    · right; exact h
  | done st => intro _ x hx; exact Or.inl hx
  | step st st1 st2 y ys h1 h2 ih1 ih2 =>
    intro ht x hx
    rcases ih2 (fun z hz => ht z (by simp [SortCmd.targets] at hz ⊢; exact Or.inr hz)) x hx with h | h
    · exact ih1 (fun z hz => ht z (by simp [SortCmd.targets] at hz ⊢; exact Or.inl hz)) x h
    · exact Or.inr h

/-- A record no record of `L` depends on is only marked when it is named. -/
theorem SortRun.root_unmarked {st st1 : SortSt} {c : SortCmd} (h : SortRun G st c st1)
    (L : List Nat) (hcl : ∀ x, x ∈ L → ∀ y, y ∈ G x → y ∈ L)
    (x : Nat) (hroot : ∀ z, z ∈ L → x ∉ G z) :
    (∀ t, t ∈ c.targets → t ∈ L) → x ∉ c.targets → x ∉ st.marked → x ∉ st1.marked := by
  induction h with
  | skip st d hd => intro _ _ hx; exact hx
  | enter st st1 d hd h2 ih =>
    intro hL ht hx
    have hdL : d ∈ L := hL d (by simp [SortCmd.targets])
    apply ih
    · intro t ht2; exact hcl d hdL t (by simpa [SortCmd.targets] using ht2)
    · simpa [SortCmd.targets] using hroot d hdL
    · simp [SortCmd.targets] at ht
      simp
      exact ⟨ht, hx⟩
  | done st => intro _ _ hx; exact hx
  | step st st1 st2 y ys h1 h2 ih1 ih2 =>
    intro hL ht hx
    simp [SortCmd.targets] at ht
    apply ih2
    · intro t ht2; exact hL t (by simp [SortCmd.targets] at ht2 ⊢; exact Or.inr ht2)
    · simpa [SortCmd.targets] using ht.2
    · apply ih1
      · intro t ht2; exact hL t (by simp [SortCmd.targets] at ht2 ⊢; exact Or.inl ht2)
      · simpa [SortCmd.targets] using ht.1
      · exact hx

/-- The run keeps dependencies before dependents, cycles apart.  The records
marked but not yet appended are those being visited; they reach the records the
command names. -/
theorem SortRun.keeps_deps_first {st st1 : SortSt} {c : SortCmd} (h : SortRun G st c st1)
    (L : List Nat) (hcl : ∀ x, x ∈ L → ∀ y, y ∈ G x → y ∈ L) :
    (∀ t, t ∈ c.targets → t ∈ L) →
    (∀ z, z ∈ st.marked → z ∉ st.out →
      ∀ t, t ∈ c.targets → Relation.TransGen (dep_edge G L) z t) →
    (∀ x, x ∈ st.out → x ∈ st.marked) →
    deps_first G L st.out → deps_first G L st1.out := by
  induction h with
  | skip st d hd =>
    intro _ _ _ hord
    exact hord
  | enter st st1 d hd h2 ih =>
    intro hL hpre hsub hord
    have hdL : d ∈ L := hL d (by simp [SortCmd.targets])
    have hdout : d ∉ st.out := fun h => hd (hsub d h)
    obtain ⟨added, e1, _, e3, e4⟩ := h2.added
    have hd1 : d ∉ st1.out := by
      rw [e1]
      simp only [List.mem_append, not_or]
      exact ⟨hdout, fun h => e4 d h (by simp)⟩
    have hpre0 : ∀ z, z ∈ d :: st.marked → z ∉ st.out →
        ∀ t, t ∈ G d → Relation.TransGen (dep_edge G L) z t := by
      intro z hz hzo t ht
      rcases List.mem_cons.1 hz with hz | hz
      · subst hz
        exact Relation.TransGen.single ⟨hdL, ht⟩
      · exact Relation.TransGen.tail (hpre z hz hzo d (by simp [SortCmd.targets])) ⟨hdL, ht⟩
    have o1 := ih (fun t ht => hcl d hdL t (by simpa [SortCmd.targets] using ht))
      (by intro z hz hzo t ht
          exact hpre0 z hz hzo t (by simpa [SortCmd.targets] using ht))
      (by intro x hx; simp; exact Or.inr (hsub x hx))
      hord
    intro x hx y hy
    simp only [List.mem_append, List.mem_singleton] at hx
    rcases hx with hx | hx
    · rcases o1 x hx y hy with h | h
      · exact Or.inl (precedes_append_left _ h)
      · exact Or.inr h
    · subst hx
      by_cases hyo : y ∈ st1.out
      · exact Or.inl (precedes_append_split hyo hd1 (by simp))
      · right
        have hym : y ∈ st1.marked := h2.each_marked y (by simpa [SortCmd.targets] using hy)
        have hya : y ∉ added := fun h => hyo (by rw [e1]; exact List.mem_append_right _ h)
        have hy0 : y ∈ x :: st.marked := by
          rcases (e3 y).1 hym with h | h
          · exact h
          · exact absurd h hya
        have hyo0 : y ∉ st.out := fun h => hyo (by rw [e1]; exact List.mem_append_left _ h)
        rcases List.mem_cons.1 hy0 with h | h
        · rw [h] at hy ⊢
          exact Relation.TransGen.single ⟨hdL, hy⟩
        · exact hpre y h hyo0 x (by simp [SortCmd.targets])
  | done st =>
    intro _ _ _ hord
    exact hord
  | step st st1 st2 y ys h1 h2 ih1 ih2 =>
    intro hL hpre hsub hord
    obtain ⟨a1, e1, _, e3, _⟩ := h1.added
    have o1 := ih1 (fun t ht => hL t (by simp [SortCmd.targets] at ht ⊢; exact Or.inl ht))
      (by
        intro z hz hzo t ht
        simp [SortCmd.targets] at ht
        subst ht
        exact hpre z hz hzo t (by simp [SortCmd.targets])) hsub hord
    have hsub1 : ∀ x, x ∈ st1.out → x ∈ st1.marked := by
      intro x hx
      rw [e1] at hx
      rw [e3]
      rcases List.mem_append.1 hx with hx | hx
      · exact Or.inl (hsub x hx)
      · exact Or.inr hx
    exact ih2 (fun t ht => hL t (by simp [SortCmd.targets] at ht ⊢; exact Or.inr ht))
      (by
        intro z hz hzo t ht
        have hza : z ∉ a1 := fun h => hzo (by rw [e1]; exact List.mem_append_right _ h)
        have hzm : z ∈ st.marked := by
          rcases (e3 z).1 hz with h | h
          · exact h
          · exact absurd h hza
        have hzo2 : z ∉ st.out := fun h => hzo (by rw [e1]; exact List.mem_append_left _ h)
        exact hpre z hzm hzo2 t (by simp [SortCmd.targets] at ht ⊢; exact Or.inr ht)) hsub1 o1

end sort_props

section sort_function

variable {G : Nat → List Nat}

theorem filter_length_le_of_imp (p q : Nat → Bool) (h : ∀ x, p x = true → q x = true) :
    ∀ L : List Nat, (L.filter p).length ≤ (L.filter q).length
  | [] => by simp
  | a :: L => by
    have ih := filter_length_le_of_imp p q h L
    cases hp : p a <;> cases hq : q a
    · simpa [List.filter_cons, hp, hq] using ih
    · simp only [List.filter_cons, hp, hq, if_true, List.length_cons]
      simp only [Bool.false_eq_true, if_false]
      omega
    · rw [h a hp] at hq; exact absurd hq (by simp)
    · simpa [List.filter_cons, hp, hq] using ih

theorem filter_length_lt_of_imp (p q : Nat → Bool) (h : ∀ x, p x = true → q x = true)
    (d : Nat) (hp : p d = false) (hq : q d = true) :
    ∀ L : List Nat, d ∈ L → (L.filter p).length < (L.filter q).length
  | [], hd => absurd hd (by simp)
  | a :: L, hd => by
    have hle := filter_length_le_of_imp p q h L
    by_cases hda : a = d
    · subst hda
      simp only [List.filter_cons, hp, hq, if_true, List.length_cons]
      simp only [Bool.false_eq_true, if_false]
      omega
    · have hdL : d ∈ L := by
        rcases List.mem_cons.1 hd with h2 | h2
        · exact absurd h2.symm hda
        · exact h2
      have ih := filter_length_lt_of_imp p q h d hp hq L hdL
      cases hpa : p a <;> cases hqa : q a
      · simpa [List.filter_cons, hpa, hqa] using ih
      · simp only [List.filter_cons, hpa, hqa, if_true, List.length_cons]
        simp only [Bool.false_eq_true, if_false]
        omega
      · rw [h a hpa] at hqa; exact absurd hqa (by simp)
      · simpa [List.filter_cons, hpa, hqa] using ih

theorem unmarked_length_le (L : List Nat) (st st1 : SortSt)
    (h : ∀ x, x ∈ st.marked → x ∈ st1.marked) :
    (unmarked L st1).length ≤ (unmarked L st).length := by
  apply filter_length_le_of_imp
  intro x hx
  simp only [decide_eq_true_eq] at hx ⊢
  exact fun hh => hx (h x hh)

theorem unmarked_length_lt (L : List Nat) (st st1 : SortSt) (d : Nat)
    (h : ∀ x, x ∈ st.marked → x ∈ st1.marked) (hd : d ∈ L) (hd0 : d ∉ st.marked)
    (hd1 : d ∈ st1.marked) :
    (unmarked L st1).length < (unmarked L st).length := by
  apply filter_length_lt_of_imp _ _ _ d _ _ L hd
  · intro x hx
    simp only [decide_eq_true_eq] at hx ⊢
    exact fun hh => hx (h x hh)
  · simpa using hd1
  · simpa using hd0

theorem sort_visit_fold_run (L : List Nat) (k : Nat)
    (ih : ∀ (st : SortSt) (d : Nat), d ∈ L → (unmarked L st).length < k →
      SortRun G st (.visit d) (sort_visit G k st d)) :
    ∀ (ys : List Nat) (st : SortSt), (∀ y, y ∈ ys → y ∈ L) → (unmarked L st).length < k →
      SortRun G st (.each ys) (ys.foldl (sort_visit G k) st)
  | [], st, _, _ => SortRun.done st
  | y :: ys, st, hys, hk => by
    simp only [List.foldl_cons]
    have h1 := ih st y (hys y (by simp)) hk
    refine SortRun.step _ _ _ _ _ h1 ?_
    apply sort_visit_fold_run L k ih ys _ (fun z hz => hys z (List.mem_cons_of_mem _ hz))
    exact lt_of_le_of_lt (unmarked_length_le L _ _ (fun x hx => h1.marked_mono hx)) hk

/-- With a depth bound above the number of unmarked records the function
computes the run. -/
theorem sort_visit_run (L : List Nat) (hcl : ∀ x, x ∈ L → ∀ y, y ∈ G x → y ∈ L) :
    ∀ (k : Nat) (st : SortSt) (d : Nat), d ∈ L → (unmarked L st).length < k →
      SortRun G st (.visit d) (sort_visit G k st d)
  | 0, _, _, _, hk => absurd hk (by omega)
  | k + 1, st, d, hd, hk => by
    unfold sort_visit
    by_cases hm : d ∈ st.marked
    · simp only [hm, if_true]
      exact SortRun.skip st d hm
    · simp only [hm, if_false]
      apply SortRun.enter st _ d hm
      apply sort_visit_fold_run L k (sort_visit_run L hcl k) (G d) _ (hcl d hd)
      have := unmarked_length_lt L st ⟨d :: st.marked, st.out⟩ d
        (fun x hx => List.mem_cons_of_mem _ hx) hd hm (by simp)
      omega

/-- The run `sorted_chain` computes: from the empty state, visit the records
of `L` from the last to the first. -/
theorem sorted_chain_run (L : List Nat) (hcl : ∀ x, x ∈ L → ∀ y, y ∈ G x → y ∈ L) :
    ∃ st1, SortRun G ⟨[], []⟩ (.each L.reverse) st1 ∧ st1.out = sorted_chain G L := by
  refine ⟨_, sort_visit_fold_run L (L.length + 1) (sort_visit_run L hcl (L.length + 1))
    L.reverse ⟨[], []⟩ (fun y hy => List.mem_reverse.1 hy) ?_, rfl⟩
  have : (unmarked L ⟨[], []⟩).length ≤ L.length := List.length_filter_le _ _
  omega

/-- The sorted chain is a permutation of the chain. -/
theorem sorted_chain_perm (L : List Nat) (hcl : ∀ x, x ∈ L → ∀ y, y ∈ G x → y ∈ L)
    (hnd : L.Nodup) : (sorted_chain G L).Perm L := by
  obtain ⟨st1, hrun, hout⟩ := sorted_chain_run L hcl
  obtain ⟨added, e1, e2, e3, _⟩ := hrun.added
  simp only [List.nil_append] at e1
  rw [← hout, e1]
  rw [List.perm_ext_iff_of_nodup e2 hnd]
  intro x
  constructor
  · intro hx
    rcases hrun.marked_closed L hcl (fun y hy => by
        simpa [SortCmd.targets] using hy) x ((e3 x).2 (Or.inr hx)) with h | h
    · simp at h
    · exact h
  · intro hx
    have := hrun.each_marked x (by simpa [SortCmd.targets] using hx)
    rcases (e3 x).1 this with h | h
    · simp at h
    · exact h

/-- Every dependency precedes its dependent in the sorted chain, unless the
dependency itself depends, directly or not, on the dependent. -/
theorem sorted_chain_deps_first (L : List Nat) (hcl : ∀ x, x ∈ L → ∀ y, y ∈ G x → y ∈ L)
    (hnd : L.Nodup) :
    ∀ x, x ∈ L → ∀ y, y ∈ G x →
      precedes (sorted_chain G L) y x ∨ Relation.TransGen (dep_edge G L) y x := by
  obtain ⟨st1, hrun, hout⟩ := sorted_chain_run L hcl
  have o1 := hrun.keeps_deps_first L hcl
    (by intro t ht; simpa [SortCmd.targets] using ht)
    (by intro z hz; simp at hz) (by intro x hx; simp at hx)
    (by intro x hx; simp at hx)
  intro x hx y hy
  rw [← hout]
  exact o1 x (by rw [hout]; exact (sorted_chain_perm L hcl hnd).mem_iff.2 hx) y hy

/-- A record on which no record of the chain depends ends up behind every
record that followed it in the chain. -/
theorem sorted_chain_roots (L : List Nat) (hcl : ∀ x, x ∈ L → ∀ y, y ∈ G x → y ∈ L)
    (hnd : L.Nodup) (x y : Nat) (hx : ∀ z, z ∈ L → x ∉ G z) (hxy : precedes L x y) :
    precedes (sorted_chain G L) y x := by
  obtain ⟨st2, hrun, hout⟩ := sorted_chain_run L hcl
  obtain ⟨s, t, hL, hxs, hys⟩ := precedes_split hxy
  have hrev : L.reverse = (t.reverse ++ [y]) ++ s.reverse := by
    rw [hL]; simp
  rw [hrev] at hrun
  obtain ⟨st1, r1, r2⟩ := SortRun.each_append _ _ _ hrun
  obtain ⟨a1, e1, _, e3, _⟩ := r1.added
  obtain ⟨a2, f1, _, f3, _⟩ := r2.added
  simp only [List.nil_append] at e1
  have hnd2 : (s ++ y :: t).Nodup := hL ▸ hnd
  have hxt : x ∉ t.reverse ++ [y] := by
    rw [List.nodup_append] at hnd2
    intro hmem
    simp at hmem
    exact hnd2.2.2 hxs (by simp; tauto)
  have hx1 : x ∉ st1.marked :=
    r1.root_unmarked L hcl x hx
      (by intro u hu
          simp [SortCmd.targets] at hu
          rw [hL]
          simp
          tauto)
      (by simpa [SortCmd.targets] using hxt) (by simp)
  have hy1 : y ∈ a1 := by
    have := r1.each_marked y (by simp [SortCmd.targets])
    rcases (e3 y).1 this with h | h
    · simp at h
    · exact h
  have hxa1 : x ∉ a1 := fun h => hx1 ((e3 x).2 (Or.inr h))
  have hxa2 : x ∈ a2 := by
    have := r2.each_marked x (by simpa [SortCmd.targets] using hxs)
    rcases (f3 x).1 this with h | h
    · exact absurd h hx1
    · exact h
  rw [← hout, f1, e1]
  exact precedes_append_split hy1 hxa1 hxa2

end sort_function

section pointer_lemmas

theorem frame_refl (s : dll_list) : s.frame s :=
  ⟨fun _ => rfl, rfl, rfl, rfl, rfl⟩

theorem frame_trans {s0 s1 s2 : dll_list} (h1 : s0.frame s1) (h2 : s1.frame s2) :
    s0.frame s2 :=
  ⟨fun a => (h2.1 a).trans (h1.1 a), h2.2.1.trans h1.2.1, h2.2.2.1.trans h1.2.2.1,
    h2.2.2.2.1.trans h1.2.2.2.1, h2.2.2.2.2.trans h1.2.2.2.2⟩

theorem frame_store {s0 s : dll_list} (h : s0.frame s) (d : Nat) (v : dll)
    (hv : v.payload = (s.mem d).payload) : s0.frame (s.store d v) := by
  refine ⟨?_, h.2.1, h.2.2.1, h.2.2.2.1, h.2.2.2.2⟩
  intro a
  by_cases ha : a = d
  · subst ha; rw [store_mem_same, hv]; exact h.1 a
  · rw [store_mem_other _ _ _ _ ha]; exact h.1 a

theorem payload_name {a b : dll} (h : a.payload = b.payload) : a.name = b.name := by
  have := congrArg dll.name h; simpa [dll.payload] using this

theorem payload_modname {a b : dll} (h : a.payload = b.payload) : a.modname = b.modname := by
  have := congrArg dll.modname h; simpa [dll.payload] using this

theorem payload_handle {a b : dll} (h : a.payload = b.payload) : a.handle = b.handle := by
  have := congrArg dll.handle h; simpa [dll.payload] using this

theorem payload_type {a b : dll} (h : a.payload = b.payload) : a.type = b.type := by
  have := congrArg dll.type h; simpa [dll.payload] using this

theorem is_chain_last {s : dll_list} {l : List Nat} (h : s.is_chain l) :
    s.last = (START :: l).getLast (List.cons_ne_nil _ _) := by
  obtain ⟨_, _, _, h4⟩ := h
  unfold dll_list.last
  cases l with
  | nil =>
    simp at h4
    rcases h4 with h4 | h4 <;> simp [h4]
  | cons x xs =>
    simp at h4
    rw [h4, List.getLast?_eq_getLast _ (List.cons_ne_nil _ _)]
    simp [List.getLast_cons]

theorem links_snoc (s t : dll_list) (x e : Nat)
    (h1 : (t.mem e).next = some x) (h2 : (t.mem x).next = none)
    (h3 : (t.mem x).prev = some e)
    (h4 : ∀ a, a ≠ e → a ≠ x → (t.mem a).next = (s.mem a).next)
    (h5 : ∀ a, a ≠ x → (t.mem a).prev = (s.mem a).prev) :
    ∀ (l : List Nat) (d : Nat), links s d l → (d :: l).Nodup → x ∉ d :: l →
      e = (d :: l).getLast (List.cons_ne_nil _ _) → links t d (l ++ [x])
  | [], d, _, _, _, he => by
    simp at he
    subst he
    simp [links, h1, h2, h3]
  | y :: ys, d, hl, hnd, hx, he => by
    unfold links at hl
    obtain ⟨l1, l2, l3⟩ := hl
    have hnd2 : (y :: ys).Nodup := (List.nodup_cons.1 hnd).2
    have hx2 : x ∉ y :: ys := fun h => hx (List.mem_cons_of_mem _ h)
    have he2 : e = (y :: ys).getLast (List.cons_ne_nil _ _) := by
      rw [he, List.getLast_cons]
    have hemem : e ∈ y :: ys := by rw [he2]; exact List.getLast_mem _
    have hde : d ≠ e := by
      intro h; rw [← h] at hemem; exact (List.nodup_cons.1 hnd).1 hemem
    have hdx : d ≠ x := by
      intro h; exact hx (by rw [h]; exact List.mem_cons_self _ _)
    have hyx : y ≠ x := by
      intro h; exact hx2 (by rw [h]; exact List.mem_cons_self _ _)
    show links t d (y :: (ys ++ [x]))
    unfold links
    refine ⟨by rw [h4 d hde hdx]; exact l1, by rw [h5 y hyx]; exact l2, ?_⟩
    exact links_snoc s t x e h1 h2 h3 h4 h5 ys y l3 hnd2 hx2 he2

theorem append_tail (s : dll_list) (d : Nat) : (s.append d).tail = some d := rfl

/-- The heap after `append`: the three assignments in sequence. -/
theorem append_mem (s : dll_list) (d a : Nat) :
    (s.append d).mem a =
      if a = d then
        { (if d = s.last then { s.mem s.last with next := some d } else s.mem d) with
          next := none, prev := some s.last }
      else if a = s.last then { s.mem s.last with next := some d }
      else s.mem a := by
  have he : s.append d =
      { (((s.store s.last { s.mem s.last with next := some d }).store d
            { (s.store s.last { s.mem s.last with next := some d }).mem d with next := none }).store d
          { ((s.store s.last { s.mem s.last with next := some d }).store d
              { (s.store s.last { s.mem s.last with next := some d }).mem d with
                next := none }).mem d with prev := some s.last }) with tail := some d } := rfl
  rw [he]
  generalize s.last = e
  by_cases h1 : a = d
  · subst h1
    by_cases h2 : a = e
    · subst h2; simp [dll_list.store]
    · simp [dll_list.store, Function.update_apply, h2]
  · by_cases h2 : a = e
    · subst h2; simp [dll_list.store, Function.update_apply, h1]
    · simp [dll_list.store, Function.update_apply, h1, h2]

theorem append_mem_other (s : dll_list) (d a : Nat) (h1 : a ≠ d) (h2 : a ≠ s.last) :
    (s.append d).mem a = s.mem a := by
  rw [append_mem]; simp [h1, h2]

theorem append_next_new (s : dll_list) (d : Nat) : ((s.append d).mem d).next = none := by
  rw [append_mem]; simp

theorem append_prev_new (s : dll_list) (d : Nat) :
    ((s.append d).mem d).prev = some s.last := by
  rw [append_mem]; simp

theorem append_next_last (s : dll_list) (d : Nat) (h : s.last ≠ d) :
    ((s.append d).mem s.last).next = some d := by
  rw [append_mem]; simp [h]

theorem append_prev_other (s : dll_list) (d a : Nat) (h1 : a ≠ d) :
    ((s.append d).mem a).prev = (s.mem a).prev := by
  rw [append_mem]
  simp only [h1, if_false]
  split
  · rename_i h; rw [h]
  · rfl

theorem append_payload (s : dll_list) (d a : Nat) :
    ((s.append d).mem a).payload = (s.mem a).payload := by
  rw [append_mem]
  by_cases h1 : a = d
  · subst h1
    simp only [if_true]
    split
    · rename_i h; rw [← h]; simp [dll.payload]
    · simp [dll.payload]
  · simp only [h1, if_false]
    split
    · rename_i h; rw [← h]; simp [dll.payload]
    · rfl

theorem append_ndeps (s : dll_list) (d a : Nat) :
    ((s.append d).mem a).ndeps = (s.mem a).ndeps ∧ ((s.append d).mem a).deps = (s.mem a).deps := by
  rw [append_mem]
  by_cases h1 : a = d
  · subst h1
    simp only [if_true]
    split
    · rename_i h; rw [← h]; simp
    · simp
  · simp only [h1, if_false]
    split
    · rename_i h; rw [← h]; simp
    · simp

theorem frame_append {s0 s : dll_list} (h : s0.frame s) (d : Nat) : s0.frame (s.append d) :=
  ⟨fun a => (append_payload s d a).trans (h.1 a), h.2.1, h.2.2.1, h.2.2.2.1, h.2.2.2.2⟩

/-- Appending a record that is not in the chain extends the chain by it. -/
theorem append_is_chain {s : dll_list} {l : List Nat} (h : s.is_chain l) (d : Nat)
    (hd : d ∉ l) (hs : d ≠ START) : (s.append d).is_chain (l ++ [d]) := by
  have hlast := is_chain_last h
  obtain ⟨h1, h2, h3, _⟩ := h
  have hnd : (START :: l).Nodup := List.nodup_cons.2 ⟨h2, h3⟩
  have hdl : d ∉ START :: l := by
    simp only [List.mem_cons, not_or]; exact ⟨hs, hd⟩
  have hlm : s.last ∈ START :: l := by rw [hlast]; exact List.getLast_mem _
  have hne : s.last ≠ d := fun hh => hdl (hh ▸ hlm)
  refine ⟨?_, ?_, ?_, ?_⟩
  · apply links_snoc s (s.append d) d s.last (append_next_last s d hne) (append_next_new s d)
      (append_prev_new s d) _ _ l START h1 hnd hdl hlast
    · intro a ha1 ha2; rw [append_mem_other s d a ha2 ha1]
    · intro a ha; exact append_prev_other s d a ha
  · simp only [List.mem_append, List.mem_singleton, not_or]
    exact ⟨h2, fun hh => hs hh.symm⟩
  · rw [List.nodup_append]
    refine ⟨h3, by simp, ?_⟩
    intro a ha hb
    simp at hb
    subst hb
    exact hd ha
  · simp [append_tail]

end pointer_lemmas

section simulation

theorem topsort_visit_zero (s : dll_list) (d : Nat) (b : Bool) :
    dll_list.topsort_visit 0 s d b = .error .out_of_fuel := by
  simp [dll_list.topsort_visit]

theorem topsort_visit_false (f : Nat) (s : dll_list) (d : Nat) :
    dll_list.topsort_visit (f + 1) s d false =
      if (s.mem d).ndeps > 0 then
        match topsort_visit_deps f (s.store d { s.mem d with ndeps := - (s.mem d).ndeps }) d 1 with
        | .error e => .error e
        | .ok s3 => .ok (s3.append d)
      else .ok s := by
  simp only [dll_list.topsort_visit]
  try rfl

theorem topsort_visit_true_none (f : Nat) (s : dll_list) (d : Nat)
    (h : (s.mem d).next = none) :
    dll_list.topsort_visit (f + 1) s d true = dll_list.topsort_visit (f + 1) s d false := by
  simp [dll_list.topsort_visit, h]

theorem topsort_visit_true_some (f : Nat) (s : dll_list) (d n : Nat)
    (h : (s.mem d).next = some n) :
    dll_list.topsort_visit (f + 1) s d true =
      match dll_list.topsort_visit f s n true with
      | .error e => .error e
      | .ok s1 => dll_list.topsort_visit (f + 1) s1 d false := by
  simp only [dll_list.topsort_visit, h]

theorem topsort_visit_deps_succ (f : Nat) (s : dll_list) (d i : Nat) :
    topsort_visit_deps (f + 1) s d i =
      if (i : Int) < - (s.mem d).ndeps then
        match (s.mem d).deps[i - 1]? with
        | none => .error .undefined
        | some y =>
          match dll_list.topsort_visit f s y false with
          | .error e => .error e
          | .ok s1 => topsort_visit_deps f s1 d (i + 1)
      else .ok s := by
  rw [topsort_visit_deps]
  try rfl

end simulation

section simulation2

theorem sort_inv_mark {L : List Nat} {G : Nat → List Nat} {s0 s : dll_list} {st : SortSt}
    (h : sort_inv L G s0 s st) (d : Nat) (hd : d ∈ L) (hm : d ∉ st.marked) :
    sort_inv L G s0 (s.store d { s.mem d with ndeps := - (s.mem d).ndeps })
      ⟨d :: st.marked, st.out⟩ ∧ (s.mem d).ndeps > 0 := by
  obtain ⟨h1, h2, h3, h4, h5, h6⟩ := h
  have hdS : d ≠ START := fun hh => h6 (hh ▸ hd)
  refine ⟨⟨?_, ?_, ?_, ?_, h5, h6⟩, ?_⟩
  · obtain ⟨c1, c2, c3, c4⟩ := h1
    refine ⟨?_, c2, c3, c4⟩
    apply links_congr s _ _ _ _ _ c1
    · intro a _
      by_cases ha : a = d
      · subst ha; rw [store_mem_same]
      · rw [store_mem_other _ _ _ _ ha]
    · intro a _
      by_cases ha : a = d
      · subst ha; rw [store_mem_same]
      · rw [store_mem_other _ _ _ _ ha]
  · intro x hx
    by_cases hxd : x = d
    · subst hxd
      rw [store_mem_same]
      obtain ⟨e1, e2⟩ := h2 x hx
      refine ⟨e1, ?_⟩
      simp only [List.mem_cons, true_or, if_true]
      rw [e2]
      simp [hm]
    · rw [store_mem_other _ _ _ _ hxd]
      obtain ⟨e1, e2⟩ := h2 x hx
      refine ⟨e1, ?_⟩
      rw [e2]
      simp [hxd]
  · exact frame_store h3 d _ (by simp [dll.payload])
  · intro x hx; exact List.mem_cons_of_mem _ (h4 x hx)
  · rw [(h2 d hd).2]
    simp only [hm, if_false]
    omega

end simulation2

section simulation3

variable {L : List Nat} {G : Nat → List Nat} {s0 : dll_list}

theorem drop_eq_cons_get {l : List Nat} {j y : Nat} {ys : List Nat}
    (h : l.drop j = y :: ys) : l[j]? = some y ∧ l.drop (j + 1) = ys ∧ j < l.length := by
  induction l generalizing j with
  | nil => simp at h
  | cons a l ih =>
    cases j with
    | zero => simp at h; simp [h]
    | succ j =>
      simp at h
      obtain ⟨i1, i2, i3⟩ := ih h
      refine ⟨by rw [List.getElem?_cons_succ]; exact i1, by rw [List.drop_succ_cons]; exact i2, ?_⟩
      simp only [List.length_cons]; omega

/-- The code follows the traversal: for every command that runs from a state
related to the registry, the corresponding call returns when it has enough
fuel, in a registry related to the final state. -/
theorem sort_sim (hcl : ∀ x, x ∈ L → ∀ y, y ∈ G x → y ∈ L)
    {st st1 : SortSt} {c : SortCmd} (h : SortRun G st c st1) :
    ∀ s, sort_inv L G s0 s st → (∀ t, t ∈ c.targets → t ∈ L) →
      sim_post L G s0 st c s st1 := by
  induction h with
  | skip st d hd =>
    intro s hinv ht
    refine ⟨1, s, ?_, hinv⟩
    intro f hf
    obtain ⟨f, rfl⟩ : ∃ g, f = g + 1 := ⟨f - 1, by omega⟩
    rw [topsort_visit_false]
    have hdL : d ∈ L := ht d (by simp [SortCmd.targets])
    have := (hinv.2.1 d hdL).2
    simp only [hd, if_true] at this
    rw [if_neg (by rw [this]; omega)]
  | enter st st1 d hd h2 ih =>
    intro s hinv ht
    have hdL : d ∈ L := ht d (by simp [SortCmd.targets])
    obtain ⟨hinv2, hpos⟩ := sort_inv_mark hinv d hdL hd
    obtain ⟨f1, s3, hrun, hinv3⟩ := ih _ hinv2
      (fun t ht2 => hcl d hdL t (by simpa [SortCmd.targets] using ht2)) d 0 hdL
      (by simp) (by simp)
    obtain ⟨added, e1, _, _, e4⟩ := h2.added
    have hdout : d ∉ st.out := fun hh => hd (hinv.2.2.2.1 d hh)
    have hd1 : d ∉ st1.out := by
      rw [e1]
      simp only [List.mem_append, not_or]
      exact ⟨hdout, fun hh => e4 d hh (by simp)⟩
    obtain ⟨k1, k2, k3, k4, k5, k6⟩ := hinv3
    have hdS : d ≠ START := fun hh => k6 (hh ▸ hdL)
    refine ⟨f1 + 1, s3.append d, ?_, ?_⟩
    · intro f hf
      obtain ⟨f, rfl⟩ : ∃ g, f = g + 1 := ⟨f - 1, by omega⟩
      rw [topsort_visit_false, if_pos hpos, hrun f (by omega)]
    · refine ⟨append_is_chain k1 d hd1 hdS, ?_, frame_append k3 d, ?_, ?_, k6⟩
      · intro x hx
        rw [(append_ndeps s3 d x).1, (append_ndeps s3 d x).2]
        exact k2 x hx
      · intro x hx
        simp only [List.mem_append, List.mem_singleton] at hx
        rcases hx with hx | hx
        · exact k4 x hx
        · subst hx; exact h2.marked_mono (by simp)
      · intro x hx
        simp only [List.mem_append, List.mem_singleton] at hx
        rcases hx with hx | hx
        · exact k5 x hx
        · subst hx; exact hdL
  | done st =>
    intro s hinv _ owner j ho hm hdrop
    refine ⟨1, s, ?_, hinv⟩
    intro f hf
    obtain ⟨f, rfl⟩ : ∃ g, f = g + 1 := ⟨f - 1, by omega⟩
    rw [topsort_visit_deps_succ]
    have := (hinv.2.1 owner ho).2
    simp only [hm, if_true] at this
    have hlen : (G owner).length ≤ j := List.drop_eq_nil_iff.1 hdrop
    rw [if_neg (by rw [this]; push_cast; omega)]
  | step st st1 st2 y ys h1 h2 ih1 ih2 =>
    intro s hinv ht owner j ho hm hdrop
    obtain ⟨g1, g2, g3⟩ := drop_eq_cons_get hdrop
    obtain ⟨f1, s1, hrun1, hinv1⟩ := ih1 s hinv
      (fun t ht2 => ht t (by simp [SortCmd.targets] at ht2 ⊢; exact Or.inl ht2))
    obtain ⟨f2, s2, hrun2, hinv2⟩ := ih2 s1 hinv1
      (fun t ht2 => ht t (by simp [SortCmd.targets] at ht2 ⊢; exact Or.inr ht2))
      owner (j + 1) ho (h1.marked_mono hm) g2
    refine ⟨max f1 f2 + 1, s2, ?_, hinv2⟩
    intro f hf
    obtain ⟨f, rfl⟩ : ∃ g, f = g + 1 := ⟨f - 1, by omega⟩
    rw [topsort_visit_deps_succ]
    have := (hinv.2.1 owner ho)
    simp only [hm, if_true] at this
    rw [if_pos (by rw [this.2]; push_cast; omega)]
    simp only [Nat.add_sub_cancel, this.1, g1]
    rw [hrun1 f (by omega)]
    exact hrun2 f (by omega)

end simulation3

section descent

variable {L : List Nat} {G : Nat → List Nat} {s0 : dll_list}

theorem links_nexts (s : dll_list) : ∀ (l : List Nat) (d : Nat), links s d l → nexts s d l
  | [], _, h => h
  | x :: xs, _, h => ⟨h.1, links_nexts s xs x h.2.2⟩

theorem nexts_congr (s t : dll_list) : ∀ (l : List Nat) (d : Nat),
    (∀ a, a = d ∨ a ∈ l → (t.mem a).next = (s.mem a).next) → nexts s d l → nexts t d l
  | [], d, hn, h => by
    unfold nexts at *
    rw [hn d (Or.inl rfl)]; exact h
  | x :: xs, d, hn, h => by
    unfold nexts at *
    refine ⟨by rw [hn d (Or.inl rfl)]; exact h.1, ?_⟩
    apply nexts_congr s t xs x _ h.2
    intro a ha
    apply hn
    rcases ha with ha | ha
    · right; rw [ha]; exact List.mem_cons_self _ _
    · right; exact List.mem_cons_of_mem _ ha

/-- The recursion to the end of the chain: the call with `seek_tail` on the
first record of a chain visits its records from the last to the first. -/
theorem sort_sim_descent (hcl : ∀ x, x ∈ L → ∀ y, y ∈ G x → y ∈ L) (s : dll_list) :
    ∀ (rest : List Nat) (x : Nat) (st st1 : SortSt), nexts s x rest →
      SortRun G st (.each (x :: rest).reverse) st1 → sort_inv L G s0 s st →
      (∀ t, t ∈ x :: rest → t ∈ L) →
      ∃ f0 s1, (∀ f, f0 ≤ f → dll_list.topsort_visit f s x true = .ok s1) ∧
        sort_inv L G s0 s1 st1
  | [], x, st, st1, hn, hrun, hinv, hL => by
    have hv : SortRun G st (.visit x) st1 := SortRun.each_single (by simpa using hrun)
    obtain ⟨f0, s1, h1, h2⟩ := sort_sim hcl hv s hinv
      (fun t ht => hL t (by simpa [SortCmd.targets] using ht))
    refine ⟨f0 + 1, s1, ?_, h2⟩
    intro f hf
    obtain ⟨f, rfl⟩ : ∃ g, f = g + 1 := ⟨f - 1, by omega⟩
    rw [topsort_visit_true_none f s x hn]
    exact h1 _ (by omega)
  | y :: ys, x, st, st1, hn, hrun, hinv, hL => by
    have hrev : (x :: y :: ys).reverse = (y :: ys).reverse ++ [x] := by simp
    rw [hrev] at hrun
    obtain ⟨stm, r1, r2⟩ := SortRun.each_append _ _ _ hrun
    obtain ⟨f1, s1, h1, hinv1⟩ := sort_sim_descent hcl s ys y st stm hn.2 r1 hinv
      (fun t ht => hL t (List.mem_cons_of_mem _ ht))
    obtain ⟨f2, s2, h2, hinv2⟩ := sort_sim hcl (SortRun.each_single r2) s1 hinv1
      (fun t ht => hL t (by simp [SortCmd.targets] at ht; simp [ht]))
    refine ⟨max f1 f2 + 1, s2, ?_, hinv2⟩
    intro f hf
    obtain ⟨f, rfl⟩ : ∃ g, f = g + 1 := ⟨f - 1, by omega⟩
    rw [topsort_visit_true_some f s x y hn.1, h1 f (by omega)]
    exact h2 _ (by omega)

end descent

section clear

/-- The last loop of `topsort` returns; it resets the count and the array of
the records it walks over and changes nothing else. -/
theorem topsort_clear_spec : ∀ (Q : List Nat) (t : dll_list) (d : Nat), nexts t d Q →
    ∃ t1, (∀ f, Q.length < f → topsort_clear f t d = .ok t1) ∧
      (∀ a, (t1.mem a).next = (t.mem a).next ∧ (t1.mem a).prev = (t.mem a).prev ∧
        (t1.mem a).payload = (t.mem a).payload) ∧
      t1.tail = t.tail ∧ t1.hold = t.hold ∧ t1.hold_type = t.hold_type ∧
      t1.loaded_dlls = t.loaded_dlls ∧ t1.reload_on_fork = t.reload_on_fork ∧
      (∀ x, x ∈ Q → (t1.mem x).ndeps = 0 ∧ (t1.mem x).deps = []) ∧
      (∀ x, x ∉ Q → t1.mem x = t.mem x)
  | [], t, d, hn => by
    refine ⟨t, ?_, fun a => ⟨rfl, rfl, rfl⟩, rfl, rfl, rfl, rfl, rfl, by simp, by simp⟩
    intro f hf
    obtain ⟨f, rfl⟩ : ∃ g, f = g + 1 := ⟨f - 1, by omega⟩
    unfold nexts at hn
    simp [topsort_clear, hn]
  | n :: Q, t, d, hn => by
    unfold nexts at hn
    have hsame : ∀ a, ((t.store n { t.mem n with ndeps := 0, deps := [] }).mem a).next
          = (t.mem a).next ∧
        ((t.store n { t.mem n with ndeps := 0, deps := [] }).mem a).prev = (t.mem a).prev ∧
        ((t.store n { t.mem n with ndeps := 0, deps := [] }).mem a).payload
          = (t.mem a).payload := by
      intro a
      by_cases ha : a = n
      · subst ha; simp [store_mem_same, dll.payload]
      · simp [store_mem_other _ _ _ _ ha]
    have hn2 := nexts_congr t _ Q n (fun a _ => (hsame a).1) hn.2
    obtain ⟨t1, h1, h2, h3, h4, h5, h6, h7, h8, h9⟩ := topsort_clear_spec Q _ n hn2
    refine ⟨t1, ?_, ?_, h3, h4, h5, h6, h7, ?_, ?_⟩
    · intro f hf
      obtain ⟨f, rfl⟩ : ∃ g, f = g + 1 := ⟨f - 1, by omega⟩
      simp only [topsort_clear, hn.1]
      exact h1 f (by simp at hf; omega)
    · intro a
      exact ⟨(h2 a).1.trans (hsame a).1, (h2 a).2.1.trans (hsame a).2.1,
        (h2 a).2.2.trans (hsame a).2.2⟩
    · intro x hx
      by_cases hxQ : x ∈ Q
      · exact h8 x hxQ
      · have hxn : x = n := by
          rcases List.mem_cons.1 hx with h | h
          · exact h
          · exact absurd h hxQ
        subst hxn
        rw [h9 x hxQ, store_mem_same]
        exact ⟨rfl, rfl⟩
    · intro x hx
      simp only [List.mem_cons, not_or] at hx
      rw [h9 x hx.2, store_mem_other _ _ _ _ hx.1]

end clear

section lookups

theorem find_by_modname_nexts (tl : Nat → Nat) (s : dll_list) (m : WStr) :
    ∀ (l : List Nat) (d : Nat), nexts s d l → ∀ f, l.length < f →
      dll_list.find_by_modname tl f s d m = .ok (chain_find_modname tl s l m)
  | [], d, hn, f, hf => by
    obtain ⟨f, rfl⟩ : ∃ g, f = g + 1 := ⟨f - 1, by omega⟩
    unfold nexts at hn
    simp [dll_list.find_by_modname, hn, chain_find_modname]
  | x :: xs, d, hn, f, hf => by
    obtain ⟨f, rfl⟩ : ∃ g, f = g + 1 := ⟨f - 1, by omega⟩
    unfold nexts at hn
    simp only [dll_list.find_by_modname, hn.1, chain_find_modname, List.find?_cons]
    by_cases hc : wcscasecmp tl m (s.mem x).modname = 0
    · simp [hc]
    · simp only [hc, if_false, decide_False]
      exact find_by_modname_nexts tl s m xs x hn.2 f (by simp at hf; omega)

theorem operator_index_nexts (tl : Nat → Nat) (s : dll_list) (m : WStr) :
    ∀ (l : List Nat) (d : Nat), nexts s d l → ∀ f, l.length < f →
      dll_list.operator_index tl f s d m = .ok (chain_find_name tl s l m)
  | [], d, hn, f, hf => by
    obtain ⟨f, rfl⟩ : ∃ g, f = g + 1 := ⟨f - 1, by omega⟩
    unfold nexts at hn
    simp [dll_list.operator_index, hn, chain_find_name]
  | x :: xs, d, hn, f, hf => by
    obtain ⟨f, rfl⟩ : ∃ g, f = g + 1 := ⟨f - 1, by omega⟩
    unfold nexts at hn
    simp only [dll_list.operator_index, hn.1, chain_find_name, List.find?_cons]
    by_cases hc : wcscasecmp tl m (s.mem x).name = 0
    · simp [hc]
    · simp only [hc, if_false, decide_False]
      exact operator_index_nexts tl s m xs x hn.2 f (by simp at hf; omega)

theorem find_nexts (s : dll_list) (h : Nat) :
    ∀ (l : List Nat) (d : Nat), nexts s d l → ∀ f, l.length < f →
      dll_list.find f s d h = .ok (chain_find_handle s l h)
  | [], d, hn, f, hf => by
    obtain ⟨f, rfl⟩ : ∃ g, f = g + 1 := ⟨f - 1, by omega⟩
    unfold nexts at hn
    simp [dll_list.find, hn, chain_find_handle]
  | x :: xs, d, hn, f, hf => by
    obtain ⟨f, rfl⟩ : ∃ g, f = g + 1 := ⟨f - 1, by omega⟩
    unfold nexts at hn
    simp only [dll_list.find, hn.1, chain_find_handle, List.find?_cons]
    by_cases hc : (s.mem x).handle = h
    · simp [hc]
    · simp only [hc, if_false, decide_False]
      exact find_nexts s h xs x hn.2 f (by simp at hf; omega)

theorem find_by_modname_congr (tl : Nat → Nat) (s t : dll_list) (m : WStr)
    (h : ∀ a, (t.mem a).next = (s.mem a).next ∧ (t.mem a).modname = (s.mem a).modname) :
    ∀ (f d : Nat), dll_list.find_by_modname tl f t d m = dll_list.find_by_modname tl f s d m
  | 0, _ => by simp [dll_list.find_by_modname]
  | f + 1, d => by
    simp only [dll_list.find_by_modname, (h d).1]
    cases (s.mem d).next with
    | none => rfl
    | some n =>
      simp only [(h n).2]
      rw [find_by_modname_congr tl s t m h f n]

theorem find_by_modname_mono (tl : Nat → Nat) (s : dll_list) (m : WStr) :
    ∀ (f d : Nat) (r : Option Nat), dll_list.find_by_modname tl f s d m = .ok r →
      dll_list.find_by_modname tl (f + 1) s d m = .ok r
  | 0, _, _, h => by simp [dll_list.find_by_modname] at h
  | f + 1, d, r, h => by
    rw [dll_list.find_by_modname] at h ⊢
    cases hn : (s.mem d).next with
    | none => rw [hn] at h; exact h
    | some n =>
      rw [hn] at h
      simp only at h ⊢
      split
      · rename_i hc; simpa [hc] using h
      · rename_i hc
        simp only [hc, if_false] at h
        exact find_by_modname_mono tl s m f n r h

theorem operator_index_mono (tl : Nat → Nat) (s : dll_list) (m : WStr) :
    ∀ (f d : Nat) (r : Option Nat), dll_list.operator_index tl f s d m = .ok r →
      dll_list.operator_index tl (f + 1) s d m = .ok r
  | 0, _, _, h => by simp [dll_list.operator_index] at h
  | f + 1, d, r, h => by
    rw [dll_list.operator_index] at h ⊢
    cases hn : (s.mem d).next with
    | none => rw [hn] at h; exact h
    | some n =>
      rw [hn] at h
      simp only at h ⊢
      split
      · rename_i hc; simpa [hc] using h
      · rename_i hc
        simp only [hc, if_false] at h
        exact operator_index_mono tl s m f n r h

theorem find_mono (s : dll_list) (m : Nat) :
    ∀ (f d : Nat) (r : Option Nat), dll_list.find f s d m = .ok r →
      dll_list.find (f + 1) s d m = .ok r
  | 0, _, _, h => by simp [dll_list.find] at h
  | f + 1, d, r, h => by
    rw [dll_list.find] at h ⊢
    cases hn : (s.mem d).next with
    | none => rw [hn] at h; exact h
    | some n =>
      rw [hn] at h
      simp only at h ⊢
      split
      · rename_i hc; simpa [hc] using h
      · rename_i hc
        simp only [hc, if_false] at h
        exact find_mono s m f n r h

/-- A result obtained with some fuel is obtained with any larger fuel. -/
theorem mono_le {α : Type} (op : Nat → Except Fault α)
    (h : ∀ f r, op f = .ok r → op (f + 1) = .ok r) :
    ∀ f g r, f ≤ g → op f = .ok r → op g = .ok r := by
  intro f g r hfg hr
  induction hfg with
  | refl => exact hr
  | step _ ih => exact h _ r ih

end lookups

section build_deps

theorem store_store (s : dll_list) (d : Nat) (v1 v2 : dll) :
    (s.store d v1).store d v2 = s.store d v2 := by
  simp [dll_list.store]

theorem store_self (s : dll_list) (d : Nat) : s.store d (s.mem d) = s := by
  simp [dll_list.store]

theorem populate_deps_loop_spec (tl : Nat → Nat) (f : Nat) (r : WStr → Option Nat) :
    ∀ (ws : List WStr) (t : dll_list) (n : Nat),
      (∀ w, w ∈ ws → dll_list.find_by_modname tl f t START w = .ok (r w)) →
      populate_deps_loop tl f t n ws =
        .ok (t.store n { t.mem n with
          deps := (t.mem n).deps ++ ws.filterMap r,
          ndeps := (t.mem n).ndeps + ((ws.filterMap r).length : Int) })
  | [], t, n, _ => by
    simp only [populate_deps_loop, List.filterMap_nil, List.append_nil, List.length_nil,
      Nat.cast_zero, add_zero]
    exact congrArg _ (store_self t n).symm
  | w :: ws, t, n, h => by
    have hw := h w (List.mem_cons_self _ _)
    rw [populate_deps_loop, hw]
    cases hr : r w with
    | none =>
      simp only [List.filterMap_cons, hr]
      exact populate_deps_loop_spec tl f r ws t n (fun w2 hw2 => h w2 (List.mem_cons_of_mem _ hw2))
    | some dep =>
      simp only [List.filterMap_cons, hr]
      rw [populate_deps_loop_spec tl f r ws _ n]
      · rw [store_store, store_mem_same]
        simp only [List.append_assoc, List.singleton_append, List.length_cons, Nat.cast_add,
          Nat.cast_one]
        congr 3
        omega
      · intro w2 hw2
        rw [find_by_modname_congr tl t _ w2 _ f START]
        · exact h w2 (List.mem_cons_of_mem _ hw2)
        · intro a
          by_cases ha : a = n
          · subst ha; simp [store_mem_same]
          · simp [store_mem_other _ _ _ _ ha]

end build_deps

section build_deps2

theorem populate_deps_spec (env : Env) (f : Nat) (r : WStr → Option Nat) (t : dll_list)
    (n : Nat) (o : List Nat)
    (hfind : ∀ w, dll_list.find_by_modname env.towlower f t START w = .ok (r w))
    (ho : ((t.mem n).ndeps = 0 ∧ o = []) ∨
      ((t.mem n).ndeps ≠ 0 ∧ (t.mem n).deps = o ∧ (t.mem n).ndeps = (o.length : Int))) :
    dll_list.populate_deps env f t n =
      .ok (t.store n { t.mem n with
        deps := o ++ (env.imports (t.mem n).handle).filterMap r,
        ndeps := ((o ++ (env.imports (t.mem n).handle).filterMap r).length : Int) + 1 }) := by
  unfold dll_list.populate_deps
  rcases ho with ⟨h0, ho⟩ | ⟨h0, hd, hn⟩
  · subst ho
    simp only [h0, if_true]
    rw [populate_deps_loop_spec env.towlower f r]
    · simp only [store_mem_same, store_store]
      simp [h0]
    · intro w _
      rw [find_by_modname_congr env.towlower t _ w _ f START]
      · exact hfind w
      · intro a
        by_cases ha : a = n
        · subst ha; simp [store_mem_same]
        · simp [store_mem_other _ _ _ _ ha]
  · simp only [h0, if_false]
    rw [populate_deps_loop_spec env.towlower f r _ _ _ (fun w _ => hfind w)]
    simp only [store_mem_same, store_store]
    simp [hd, hn]

end build_deps2

section build_deps3

theorem take_indexOf_split {P Q : List Nat} {n : Nat} (hn : n ∉ P) :
    (P ++ n :: Q).take ((P ++ n :: Q).indexOf n) = P := by
  rw [List.indexOf_append_of_not_mem hn]
  simp

/-- The first loop of `topsort` returns; every record it walks over gets its
dependency array and the count one above the number of entries, and nothing
else changes. -/
theorem topsort_deps_spec (env : Env) (s : dll_list) (L : List Nat) (hnd : L.Nodup)
    (hclean : ∀ x, x ∈ L → (s.mem x).ndeps = 0)
    (hload : ∀ x, x ∈ L → (s.mem x).type = dll_type.DLL_LOAD → s.loaded_dlls > 0)
    (hchain : nexts s START L) :
    ∀ (Q P : List Nat) (t : dll_list) (d : Nat), L = P ++ Q → nexts t d Q →
      (∀ a, (t.mem a).next = (s.mem a).next ∧ (t.mem a).modname = (s.mem a).modname) →
      (∀ x, x ∈ Q → t.mem x = s.mem x) →
      ∃ t1, (∀ f, L.length + Q.length + 1 < f →
          topsort_deps env f t d
            (if s.loaded_dlls > 0
             then some (P.filter (fun y => decide ((s.mem y).type = dll_type.DLL_LOAD)))
             else none) = .ok t1) ∧
        (∀ a, a ∉ Q → t1.mem a = t.mem a) ∧
        (∀ x, x ∈ Q → t1.mem x = { s.mem x with
            deps := chain_deps env s L x,
            ndeps := ((chain_deps env s L x).length : Int) + 1 }) ∧
        t1.tail = t.tail ∧ t1.hold = t.hold ∧ t1.hold_type = t.hold_type ∧
        t1.loaded_dlls = t.loaded_dlls ∧ t1.reload_on_fork = t.reload_on_fork
  | [], P, t, d, _, hn, _, _ => by
    refine ⟨t, ?_, fun _ _ => rfl, by simp, rfl, rfl, rfl, rfl, rfl⟩
    intro f hf
    obtain ⟨f, rfl⟩ : ∃ g, f = g + 1 := ⟨f - 1, by omega⟩
    unfold nexts at hn
    simp [topsort_deps, hn]
  | n :: Q, P, t, d, hL, hn, hshape, hQ => by
    unfold nexts at hn
    have hnL : n ∈ L := by rw [hL]; simp
    have hnd2 : (P ++ n :: Q).Nodup := hL ▸ hnd
    have hnP : n ∉ P := by
      rw [List.nodup_append] at hnd2
      intro h; exact hnd2.2.2 h (List.mem_cons_self _ _)
    have hnQ : n ∉ Q := by
      rw [List.nodup_append] at hnd2
      exact (List.nodup_cons.1 hnd2.2.1).1
    have htn : t.mem n = s.mem n := hQ n (List.mem_cons_self _ _)
    have hfind : ∀ (u : dll_list), (∀ a, (u.mem a).next = (t.mem a).next ∧
        (u.mem a).modname = (t.mem a).modname) → ∀ f, L.length < f → ∀ w,
        dll_list.find_by_modname env.towlower f u START w =
          .ok (chain_find_modname env.towlower s L w) := by
      intro u hu f hf w
      rw [find_by_modname_congr env.towlower s u w
        (fun a => ⟨(hu a).1.trans (hshape a).1, (hu a).2.trans (hshape a).2⟩) f START]
      exact find_by_modname_nexts env.towlower s w L START hchain f hf
    -- the record after the iteration
    let G := chain_deps env s L n
    let v : dll := { s.mem n with deps := G, ndeps := (G.length : Int) + 1 }
    have hshape2 : ∀ a, ((t.store n v).mem a).next = (s.mem a).next ∧
        ((t.store n v).mem a).modname = (s.mem a).modname := by
      intro a
      by_cases ha : a = n
      · subst ha; simp [store_mem_same, v]
      · rw [store_mem_other _ _ _ _ ha]; exact hshape a
    have hn2 : nexts (t.store n v) n Q := by
      apply nexts_congr t _ Q n _ hn.2
      intro a _
      rw [(hshape2 a).1, (hshape a).1]
    have hQ2 : ∀ x, x ∈ Q → (t.store n v).mem x = s.mem x := by
      intro x hx
      have hxn : x ≠ n := fun h => hnQ (h ▸ hx)
      rw [store_mem_other _ _ _ _ hxn]
      exact hQ x (List.mem_cons_of_mem _ hx)
    obtain ⟨t1, h1, h2, h3, h4, h5, h6, h7, h8⟩ :=
      topsort_deps_spec env s L hnd hclean hload hchain Q (P ++ [n]) (t.store n v) n
        (by rw [hL]; simp) hn2 hshape2 hQ2
    refine ⟨t1, ?_, ?_, ?_, h4, h5, h6, h7, h8⟩
    · intro f hf
      obtain ⟨f, rfl⟩ : ∃ g, f = g + 1 := ⟨f - 1, by omega⟩
      have hfL : L.length < f := by simp at hf; omega
      have hrec := h1 f (by simp at hf; omega)
      rw [topsort_deps]
      simp only [hn.1, htn, hclean n hnL, if_true]
      by_cases hty : (s.mem n).type = dll_type.DLL_LOAD
      · have hpos := hload n hnL hty
        simp only [hty, if_true, hpos]
        simp only [hpos, if_true, List.filter_append, List.filter_cons, hty, decide_True,
          List.filter_nil] at hrec
        have hG : G = P.filter (fun y => decide ((s.mem y).type = dll_type.DLL_LOAD)) ++
            (env.imports (s.mem n).handle).filterMap (chain_find_modname env.towlower s L) := by
          have htake : L.take (L.indexOf n) = P := by rw [hL]; exact take_indexOf_split hnP
          show chain_deps env s L n = _
          unfold chain_deps
          rw [if_pos hty, htake]
        have hpop : dll_list.populate_deps env f
            (if (P.filter (fun y => decide ((s.mem y).type = dll_type.DLL_LOAD))).length ≠ 0 then
              t.store n { s.mem n with
                type := dll_type.DLL_LOAD,
                ndeps := ((P.filter (fun y => decide ((s.mem y).type = dll_type.DLL_LOAD))).length : Int),
                deps := P.filter (fun y => decide ((s.mem y).type = dll_type.DLL_LOAD)) }
            else t) n = .ok (t.store n v) := by
          generalize ho : P.filter (fun y => decide ((s.mem y).type = dll_type.DLL_LOAD)) = o at hG
          by_cases hlen : o.length ≠ 0
          · rw [if_pos hlen]
            rw [populate_deps_spec env f (chain_find_modname env.towlower s L) _ n o]
            · rw [store_store, store_mem_same]
              simp only [v, hG]
              congr 2
              rw [← hty]
            · intro w
              apply hfind _ _ f hfL
              intro a
              by_cases ha : a = n
              · subst ha; rw [store_mem_same, htn]; exact ⟨rfl, rfl⟩
              · rw [store_mem_other _ _ _ _ ha]; exact ⟨rfl, rfl⟩
            · right
              rw [store_mem_same]
              exact ⟨by simpa using hlen, rfl, rfl⟩
          · rw [if_neg hlen]
            have ho2 : o = [] := by
              cases o with
              | nil => rfl
              | cons _ _ => simp at hlen
            subst ho2
            rw [populate_deps_spec env f (chain_find_modname env.towlower s L) _ n []]
            · simp only [v, hG, htn]
            · intro w
              exact hfind t (fun a => ⟨rfl, rfl⟩) f hfL w
            · left
              exact ⟨by rw [htn]; exact hclean n hnL, rfl⟩
        rw [hpop]
        exact hrec
      · simp only [hty, if_false]
        have hG : G = [] ++
            (env.imports (s.mem n).handle).filterMap (chain_find_modname env.towlower s L) := by
          show chain_deps env s L n = _
          unfold chain_deps
          rw [if_neg hty]
        have hpop : dll_list.populate_deps env f t n = .ok (t.store n v) := by
          rw [populate_deps_spec env f (chain_find_modname env.towlower s L) _ n []]
          · simp only [v, hG, htn]
          · intro w
            exact hfind t (fun a => ⟨rfl, rfl⟩) f hfL w
          · left
            exact ⟨by rw [htn]; exact hclean n hnL, rfl⟩
        rw [hpop]
        simp only [List.filter_append, List.filter_cons, hty, decide_False, List.filter_nil,
          List.append_nil, Bool.false_eq_true, if_false] at hrec
        exact hrec
    · intro a ha
      simp only [List.mem_cons, not_or] at ha
      rw [h2 a ha.2, store_mem_other _ _ _ _ ha.1]
    · intro x hx
      by_cases hxQ : x ∈ Q
      · exact h3 x hxQ
      · have hxn : x = n := by
          rcases List.mem_cons.1 hx with h | h
          · exact h
          · exact absurd h hxQ
        subst hxn
        rw [h2 x hxQ, store_mem_same]

end build_deps3

section topsort_total

theorem chain_find_modname_mem (tl : Nat → Nat) (s : dll_list) (L : List Nat) (m : WStr)
    (y : Nat) (h : chain_find_modname tl s L m = some y) :
    y ∈ L ∧ wcscasecmp tl m (s.mem y).modname = 0 := by
  unfold chain_find_modname at h
  exact ⟨List.mem_of_find?_eq_some h, by simpa using List.find?_some h⟩

/-- The dependencies of a record of the chain are records of the chain. -/
theorem chain_deps_closed (env : Env) (s : dll_list) (L : List Nat) :
    ∀ x, x ∈ L → ∀ y, y ∈ chain_deps env s L x → y ∈ L := by
  intro x _ y hy
  unfold chain_deps at hy
  rcases List.mem_append.1 hy with h | h
  · split at h
    · exact List.mem_of_mem_take (List.mem_of_mem_filter h)
    · simp at h
  · obtain ⟨w, _, hw⟩ := List.mem_filterMap.1 h
    exact (chain_find_modname_mem _ _ _ _ _ hw).1

/-- `topsort` returns on every well-formed registry whose records carry no
dependency count: with enough fuel the result is a registry whose chain is
`sorted_chain` of the dependency arrays, whose records carry no dependency
count or array, and that is otherwise unchanged. -/
theorem topsort_returns (env : Env) (s : dll_list) (L : List Nat) (hch : s.is_chain L)
    (hclean : ∀ x, x ∈ L → (s.mem x).ndeps = 0)
    (hload : ∀ x, x ∈ L → (s.mem x).type = dll_type.DLL_LOAD → s.loaded_dlls > 0) :
    ∃ s1, (∃ f0, ∀ f, f0 ≤ f → dll_list.topsort env f s = .ok s1) ∧
      s1.is_chain (sorted_chain (chain_deps env s L) L) ∧ s.frame s1 ∧
      (∀ x, x ∈ L → (s1.mem x).ndeps = 0 ∧ (s1.mem x).deps = []) := by
  obtain ⟨hlinks, hS, hnd, htail⟩ := hch
  by_cases hL : L = []
  · subst hL
    refine ⟨s, ⟨0, ?_⟩, ?_, frame_refl s, by simp⟩
    · intro f _
      simp only [if_true] at htail
      unfold dll_list.topsort
      rw [if_pos htail]
    · have : sorted_chain (chain_deps env s []) [] = [] := rfl
      rw [this]
      exact ⟨hlinks, hS, hnd, htail⟩
  · obtain ⟨x1, rest, hLx⟩ := List.exists_cons_of_ne_nil hL
    have hcl := chain_deps_closed env s L
    -- the guard
    have hcond : ¬ (s.tail = none ∨ s.tail = some START) := by
      rw [if_neg hL] at htail
      rw [htail, List.getLast?_eq_getLast _ hL]
      simp only [Option.some.injEq, false_or, reduceCtorEq]
      intro h
      exact hS (h ▸ List.getLast_mem hL)
    -- the first loop
    have hnx : nexts s START L := links_nexts s L START hlinks
    obtain ⟨s1, hp1, hp2, hp3, hp4, hp5, hp6, hp7, hp8⟩ :=
      topsort_deps_spec env s L hnd hclean hload hnx L [] s START (by simp) hnx
        (fun a => ⟨rfl, rfl⟩) (fun x _ => rfl)
    have hs1S : s1.mem START = s.mem START := hp2 START hS
    have hs1next : (s1.mem START).next = some x1 := by
      rw [hs1S]
      have := hlinks
      rw [hLx] at this
      exact this.1
    have hs1L : ∀ a, (s1.mem a).next = (s.mem a).next ∧ (s1.mem a).prev = (s.mem a).prev ∧
        (s1.mem a).payload = (s.mem a).payload := by
      intro a
      by_cases ha : a ∈ L
      · rw [hp3 a ha]; exact ⟨rfl, rfl, rfl⟩
      · rw [hp2 a ha]; exact ⟨rfl, rfl, rfl⟩
    -- the registry the traversal starts from
    have hinv : sort_inv L (chain_deps env s L) s
        { s1.store START { s1.mem START with next := none } with tail := none } ⟨[], []⟩ := by
      refine ⟨⟨?_, by simp, by simp, by simp⟩, ?_, ⟨?_, hp5, hp6, hp7, hp8⟩, by simp, by simp, hS⟩
      · show ((s1.store START _).mem START).next = none
        simp [dll_list.store]
      · intro x hx
        have hxS : x ≠ START := fun h => hS (h ▸ hx)
        show ((s1.store START _).mem x).deps = _ ∧ ((s1.store START _).mem x).ndeps = _
        rw [store_mem_other _ _ _ _ hxS, hp3 x hx]
        simp
      · intro a
        show ((s1.store START _).mem a).payload = _
        by_cases ha : a = START
        · subst ha; rw [store_mem_same, ← (hs1L START).2.2]; rfl
        · rw [store_mem_other _ _ _ _ ha]; exact (hs1L a).2.2
    have hnx2 : nexts { s1.store START { s1.mem START with next := none } with tail := none }
        x1 rest := by
      have h0 : nexts s x1 rest := by
        have := hnx
        rw [hLx] at this
        exact this.2
      apply nexts_congr s _ rest x1 _ h0
      intro a ha
      have haL : a ∈ L := by
        rw [hLx]
        rcases ha with ha | ha
        · rw [ha]; exact List.mem_cons_self _ _
        · exact List.mem_cons_of_mem _ ha
      have haS : a ≠ START := fun h => hS (h ▸ haL)
      show ((s1.store START _).mem a).next = _
      rw [store_mem_other _ _ _ _ haS]
      exact (hs1L a).1
    obtain ⟨st1, hrun, hout⟩ := sorted_chain_run (G := chain_deps env s L) L hcl
    have hrun2 : SortRun (chain_deps env s L) ⟨[], []⟩ (.each (x1 :: rest).reverse) st1 := by
      rw [← hLx]; exact hrun
    obtain ⟨f1, s3, hv, hinv3⟩ := sort_sim_descent hcl _ rest x1 ⟨[], []⟩ st1 hnx2 hrun2 hinv
      (fun t ht => by rw [hLx]; exact ht)
    -- the last loop
    obtain ⟨k1, k2, k3, k4, k5, k6⟩ := hinv3
    obtain ⟨s4, hc1, hc2, hc3, hc4, hc5, hc6, hc7, hc8, _⟩ :=
      topsort_clear_spec st1.out s3 START (links_nexts s3 _ _ k1.1)
    have hperm := sorted_chain_perm (G := chain_deps env s L) L hcl hnd
    refine ⟨s4, ⟨max (L.length + L.length + 2) (max f1 (st1.out.length + 1)), ?_⟩, ?_, ?_, ?_⟩
    · intro f hf
      have e1 := hp1 f (by omega)
      simp only [List.filter_nil] at e1
      unfold dll_list.topsort
      rw [if_neg hcond]
      simp only [e1, hs1next]
      rw [hv f (by omega)]
      exact hc1 f (by omega)
    · rw [← hout]
      obtain ⟨c1, c2, c3, c4⟩ := k1
      refine ⟨?_, c2, c3, by rw [hc3]; exact c4⟩
      exact links_congr s3 s4 _ _ (fun a _ => (hc2 a).1) (fun a _ => (hc2 a).2.1) c1
    · refine ⟨fun a => ((hc2 a).2.2).trans (k3.1 a), ?_, ?_, ?_, ?_⟩
      · rw [hc4]; exact k3.2.1
      · rw [hc5]; exact k3.2.2.1
      · rw [hc6]; exact k3.2.2.2.1
      · rw [hc7]; exact k3.2.2.2.2
    · intro x hx
      apply hc8
      rw [hout]
      exact hperm.mem_iff.2 hx

end topsort_total

section fuel_mono

theorem populate_deps_loop_mono (tl : Nat → Nat) (f : Nat) :
    ∀ (ws : List WStr) (s : dll_list) (d : Nat) (r : dll_list),
      populate_deps_loop tl f s d ws = .ok r → populate_deps_loop tl (f + 1) s d ws = .ok r
  | [], s, d, r, h => by simpa [populate_deps_loop] using h
  | w :: ws, s, d, r, h => by
    rw [populate_deps_loop] at h ⊢
    cases hf : dll_list.find_by_modname tl f s START w with
    | error e => rw [hf] at h; simp at h
    | ok o =>
      rw [hf] at h
      rw [find_by_modname_mono tl s w f START o hf]
      cases o with
      | none => exact populate_deps_loop_mono tl f ws s d r h
      | some dep => exact populate_deps_loop_mono tl f ws _ d r h

theorem populate_deps_mono (env : Env) (f : Nat) (s : dll_list) (d : Nat) (r : dll_list)
    (h : dll_list.populate_deps env f s d = .ok r) :
    dll_list.populate_deps env (f + 1) s d = .ok r := by
  unfold dll_list.populate_deps at h ⊢
  simp only at h ⊢
  cases hl : populate_deps_loop env.towlower f
      (if (s.mem d).ndeps = 0 then s.store d { s.mem d with deps := [] } else s) d
      (env.imports ((if (s.mem d).ndeps = 0 then s.store d { s.mem d with deps := [] }
        else s).mem d).handle) with
  | error e => rw [hl] at h; simp at h
  | ok s1 =>
    rw [hl] at h
    rw [populate_deps_loop_mono env.towlower f _ _ _ _ hl]
    exact h

theorem topsort_deps_mono (env : Env) :
    ∀ (f : Nat) (s : dll_list) (d : Nat) (o : Option (List Nat)) (r : dll_list),
      topsort_deps env f s d o = .ok r → topsort_deps env (f + 1) s d o = .ok r
  | 0, _, _, _, _, h => by simp [topsort_deps] at h
  | f + 1, s, d, o, r, h => by
    rw [topsort_deps] at h ⊢
    cases hn : (s.mem d).next with
    | none => rw [hn] at h; exact h
    | some n =>
      rw [hn] at h
      simp only at h ⊢
      by_cases h0 : (s.mem n).ndeps = 0
      · rw [if_pos h0] at h ⊢
        by_cases hty : (s.mem n).type = dll_type.DLL_LOAD
        · rw [if_pos hty] at h ⊢
          cases o with
          | none => simp at h
          | some opened =>
            simp only at h ⊢
            split at h
            · simp at h
            · rename_i s2 hp
              rw [populate_deps_mono env f _ n s2 hp]
              exact topsort_deps_mono env f s2 n _ r h
        · rw [if_neg hty] at h ⊢
          split at h
          · simp at h
          · rename_i s2 hp
            rw [populate_deps_mono env f _ n s2 hp]
            exact topsort_deps_mono env f s2 n _ r h
      · rw [if_neg h0] at h ⊢
        exact topsort_deps_mono env f s n o r h

theorem topsort_visit_mono_both : ∀ (f : Nat),
    (∀ s d b r, dll_list.topsort_visit f s d b = .ok r →
      dll_list.topsort_visit (f + 1) s d b = .ok r) ∧
    (∀ s d i r, topsort_visit_deps f s d i = .ok r →
      topsort_visit_deps (f + 1) s d i = .ok r)
  | 0 => by
    constructor
    · intro s d b r h; simp [dll_list.topsort_visit] at h
    · intro s d i r h; simp [topsort_visit_deps] at h
  | f + 1 => by
    obtain ⟨ih1, ih2⟩ := topsort_visit_mono_both f
    have hfalse : ∀ s d r, dll_list.topsort_visit (f + 1) s d false = .ok r →
        dll_list.topsort_visit (f + 1 + 1) s d false = .ok r := by
      intro s d r h
      rw [topsort_visit_false] at h ⊢
      by_cases hp : (s.mem d).ndeps > 0
      · rw [if_pos hp] at h ⊢
        cases hl : topsort_visit_deps f
            (s.store d { s.mem d with ndeps := - (s.mem d).ndeps }) d 1 with
        | error e => rw [hl] at h; simp at h
        | ok s3 =>
          rw [hl] at h
          rw [ih2 _ _ _ _ hl]
          exact h
      · rw [if_neg hp] at h ⊢
        exact h
    constructor
    · intro s d b r h
      cases b with
      | false => exact hfalse s d r h
      | true =>
        cases hn : (s.mem d).next with
        | none =>
          rw [topsort_visit_true_none _ _ _ hn] at h ⊢
          exact hfalse s d r h
        | some n =>
          rw [topsort_visit_true_some _ _ _ _ hn] at h ⊢
          cases hv : dll_list.topsort_visit f s n true with
          | error e => rw [hv] at h; simp at h
          | ok s1 =>
            rw [hv] at h
            rw [ih1 _ _ _ _ hv]
            exact hfalse s1 d r h
    · intro s d i r h
      rw [topsort_visit_deps_succ] at h ⊢
      by_cases hc : (i : Int) < - (s.mem d).ndeps
      · rw [if_pos hc] at h ⊢
        cases hg : (s.mem d).deps[i - 1]? with
        | none => rw [hg] at h; simp at h
        | some y =>
          rw [hg] at h
          simp only at h ⊢
          cases hv : dll_list.topsort_visit f s y false with
          | error e => rw [hv] at h; simp at h
          | ok s1 =>
            rw [hv] at h
            rw [ih1 _ _ _ _ hv]
            exact ih2 _ _ _ _ h
      · rw [if_neg hc] at h ⊢
        exact h

theorem topsort_clear_mono : ∀ (f : Nat) (s : dll_list) (d : Nat) (r : dll_list),
    topsort_clear f s d = .ok r → topsort_clear (f + 1) s d = .ok r
  | 0, _, _, _, h => by simp [topsort_clear] at h
  | f + 1, s, d, r, h => by
    rw [topsort_clear] at h ⊢
    cases hn : (s.mem d).next with
    | none => rw [hn] at h; exact h
    | some n =>
      rw [hn] at h
      exact topsort_clear_mono f _ n r h

/-- More fuel does not change what `topsort` returns. -/
theorem topsort_mono (env : Env) (f : Nat) (s r : dll_list)
    (h : dll_list.topsort env f s = .ok r) : dll_list.topsort env (f + 1) s = .ok r := by
  unfold dll_list.topsort at h ⊢
  by_cases hc : s.tail = none ∨ s.tail = some START
  · rw [if_pos hc] at h ⊢; exact h
  · rw [if_neg hc] at h ⊢
    simp only at h ⊢
    cases h1 : topsort_deps env f s START (if s.loaded_dlls > 0 then some [] else none) with
    | error e => rw [h1] at h; simp at h
    | ok s1 =>
      rw [h1] at h
      rw [topsort_deps_mono env f s START _ s1 h1]
      simp only at h ⊢
      cases hn : (s1.mem START).next with
      | none => rw [hn] at h; simp at h
      | some d =>
        rw [hn] at h
        simp only at h ⊢
        cases h2 : dll_list.topsort_visit f
            { s1.store START { s1.mem START with next := none } with tail := none } d true with
        | error e => rw [h2] at h; simp at h
        | ok s3 =>
          rw [h2] at h
          rw [(topsort_visit_mono_both f).1 _ _ _ _ h2]
          exact topsort_clear_mono f s3 START r h

/-- What `topsort` returns with some fuel is what it returns with enough
fuel. -/
theorem topsort_result (env : Env) (s : dll_list) (L : List Nat) (hch : s.is_chain L)
    (hclean : ∀ x, x ∈ L → (s.mem x).ndeps = 0)
    (hload : ∀ x, x ∈ L → (s.mem x).type = dll_type.DLL_LOAD → s.loaded_dlls > 0)
    (f : Nat) (r : dll_list) (h : dll_list.topsort env f s = .ok r) :
    r.is_chain (sorted_chain (chain_deps env s L) L) ∧ s.frame r ∧
      (∀ x, x ∈ L → (r.mem x).ndeps = 0 ∧ (r.mem x).deps = []) := by
  obtain ⟨s1, ⟨f0, hf0⟩, h1, h2, h3⟩ := topsort_returns env s L hch hclean hload
  have e1 := mono_le (fun g => dll_list.topsort env g s) (fun g r => topsort_mono env g s r)
    f (max f f0) r (le_max_left _ _) h
  have e2 := hf0 (max f f0) (le_max_right _ _)
  simp only at e1
  rw [e1] at e2
  cases e2
  exact ⟨h1, h2, h3⟩

end fuel_mono

section sort_order

theorem is_registry_load {s : dll_list} {L : List Nat} (h : s.is_registry L) :
    ∀ x, x ∈ L → (s.mem x).type = dll_type.DLL_LOAD → s.loaded_dlls > 0 := by
  intro x hx hty
  rw [h.2.2]
  have : x ∈ L.filter (fun y => decide ((s.mem y).type = dll_type.DLL_LOAD)) :=
    List.mem_filter.2 ⟨hx, by simpa using hty⟩
  have := List.length_pos_of_mem this
  omega

theorem transGen_first_edge {r : Nat → Nat → Prop} {x y : Nat}
    (h : Relation.TransGen r x y) : ∃ z, r x z := by
  induction h with
  | single h => exact ⟨_, h⟩
  | tail _ _ ih => exact ih

/-- Edges that all increase a rank cannot form a cycle. -/
theorem acyclic_of_rank (G : Nat → List Nat) (L : List Nat) (rank : Nat → Nat)
    (h : ∀ a, a ∈ L → ∀ b, b ∈ G a → rank a < rank b) :
    ∀ x, ¬ Relation.TransGen (dep_edge G L) x x := by
  have key : ∀ x y, Relation.TransGen (dep_edge G L) x y → rank x < rank y := by
    intro x y hxy
    induction hxy with
    | single e => exact h _ e.1 _ e.2
    | tail _ e ih => exact lt_trans ih (h _ e.1 _ e.2)
  intro x hx
  exact lt_irrefl _ (key x x hx)

/-- What every run of `topsort` on a registry returns. -/
theorem topsort_on_registry (env : Env) (s : dll_list) (L : List Nat)
    (hreg : s.is_registry L) :
    (∃ f0 s1, ∀ f, f0 ≤ f → dll_list.topsort env f s = .ok s1) ∧
    ∀ f s1, dll_list.topsort env f s = .ok s1 →
      s1.is_chain (sorted_chain (chain_deps env s L) L) ∧ s.frame s1 ∧
        (∀ x, x ∈ L → (s1.mem x).ndeps = 0 ∧ (s1.mem x).deps = []) := by
  have hclean : ∀ x, x ∈ L → (s.mem x).ndeps = 0 := fun x hx => (hreg.2.1 x hx).1
  constructor
  · obtain ⟨s1, ⟨f0, hf0⟩, _⟩ := topsort_returns env s L hreg.1 hclean (is_registry_load hreg)
    exact ⟨f0, s1, hf0⟩
  · intro f s1 h
    exact topsort_result env s L hreg.1 hclean (is_registry_load hreg) f s1 h

end sort_order

/-- C1: on a registry whose dependency edges (for a `DLL_LOAD` record the
`DLL_LOAD` records before it in the chain, and for every record the records
that its import names resolve to) have no cycle, `topsort` returns, and in the
chain it leaves every dependency stands before its dependent. -/
theorem topsort_dependencies_first (env : Env) (s : dll_list) (L : List Nat)
    (hreg : s.is_registry L) (hac : acyclic_deps env s L) :
    (∃ f0 s1, ∀ f, f0 ≤ f → dll_list.topsort env f s = .ok s1) ∧
    ∀ f s1, dll_list.topsort env f s = .ok s1 →
      ∃ L1, s1.is_chain L1 ∧
        ∀ x y, dep_edge (chain_deps env s L) L x y → precedes L1 y x := by
  obtain ⟨h1, h2⟩ := topsort_on_registry env s L hreg
  refine ⟨h1, ?_⟩
  intro f s1 h
  refine ⟨_, (h2 f s1 h).1, ?_⟩
  intro x y hxy
  rcases sorted_chain_deps_first L (chain_deps_closed env s L) hreg.1.2.2.1 x hxy.1 y hxy.2
    with hp | hp
  · exact hp
  · exact absurd (Relation.TransGen.head hxy hp) (hac x)

/-- C1, the diamond `D -> B -> A`, `D -> C -> A`: the hypotheses hold, so the
conclusion holds for the example. -/
theorem topsort_dependencies_first_diamond :
    example_diamond.is_registry [1, 2, 3, 4] ∧
    acyclic_deps example_env_diamond example_diamond [1, 2, 3, 4] ∧
    ((∃ f0 s1, ∀ f, f0 ≤ f → dll_list.topsort example_env_diamond f example_diamond = .ok s1) ∧
      ∀ f s1, dll_list.topsort example_env_diamond f example_diamond = .ok s1 →
        ∃ L1, s1.is_chain L1 ∧
          ∀ x y, dep_edge (chain_deps example_env_diamond example_diamond [1, 2, 3, 4])
            [1, 2, 3, 4] x y → precedes L1 y x) :=
  have hac : acyclic_deps example_env_diamond example_diamond [1, 2, 3, 4] :=
    acyclic_of_rank _ _ id (by decide)
  ⟨by decide, hac,
    topsort_dependencies_first example_env_diamond example_diamond [1, 2, 3, 4] (by decide) hac⟩

/-- C2, as stated, fails: three `DLL_LOAD` records `A`, `B`, `C` opened in this
order, `A` importing `B`.  `topsort` returns the chain `B`, `A`, `C`: the record
`A` (address 1) was before `B` (address 2) and is behind it afterwards. -/
theorem topsort_loaded_order_counterexample :
    (example_three dll_type.DLL_LOAD).is_registry [1, 2, 3] ∧
    ((example_three dll_type.DLL_LOAD).mem 1).type = dll_type.DLL_LOAD ∧
    ((example_three dll_type.DLL_LOAD).mem 2).type = dll_type.DLL_LOAD ∧
    precedes [1, 2, 3] 1 2 ∧
    ∃ s1, (∃ f0, ∀ f, f0 ≤ f →
        dll_list.topsort example_env_a_imports_b f (example_three dll_type.DLL_LOAD) = .ok s1) ∧
      s1.is_chain [2, 1, 3] ∧ ¬ precedes [2, 1, 3] 1 2 := by
  refine ⟨by decide, by decide, by decide, by decide, ?_⟩
  obtain ⟨⟨f0, s1, h1⟩, h2⟩ := topsort_on_registry example_env_a_imports_b
    (example_three dll_type.DLL_LOAD) [1, 2, 3] (by decide)
  have hc := (h2 f0 s1 (h1 f0 le_rfl)).1
  have e : sorted_chain (chain_deps example_env_a_imports_b
      (example_three dll_type.DLL_LOAD) [1, 2, 3]) [1, 2, 3] = [2, 1, 3] := by decide
  rw [e] at hc
  exact ⟨s1, ⟨f0, h1⟩, hc, by decide⟩

/-- C2, amended: on every registry, for two `DLL_LOAD` records `a` before `b`
in the chain such that no path of dependency edges leads from `a` to `b` (`a`
does not depend on `b`, directly or through other records), `topsort` returns
and `a` is before `b` in the chain it leaves. -/
theorem topsort_keeps_loaded_order (env : Env) (s : dll_list) (L : List Nat)
    (hreg : s.is_registry L) (a b : Nat)
    (ha : (s.mem a).type = dll_type.DLL_LOAD) (hb : (s.mem b).type = dll_type.DLL_LOAD)
    (hab : precedes L a b)
    (hnp : ¬ Relation.TransGen (dep_edge (chain_deps env s L) L) a b) :
    (∃ f0 s1, ∀ f, f0 ≤ f → dll_list.topsort env f s = .ok s1) ∧
    ∀ f s1, dll_list.topsort env f s = .ok s1 → ∃ L1, s1.is_chain L1 ∧ precedes L1 a b := by
  obtain ⟨h1, h2⟩ := topsort_on_registry env s L hreg
  refine ⟨h1, ?_⟩
  intro f s1 h
  refine ⟨_, (h2 f s1 h).1, ?_⟩
  have hedge : a ∈ chain_deps env s L b := by
    obtain ⟨p, q, hL, hap, hbp⟩ := precedes_split hab
    unfold chain_deps
    rw [if_pos hb]
    apply List.mem_append_left
    have htake : L.take (L.indexOf b) = p := by rw [hL]; exact take_indexOf_split hbp
    rw [htake]
    exact List.mem_filter.2 ⟨hap, by simpa using ha⟩
  rcases sorted_chain_deps_first L (chain_deps_closed env s L) hreg.1.2.2.1 b hab.2 a hedge
    with hp | hp
  · exact hp
  · exact absurd hp hnp

/-- C2, amended, on three `DLL_LOAD` records without imports: the hypotheses
hold for the first two records and the theorem applies. -/
theorem topsort_keeps_loaded_order_three :
    (example_three dll_type.DLL_LOAD).is_registry [1, 2, 3] ∧
    ((example_three dll_type.DLL_LOAD).mem 1).type = dll_type.DLL_LOAD ∧
    ((example_three dll_type.DLL_LOAD).mem 2).type = dll_type.DLL_LOAD ∧
    precedes [1, 2, 3] 1 2 ∧
    ¬ Relation.TransGen (dep_edge (chain_deps example_env_no_imports
        (example_three dll_type.DLL_LOAD) [1, 2, 3]) [1, 2, 3]) 1 2 ∧
    ((∃ f0 s1, ∀ f, f0 ≤ f →
        dll_list.topsort example_env_no_imports f (example_three dll_type.DLL_LOAD) = .ok s1) ∧
      ∀ f s1, dll_list.topsort example_env_no_imports f (example_three dll_type.DLL_LOAD)
          = .ok s1 → ∃ L1, s1.is_chain L1 ∧ precedes L1 1 2) :=
  have hnp : ¬ Relation.TransGen (dep_edge (chain_deps example_env_no_imports
      (example_three dll_type.DLL_LOAD) [1, 2, 3]) [1, 2, 3]) 1 2 := fun h => by
    obtain ⟨z, _, hz⟩ := transGen_first_edge h
    revert hz
    have e : chain_deps example_env_no_imports (example_three dll_type.DLL_LOAD) [1, 2, 3] 1
        = [] := by decide
    rw [e]
    simp
  ⟨by decide, by decide, by decide, by decide, hnp,
    topsort_keeps_loaded_order example_env_no_imports (example_three dll_type.DLL_LOAD)
      [1, 2, 3] (by decide) 1 2 (by decide) (by decide) (by decide) hnp⟩

/-- C10, as stated, fails: three `DLL_LINK` records, none importing another.
The records at the addresses 1 and 2 have no dependency relation, 1 is before 2
in the chain, and `topsort` returns the chain 3, 2, 1, where 1 is behind 2. -/
theorem topsort_tie_break_counterexample :
    (example_three dll_type.DLL_LINK).is_registry [1, 2, 3] ∧
    ¬ Relation.TransGen (dep_edge (chain_deps example_env_no_imports
        (example_three dll_type.DLL_LINK) [1, 2, 3]) [1, 2, 3]) 1 2 ∧
    ¬ Relation.TransGen (dep_edge (chain_deps example_env_no_imports
        (example_three dll_type.DLL_LINK) [1, 2, 3]) [1, 2, 3]) 2 1 ∧
    precedes [1, 2, 3] 1 2 ∧
    ∃ s1, (∃ f0, ∀ f, f0 ≤ f →
        dll_list.topsort example_env_no_imports f (example_three dll_type.DLL_LINK) = .ok s1) ∧
      s1.is_chain [3, 2, 1] ∧ ¬ precedes [3, 2, 1] 1 2 := by
  have hno : ∀ x y, ¬ Relation.TransGen (dep_edge (chain_deps example_env_no_imports
      (example_three dll_type.DLL_LINK) [1, 2, 3]) [1, 2, 3]) x y := by
    intro x y h
    obtain ⟨z, hx, hz⟩ := transGen_first_edge h
    have e : ∀ a, a ∈ [1, 2, 3] → chain_deps example_env_no_imports
        (example_three dll_type.DLL_LINK) [1, 2, 3] a = [] := by decide
    rw [e x hx] at hz
    simp at hz
  refine ⟨by decide, hno 1 2, hno 2 1, by decide, ?_⟩
  obtain ⟨⟨f0, s1, h1⟩, h2⟩ := topsort_on_registry example_env_no_imports
    (example_three dll_type.DLL_LINK) [1, 2, 3] (by decide)
  have hc := (h2 f0 s1 (h1 f0 le_rfl)).1
  have e : sorted_chain (chain_deps example_env_no_imports
      (example_three dll_type.DLL_LINK) [1, 2, 3]) [1, 2, 3] = [3, 2, 1] := by decide
  rw [e] at hc
  exact ⟨s1, ⟨f0, h1⟩, hc, by decide⟩

/-- C10, amended: on every registry, for two records `x` before `y` in the
chain such that no record of the chain depends on `x` (`x` is in no dependency
array), `topsort` returns and `y` is before `x` in the chain it leaves: the
order of the two records is reversed. -/
theorem topsort_reverses_independent (env : Env) (s : dll_list) (L : List Nat)
    (hreg : s.is_registry L) (x y : Nat)
    (hx : ∀ z, z ∈ L → x ∉ chain_deps env s L z) (hxy : precedes L x y) :
    (∃ f0 s1, ∀ f, f0 ≤ f → dll_list.topsort env f s = .ok s1) ∧
    ∀ f s1, dll_list.topsort env f s = .ok s1 → ∃ L1, s1.is_chain L1 ∧ precedes L1 y x := by
  obtain ⟨h1, h2⟩ := topsort_on_registry env s L hreg
  refine ⟨h1, ?_⟩
  intro f s1 h
  exact ⟨_, (h2 f s1 h).1,
    sorted_chain_roots L (chain_deps_closed env s L) hreg.1.2.2.1 x y hx hxy⟩

/-- C10, amended, on three `DLL_LINK` records without imports: the hypotheses
hold for the first two records and the theorem applies. -/
theorem topsort_reverses_independent_three :
    (example_three dll_type.DLL_LINK).is_registry [1, 2, 3] ∧
    (∀ z, z ∈ [1, 2, 3] → 1 ∉ chain_deps example_env_no_imports
        (example_three dll_type.DLL_LINK) [1, 2, 3] z) ∧
    precedes [1, 2, 3] 1 2 ∧
    ((∃ f0 s1, ∀ f, f0 ≤ f →
        dll_list.topsort example_env_no_imports f (example_three dll_type.DLL_LINK) = .ok s1) ∧
      ∀ f s1, dll_list.topsort example_env_no_imports f (example_three dll_type.DLL_LINK)
          = .ok s1 → ∃ L1, s1.is_chain L1 ∧ precedes L1 2 1) :=
  ⟨by decide, by decide, by decide,
    topsort_reverses_independent example_env_no_imports (example_three dll_type.DLL_LINK)
      [1, 2, 3] (by decide) 1 2 (by decide) (by decide)⟩

section compare_lemmas

theorem wcscasecmp_self (tl : Nat → Nat) : ∀ a : WStr, wcscasecmp tl a a = 0
  | [] => by simp [wcscasecmp]
  | c :: cs => by
    rw [wcscasecmp]
    simp only [sub_self, ne_eq, not_true_eq_false, if_false]
    exact wcscasecmp_self tl cs

theorem wcscasecmp_symm (tl : Nat → Nat) : ∀ a b : WStr,
    wcscasecmp tl a b = 0 → wcscasecmp tl b a = 0
  | [], [], _ => by simp [wcscasecmp]
  | [], c :: cs, h => by
    simp only [wcscasecmp] at h ⊢
    omega
  | c :: cs, [], h => by
    simp only [wcscasecmp] at h ⊢
    omega
  | c1 :: s1, c2 :: s2, h => by
    rw [wcscasecmp] at h ⊢
    by_cases hc : (tl c1 : Int) - (tl c2 : Int) ≠ 0
    · rw [if_pos hc] at h
      exact absurd h hc
    · rw [if_neg hc] at h
      have hc2 : ¬ ((tl c2 : Int) - (tl c1 : Int) ≠ 0) := by
        simp only [ne_eq, not_not] at hc ⊢
        omega
      rw [if_neg hc2]
      exact wcscasecmp_symm tl s1 s2 h

end compare_lemmas

section lookup_results

theorem find_by_modname_chain (tl : Nat → Nat) (s : dll_list) (L : List Nat) (m : WStr)
    (hn : nexts s START L) (f : Nat) (r : Option Nat)
    (h : dll_list.find_by_modname tl f s START m = .ok r) :
    r = chain_find_modname tl s L m := by
  have e1 := mono_le (fun g => dll_list.find_by_modname tl g s START m)
    (fun g r => find_by_modname_mono tl s m g START r) f (max f (L.length + 1)) r
    (le_max_left _ _) h
  have e2 := find_by_modname_nexts tl s m L START hn (max f (L.length + 1))
    (by have := le_max_right f (L.length + 1); omega)
  simp only at e1
  rw [e1] at e2
  cases e2
  rfl

theorem operator_index_chain (tl : Nat → Nat) (s : dll_list) (L : List Nat) (m : WStr)
    (hn : nexts s START L) (f : Nat) (r : Option Nat)
    (h : dll_list.operator_index tl f s START m = .ok r) :
    r = chain_find_name tl s L m := by
  have e1 := mono_le (fun g => dll_list.operator_index tl g s START m)
    (fun g r => operator_index_mono tl s m g START r) f (max f (L.length + 1)) r
    (le_max_left _ _) h
  have e2 := operator_index_nexts tl s m L START hn (max f (L.length + 1))
    (by have := le_max_right f (L.length + 1); omega)
  simp only at e1
  rw [e1] at e2
  cases e2
  rfl

theorem find_chain (s : dll_list) (L : List Nat) (m : Nat)
    (hn : nexts s START L) (f : Nat) (r : Option Nat)
    (h : dll_list.find f s START m = .ok r) :
    r = chain_find_handle s L m := by
  have e1 := mono_le (fun g => dll_list.find g s START m)
    (fun g r => find_mono s m g START r) f (max f (L.length + 1)) r
    (le_max_left _ _) h
  have e2 := find_nexts s m L START hn (max f (L.length + 1))
    (by have := le_max_right f (L.length + 1); omega)
  simp only at e1
  rw [e1] at e2
  cases e2
  rfl

end lookup_results

section unlink

/-- Unlinking the record `d` from the links `P ++ d :: Q`: the `next` of its
predecessor takes its `next`, the `prev` of its successor designates its
predecessor. -/
theorem links_unlink (s t : dll_list) (d : Nat) (Q : List Nat) :
    ∀ (P : List Nat) (c : Nat), links s c (P ++ d :: Q) → (c :: (P ++ d :: Q)).Nodup →
      (t.mem ((c :: P).getLast (List.cons_ne_nil _ _))).next = (s.mem d).next →
      (∀ a, a ≠ (c :: P).getLast (List.cons_ne_nil _ _) → (t.mem a).next = (s.mem a).next) →
      (∀ nx, Q.head? = some nx →
        (t.mem nx).prev = some ((c :: P).getLast (List.cons_ne_nil _ _))) →
      (∀ a, Q.head? ≠ some a → (t.mem a).prev = (s.mem a).prev) →
      links t c (P ++ Q)
  | [], c, hl, hnd, h1, h2, h3, h4 => by
    simp only [List.nil_append, List.getLast_singleton] at *
    unfold links at hl
    obtain ⟨l1, l2, l3⟩ := hl
    have hcd : c ≠ d := by
      intro h; rw [h] at hnd; simp at hnd
    cases Q with
    | nil =>
      unfold links at l3 ⊢
      rw [h1, l3]
    | cons nx Q2 =>
      unfold links at l3 ⊢
      obtain ⟨m1, m2, m3⟩ := l3
      refine ⟨by rw [h1, m1], h3 nx rfl, ?_⟩
      apply links_congr s t Q2 nx _ _ m3
      · intro a ha
        apply h2
        intro hac
        rw [hac] at ha
        have : c ∈ nx :: Q2 := by
          rcases ha with ha | ha
          · rw [ha]; exact List.mem_cons_self _ _
          · exact List.mem_cons_of_mem _ ha
        rw [List.nodup_cons] at hnd
        exact hnd.1 (List.mem_cons_of_mem _ this)
      · intro a ha
        apply h4
        simp only [List.head?_cons, ne_eq, Option.some.injEq]
        intro hna
        rw [← hna] at ha
        rw [List.nodup_cons, List.nodup_cons, List.nodup_cons] at hnd
        exact hnd.2.2.1 ha
  | x :: P, c, hl, hnd, h1, h2, h3, h4 => by
    have hlast : (c :: x :: P).getLast (List.cons_ne_nil _ _)
        = (x :: P).getLast (List.cons_ne_nil _ _) := List.getLast_cons (List.cons_ne_nil _ _)
    rw [hlast] at h1 h2 h3
    simp only [List.cons_append] at hl ⊢
    unfold links at hl ⊢
    obtain ⟨l1, l2, l3⟩ := hl
    have hnd2 : (x :: (P ++ d :: Q)).Nodup := (List.nodup_cons.1 hnd).2
    have hc : c ∉ x :: (P ++ d :: Q) := (List.nodup_cons.1 hnd).1
    have hmem : (x :: P).getLast (List.cons_ne_nil _ _) ∈ x :: (P ++ d :: Q) := by
      have := List.getLast_mem (List.cons_ne_nil x P)
      rcases List.mem_cons.1 this with h | h
      · rw [h]; exact List.mem_cons_self _ _
      · exact List.mem_cons_of_mem _ (List.mem_append_left _ h)
    refine ⟨?_, ?_, links_unlink s t d Q P x l3 hnd2 h1 h2 h3 h4⟩
    · rw [h2 c (fun h => hc (h ▸ hmem))]; exact l1
    · rw [h4 x]
      · exact l2
      · intro hq
        have hxQ : x ∈ Q := List.mem_of_mem_head? hq
        rw [List.nodup_cons] at hnd2
        exact hnd2.1 (List.mem_append_right _ (List.mem_cons_of_mem _ hxQ))

end unlink

section detach_lemmas

theorem links_prev_next (s : dll_list) (d : Nat) (Q : List Nat) :
    ∀ (P : List Nat) (c : Nat), links s c (P ++ d :: Q) →
      (s.mem d).prev = some ((c :: P).getLast (List.cons_ne_nil _ _)) ∧
        (s.mem d).next = Q.head?
  | [], c, hl => by
    simp only [List.nil_append] at hl
    unfold links at hl
    refine ⟨by simpa using hl.2.1, ?_⟩
    cases Q with
    | nil => simpa [links] using hl.2.2
    | cons nx Q2 =>
      have := hl.2.2
      unfold links at this
      simpa using this.1
  | x :: P, c, hl => by
    simp only [List.cons_append] at hl
    unfold links at hl
    have := links_prev_next s d Q P x hl.2.2
    rw [List.getLast_cons (List.cons_ne_nil _ _)]
    exact this

theorem chain_find_handle_mem (s : dll_list) (L : List Nat) (h d : Nat)
    (hd : chain_find_handle s L h = some d) : d ∈ L ∧ (s.mem d).handle = h := by
  unfold chain_find_handle at hd
  exact ⟨List.mem_of_find?_eq_some hd, by simpa using List.find?_some hd⟩

theorem filter_length_remove (p : Nat → Bool) (P Q : List Nat) (d : Nat) :
    ((P ++ d :: Q).filter p).length = ((P ++ Q).filter p).length + (if p d then 1 else 0) := by
  simp only [List.filter_append, List.filter_cons, List.length_append]
  split
  · simp only [List.length_cons]; omega
  · simp

/-- The heap after the pointer assignments of `detach`. -/
theorem detach_relink_mem (s : dll_list) (d pv a : Nat) :
    (detach_relink s d pv).mem a =
      if (s.mem d).next = some a then
        { (if a = pv then { s.mem pv with next := (s.mem d).next } else s.mem a) with
          prev := (s.mem d).prev }
      else if a = pv then { s.mem pv with next := (s.mem d).next }
      else s.mem a := by
  have hd : ((s.store pv { s.mem pv with next := (s.mem d).next }).mem d).next
      = (s.mem d).next ∧
      ((s.store pv { s.mem pv with next := (s.mem d).next }).mem d).prev
      = (s.mem d).prev := by
    by_cases h : d = pv
    · subst h; simp [store_mem_same]
    · simp [store_mem_other _ _ _ _ h]
  unfold detach_relink
  simp only [hd.1, hd.2]
  cases hn : (s.mem d).next with
  | none =>
    simp only [reduceCtorEq, if_false]
    by_cases h : a = pv
    · subst h; simp [store_mem_same, hn]
    · simp [store_mem_other _ _ _ _ h, h]
  | some nx =>
    simp only [Option.some.injEq]
    by_cases h1 : nx = a
    · subst h1
      simp only [store_mem_same, if_true]
      by_cases h : nx = pv
      · subst h; simp [store_mem_same]
      · simp [store_mem_other _ _ _ _ h, h]
    · have h1b : a ≠ nx := fun hh => h1 hh.symm
      simp only [h1, if_false, store_mem_other _ _ _ _ h1b]
      by_cases h : a = pv
      · subst h; simp [store_mem_same]
      · simp [store_mem_other _ _ _ _ h, h]

theorem detach_relink_fields (s : dll_list) (d pv : Nat) :
    (detach_relink s d pv).hold = s.hold ∧ (detach_relink s d pv).hold_type = s.hold_type ∧
    (detach_relink s d pv).reload_on_fork = s.reload_on_fork ∧
    (detach_relink s d pv).tail = s.tail ∧
    (detach_relink s d pv).loaded_dlls = s.loaded_dlls := by
  unfold detach_relink
  simp only
  refine ⟨?_, ?_, ?_, ?_, ?_⟩ <;> (split <;> rfl)

theorem detach_relink_payload (s : dll_list) (d pv a : Nat) :
    ((detach_relink s d pv).mem a).payload = (s.mem a).payload ∧
    ((detach_relink s d pv).mem a).ndeps = (s.mem a).ndeps ∧
    ((detach_relink s d pv).mem a).deps = (s.mem a).deps := by
  rw [detach_relink_mem]
  by_cases h1 : (s.mem d).next = some a
  · rw [if_pos h1]
    by_cases h2 : a = pv
    · subst h2; simp [dll.payload]
    · simp [h2, dll.payload]
  · rw [if_neg h1]
    by_cases h2 : a = pv
    · subst h2; simp [dll.payload]
    · simp [h2]

theorem detach_unlink_mem (s : dll_list) (d pv : Nat) :
    (detach_unlink s d pv).mem = (detach_relink s d pv).mem := by
  unfold detach_unlink
  simp only
  split <;> split <;> rfl

theorem detach_unlink_fields (s : dll_list) (d pv : Nat) :
    (detach_unlink s d pv).hold = s.hold ∧ (detach_unlink s d pv).hold_type = s.hold_type ∧
    (detach_unlink s d pv).reload_on_fork = s.reload_on_fork ∧
    (detach_unlink s d pv).loaded_dlls =
      s.loaded_dlls - (if (s.mem d).type = dll_type.DLL_LOAD then 1 else 0) ∧
    (detach_unlink s d pv).tail =
      if s.tail = some d then ((detach_relink s d pv).mem d).prev else s.tail := by
  obtain ⟨f1, f2, f3, f4, f5⟩ := detach_relink_fields s d pv
  have hty : ((detach_relink s d pv).mem d).type = (s.mem d).type :=
    payload_type (detach_relink_payload s d pv d).1
  unfold detach_unlink
  simp only [hty]
  by_cases h1 : (s.mem d).type = dll_type.DLL_LOAD
  · simp only [h1, if_true, f4]
    by_cases h2 : s.tail = some d
    · simp [h2, f1, f2, f3, f5]
    · simp [h2, f1, f2, f3, f4, f5]
  · simp only [h1, if_false, f4]
    by_cases h2 : s.tail = some d
    · simp [h2, f1, f2, f3, f5]
    · simp [h2, f1, f2, f3, f4, f5]

theorem getLast_cons_eq_getLast? (c : Nat) (P : List Nat) (hP : P ≠ []) :
    some ((c :: P).getLast (List.cons_ne_nil _ _)) = P.getLast? := by
  rw [List.getLast_cons hP, List.getLast?_eq_getLast _ hP]

/-- `detach` on a registry returns a registry whose chain is the old one or
the old one without one record; the records keep their fields. -/
theorem detach_registry_erase (s : dll_list) (L : List Nat) (hreg : s.is_registry L)
    (f : Nat) (myself in_forkee : Bool) (query : Option Nat) (s1 : dll_list)
    (h : dll_list.detach f s myself in_forkee query = .ok s1) :
    ∃ L1, s1.is_registry L1 ∧ (∀ x, x ∈ L1 → x ∈ L) ∧
      (∀ a, (s1.mem a).payload = (s.mem a).payload) ∧
      L1 = detach_survivors s L myself in_forkee query := by
  unfold dll_list.detach at h
  by_cases hg : myself = false ∨ in_forkee = true
  · rw [if_pos hg] at h
    cases h
    exact ⟨L, hreg, fun _ hx => hx, fun _ => rfl,
      by unfold detach_survivors; rw [if_pos hg]⟩
  · rw [if_neg hg] at h
    cases query with
    | none =>
      cases h
      exact ⟨L, hreg, fun _ hx => hx, fun _ => rfl,
        by unfold detach_survivors; rw [if_neg hg]⟩
    | some hq =>
      simp only at h
      cases hfind : dll_list.find f s START hq with
      | error e => rw [hfind] at h; simp at h
      | ok r =>
        rw [hfind] at h
        have hr := find_chain s L hq (links_nexts s L START hreg.1.1) f r hfind
        cases r with
        | none =>
          cases h
          refine ⟨L, hreg, fun _ hx => hx, fun _ => rfl, ?_⟩
          unfold detach_survivors
          rw [if_neg hg]
          show L = match chain_find_handle s L hq with
            | none => L
            | some d => L.erase d
          rw [← hr]
        | some d =>
          simp only at h
          have hsurv : detach_survivors s L myself in_forkee (some hq) = L.erase d := by
            unfold detach_survivors
            rw [if_neg hg]
            show (match chain_find_handle s L hq with
              | none => L
              | some d => L.erase d) = L.erase d
            rw [← hr]
          obtain ⟨hdL, _⟩ := chain_find_handle_mem s L hq d hr.symm
          obtain ⟨P, Q, hL⟩ := List.append_of_mem hdL
          obtain ⟨⟨hlinks, hS, hnd, htail⟩, hclean, hcount⟩ := hreg
          subst hL
          obtain ⟨hprev, hnext⟩ := links_prev_next s d Q P START hlinks
          rw [hprev] at h
          simp only at h
          injection h with h
          subst h
          generalize hpv : (START :: P).getLast (List.cons_ne_nil _ _) = pv at hprev
          have hndS : (START :: (P ++ d :: Q)).Nodup := List.nodup_cons.2 ⟨hS, hnd⟩
          have hpvmem : pv ∈ START :: P := by rw [← hpv]; exact List.getLast_mem _
          have hdP : d ∉ P := by
            rw [List.nodup_append] at hnd
            intro hh; exact hnd.2.2 hh (List.mem_cons_self _ _)
          have hdQ : d ∉ Q := by
            rw [List.nodup_append] at hnd
            exact (List.nodup_cons.1 hnd.2.1).1
          have hdS : d ≠ START := fun hh => hS (by rw [← hh]; simp)
          have hdpv : d ≠ pv := by
            intro hh
            rw [← hh] at hpvmem
            rcases List.mem_cons.1 hpvmem with h1 | h1
            · exact hdS h1
            · exact hdP h1
          have hnd_d : (s.mem d).next ≠ some d := by
            rw [hnext]
            intro hh
            exact hdQ (List.mem_of_mem_head? hh)
          have hmemd : (detach_relink s d pv).mem d = s.mem d := by
            rw [detach_relink_mem, if_neg hnd_d, if_neg hdpv]
          obtain ⟨u1, u2, u3, u4, u5⟩ := detach_unlink_fields s d pv
          rw [hmemd, hprev] at u5
          refine ⟨P ++ Q, ⟨⟨?_, ?_, ?_, ?_⟩, ?_, ?_⟩, ?_, ?_, ?_⟩
          · apply links_unlink s _ d Q P START hlinks hndS
            · simp only [hpv]
              rw [detach_unlink_mem, detach_relink_mem]
              split <;> simp
            · simp only [hpv]
              intro a ha
              rw [detach_unlink_mem, detach_relink_mem]
              split
              · simp [ha]
              · simp [ha]
            · simp only [hpv]
              intro nx hnx
              rw [detach_unlink_mem, detach_relink_mem, hnext, if_pos hnx, hprev]
            · intro a ha
              rw [detach_unlink_mem, detach_relink_mem, hnext, if_neg ha]
              split
              · rename_i hh; rw [hh]
              · rfl
          · intro hh
            apply hS
            rcases List.mem_append.1 hh with h1 | h1
            · exact List.mem_append_left _ h1
            · exact List.mem_append_right _ (List.mem_cons_of_mem _ h1)
          · rw [List.nodup_append] at hnd ⊢
            exact ⟨hnd.1, (List.nodup_cons.1 hnd.2.1).2,
              fun a ha hb => hnd.2.2 ha (List.mem_cons_of_mem _ hb)⟩
          · rw [u5]
            have htail2 : s.tail = (P ++ d :: Q).getLast? := by
              rw [if_neg (by simp)] at htail; exact htail
            by_cases hQ : Q = []
            · subst hQ
              have hst : s.tail = some d := by rw [htail2]; simp
              rw [if_pos hst]
              by_cases hP : P = []
              · subst hP
                simp at hpv
                simp [← hpv]
              · simp only [List.append_nil, hP, if_false]
                rw [← hpv]
                exact getLast_cons_eq_getLast? START P hP
            · have hne : P ++ Q ≠ [] := by simp [hQ]
              rw [if_neg hne]
              have hlast : (P ++ d :: Q).getLast? = (P ++ Q).getLast? := by
                rw [List.getLast?_append_of_ne_nil _ (by simp),
                  List.getLast?_append_of_ne_nil _ hQ]
                obtain ⟨q, Q2, hQ2⟩ := List.exists_cons_of_ne_nil hQ
                rw [hQ2, List.getLast?_cons_cons]
              have hst : s.tail ≠ some d := by
                rw [htail2, hlast, List.getLast?_eq_getLast _ hne]
                intro hh
                have hm := List.getLast_mem hne
                rw [Option.some.inj hh] at hm
                rcases List.mem_append.1 hm with h1 | h1
                · exact hdP h1
                · exact hdQ h1
              rw [if_neg hst, htail2, hlast]
          · intro x hx
            rw [detach_unlink_mem, (detach_relink_payload s d pv x).2.1,
              (detach_relink_payload s d pv x).2.2]
            apply hclean
            rcases List.mem_append.1 hx with h1 | h1
            · exact List.mem_append_left _ h1
            · exact List.mem_append_right _ (List.mem_cons_of_mem _ h1)
          · rw [u4, hcount, filter_length_remove]
            have : (P ++ Q).filter (fun y => decide (((detach_unlink s d pv).mem y).type
                = dll_type.DLL_LOAD)) = (P ++ Q).filter (fun y => decide ((s.mem y).type
                = dll_type.DLL_LOAD)) := by
              apply List.filter_congr
              intro x _
              rw [detach_unlink_mem, payload_type (detach_relink_payload s d pv x).1]
            rw [this]
            by_cases hty : (s.mem d).type = dll_type.DLL_LOAD
            · simp [hty]
            · simp [hty]
          · intro x hx
            rcases List.mem_append.1 hx with h1 | h1
            · exact List.mem_append_left _ h1
            · exact List.mem_append_right _ (List.mem_cons_of_mem _ h1)
          · intro a
            rw [detach_unlink_mem]
            exact (detach_relink_payload s d pv a).1
          · rw [hsurv, List.erase_append_right _ hdP, List.erase_cons_head]

theorem detach_registry (s : dll_list) (L : List Nat) (hreg : s.is_registry L)
    (f : Nat) (myself in_forkee : Bool) (query : Option Nat) (s1 : dll_list)
    (h : dll_list.detach f s myself in_forkee query = .ok s1) :
    ∃ L1, s1.is_registry L1 ∧ (∀ x, x ∈ L1 → x ∈ L) ∧
      (∀ a, (s1.mem a).payload = (s.mem a).payload) := by
  obtain ⟨L1, h1, h2, h3, _⟩ := detach_registry_erase s L hreg f myself in_forkee query s1 h
  exact ⟨L1, h1, h2, h3⟩

end detach_lemmas

section alloc_lemmas

theorem alloc_find_chain (tl : Nat → Nat) (s : dll_list) (L : List Nat) (type : dll_type)
    (name modname : WStr) (hn : nexts s START L) (f : Nat) (r : Option Nat)
    (h : alloc_find tl f s type name modname = .ok r) :
    r = chain_alloc_find tl s L type name modname := by
  unfold alloc_find at h
  unfold chain_alloc_find
  by_cases hty : type = dll_type.DLL_LINK
  · rw [if_pos hty] at h ⊢
    exact find_by_modname_chain tl s L modname hn f r h
  · rw [if_neg hty] at h ⊢
    exact operator_index_chain tl s L name hn f r h

/-- The two ways `alloc` returns: the record found, with its metadata
replaced, or the record allocated and appended. -/
theorem alloc_cases (env : Env) (f : Nat) (s : dll_list) (h : Nat) (p : per_process)
    (type : dll_type) (fresh : Nat) (s1 : dll_list) (d : Nat)
    (hok : dll_list.alloc env f s h p type fresh = .ok (s1, d)) :
    ∃ modname, wcsrchr_succ (alloc_name (env.GetModuleFileNameW h)) = some modname ∧
      ((alloc_find env.towlower f s type (alloc_name (env.GetModuleFileNameW h)) modname
            = .ok (some d) ∧
          (s.mem d).handle = h ∧
          ¬ (type = dll_type.DLL_LINK ∧
            wcscasecmp env.towlower (alloc_name (env.GetModuleFileNameW h)) (s.mem d).name ≠ 0 ∧
            alloc_meta_differs (s.mem d).p p = true) ∧
          s1 = s.store d { s.mem d with p := per_module.assign p }) ∨
        (alloc_find env.towlower f s type (alloc_name (env.GetModuleFileNameW h)) modname
            = .ok none ∧
          d = fresh ∧
          s1 = alloc_inserted env s fresh h p type
            (alloc_name (env.GetModuleFileNameW h)) modname)) := by
  unfold dll_list.alloc at hok
  simp only at hok
  cases hm : wcsrchr_succ (alloc_name (env.GetModuleFileNameW h)) with
  | none => rw [hm] at hok; simp at hok
  | some modname =>
    rw [hm] at hok
    simp only at hok
    refine ⟨modname, rfl, ?_⟩
    cases hfind : alloc_find env.towlower f s type
        (alloc_name (env.GetModuleFileNameW h)) modname with
    | error e => rw [hfind] at hok; simp at hok
    | ok r =>
      rw [hfind] at hok
      cases r with
      | some d0 =>
        simp only at hok
        left
        by_cases hh : (s.mem d0).handle ≠ h
        · rw [if_pos hh] at hok; simp at hok
        · rw [if_neg hh] at hok
          by_cases hc : type = dll_type.DLL_LINK ∧
              wcscasecmp env.towlower (alloc_name (env.GetModuleFileNameW h)) (s.mem d0).name ≠ 0 ∧
              alloc_meta_differs (s.mem d0).p p = true
          · rw [if_pos hc] at hok; simp at hok
          · rw [if_neg hc] at hok
            injection hok with hok
            injection hok with e1 e2
            subst e2
            exact ⟨rfl, by simpa using hh, hc, e1.symm⟩
      | none =>
        simp only at hok
        right
        injection hok with hok
        injection hok with e1 e2
        refine ⟨rfl, e2.symm, ?_⟩
        rw [← e1]
        unfold alloc_inserted
        split <;> rfl

theorem chain_find_name_mem (tl : Nat → Nat) (s : dll_list) (L : List Nat) (m : WStr)
    (y : Nat) (h : chain_find_name tl s L m = some y) :
    y ∈ L ∧ wcscasecmp tl m (s.mem y).name = 0 := by
  unfold chain_find_name at h
  exact ⟨List.mem_of_find?_eq_some h, by simpa using List.find?_some h⟩

theorem chain_find_modname_none (tl : Nat → Nat) (s : dll_list) (L : List Nat) (m : WStr)
    (h : chain_find_modname tl s L m = none) :
    ∀ y, y ∈ L → wcscasecmp tl m (s.mem y).modname ≠ 0 := by
  unfold chain_find_modname at h
  intro y hy
  have := List.find?_eq_none.1 h y hy
  simpa using this

theorem chain_find_name_none (tl : Nat → Nat) (s : dll_list) (L : List Nat) (m : WStr)
    (h : chain_find_name tl s L m = none) :
    ∀ y, y ∈ L → wcscasecmp tl m (s.mem y).name ≠ 0 := by
  unfold chain_find_name at h
  intro y hy
  have := List.find?_eq_none.1 h y hy
  simpa using this

theorem chain_alloc_find_mem (tl : Nat → Nat) (s : dll_list) (L : List Nat) (type : dll_type)
    (name modname : WStr) (d : Nat)
    (h : chain_alloc_find tl s L type name modname = some d) : d ∈ L := by
  unfold chain_alloc_find at h
  split at h
  · exact (chain_find_modname_mem _ _ _ _ _ h).1
  · exact (chain_find_name_mem _ _ _ _ _ h).1

/-- Replacing the metadata of a record keeps the registry. -/
theorem store_p_registry (s : dll_list) (L : List Nat) (hreg : s.is_registry L) (d : Nat)
    (q : per_module) : (s.store d { s.mem d with p := q }).is_registry L := by
  obtain ⟨⟨c1, c2, c3, c4⟩, hclean, hcount⟩ := hreg
  have hsame : ∀ a, ((s.store d { s.mem d with p := q }).mem a).next = (s.mem a).next ∧
      ((s.store d { s.mem d with p := q }).mem a).prev = (s.mem a).prev ∧
      ((s.store d { s.mem d with p := q }).mem a).ndeps = (s.mem a).ndeps ∧
      ((s.store d { s.mem d with p := q }).mem a).deps = (s.mem a).deps ∧
      ((s.store d { s.mem d with p := q }).mem a).type = (s.mem a).type := by
    intro a
    by_cases ha : a = d
    · subst ha; simp [store_mem_same]
    · simp [store_mem_other _ _ _ _ ha]
  refine ⟨⟨links_congr s _ L START (fun a _ => (hsame a).1) (fun a _ => (hsame a).2.1) c1,
    c2, c3, c4⟩, ?_, ?_⟩
  · intro x hx
    rw [(hsame x).2.2.1, (hsame x).2.2.2.1]
    exact hclean x hx
  · rw [store_loaded, hcount]
    congr 2
    apply List.filter_congr
    intro x _
    rw [(hsame x).2.2.2.2]

/-- Allocating a record at an address that is not in the chain extends the
registry by it. -/
theorem alloc_inserted_registry (env : Env) (s : dll_list) (L : List Nat)
    (hreg : s.is_registry L) (d h : Nat) (p : per_process) (type : dll_type)
    (name modname : WStr) (hd : d ∉ L) (hS : d ≠ START) :
    (alloc_inserted env s d h p type name modname).is_registry (L ++ [d]) ∧
    (alloc_inserted env s d h p type name modname).mem d
      = { alloc_record env s d h p type name modname with
          next := none, prev := some (s.store d (alloc_record env s d h p type name modname)).last } ∧
    ∀ a, a ≠ d →
      ((alloc_inserted env s d h p type name modname).mem a).payload = (s.mem a).payload := by
  obtain ⟨⟨c1, c2, c3, c4⟩, hclean, hcount⟩ := hreg
  have hch0 : (s.store d (alloc_record env s d h p type name modname)).is_chain L := by
    refine ⟨?_, c2, c3, c4⟩
    apply links_congr s _ L START _ _ c1
    · intro a ha
      have : a ≠ d := by
        rcases ha with ha | ha
        · rw [ha]; exact fun hh => hS hh.symm
        · exact fun hh => hd (hh ▸ ha)
      rw [store_mem_other _ _ _ _ this]
    · intro a ha
      have : a ≠ d := fun hh => hd (hh ▸ ha)
      rw [store_mem_other _ _ _ _ this]
  have hch1 := append_is_chain hch0 d hd hS
  have hmem : (alloc_inserted env s d h p type name modname).mem
      = ((s.store d (alloc_record env s d h p type name modname)).append d).mem := by
    unfold alloc_inserted; split <;> rfl
  have htl : (alloc_inserted env s d h p type name modname).tail
      = ((s.store d (alloc_record env s d h p type name modname)).append d).tail := by
    unfold alloc_inserted; split <;> rfl
  have hlast : (s.store d (alloc_record env s d h p type name modname)).last ≠ d := by
    rw [is_chain_last hch0]
    intro hh
    have := List.getLast_mem (List.cons_ne_nil START L)
    rw [hh] at this
    rcases List.mem_cons.1 this with h1 | h1
    · exact hS h1
    · exact hd h1
  have hty : ∀ a, a ∈ L → ((alloc_inserted env s d h p type name modname).mem a).type
      = (s.mem a).type ∧ ((alloc_inserted env s d h p type name modname).mem a).ndeps
      = (s.mem a).ndeps ∧ ((alloc_inserted env s d h p type name modname).mem a).deps
      = (s.mem a).deps := by
    intro a ha
    have had : a ≠ d := fun hh => hd (hh ▸ ha)
    rw [hmem]
    refine ⟨?_, ?_, ?_⟩
    · rw [payload_type (append_payload _ d a), store_mem_other _ _ _ _ had]
    · rw [(append_ndeps _ d a).1, store_mem_other _ _ _ _ had]
    · rw [(append_ndeps _ d a).2, store_mem_other _ _ _ _ had]
  have hnew : (alloc_inserted env s d h p type name modname).mem d
      = { alloc_record env s d h p type name modname with
          next := none, prev := some (s.store d (alloc_record env s d h p type name modname)).last } := by
    rw [hmem, append_mem]
    simp only [if_true]
    rw [if_neg (fun hh => hlast hh.symm), store_mem_same]
  refine ⟨⟨⟨?_, hch1.2.1, hch1.2.2.1, ?_⟩, ?_, ?_⟩, hnew, ?_⟩
  · exact links_congr _ _ _ START (fun a _ => by rw [hmem]) (fun a _ => by rw [hmem]) hch1.1
  · rw [htl]; exact hch1.2.2.2
  · intro x hx
    rcases List.mem_append.1 hx with hx | hx
    · rw [(hty x hx).2.1, (hty x hx).2.2]
      exact hclean x hx
    · simp only [List.mem_singleton] at hx
      subst hx
      rw [hnew]
      exact ⟨rfl, rfl⟩
  · have hfl : (L ++ [d]).filter (fun y => decide
        (((alloc_inserted env s d h p type name modname).mem y).type = dll_type.DLL_LOAD))
        = L.filter (fun y => decide ((s.mem y).type = dll_type.DLL_LOAD)) ++
          (if type = dll_type.DLL_LOAD then [d] else []) := by
      rw [List.filter_append]
      congr 1
      · apply List.filter_congr
        intro x hx
        rw [(hty x hx).1]
      · simp only [List.filter_cons, List.filter_nil, hnew]
        simp [alloc_record]
    rw [hfl]
    have hld : (alloc_inserted env s d h p type name modname).loaded_dlls
        = s.loaded_dlls + (if type = dll_type.DLL_LOAD then 1 else 0) := by
      unfold alloc_inserted
      split
      · rfl
      · exact (add_zero _).symm
    rw [hld, hcount]
    by_cases ht : type = dll_type.DLL_LOAD
    · simp [ht]
    · simp [ht]
  · intro a ha
    rw [hmem, append_payload, store_mem_other _ _ _ _ ha]

end alloc_lemmas

section reachable_lemmas

theorem registry_unique_transfer (env : Env) (s s1 : dll_list) (L L1 : List Nat)
    (hsub : ∀ x, x ∈ L1 → x ∈ L)
    (hsame : ∀ x, x ∈ L1 → (s1.mem x).name = (s.mem x).name ∧
      (s1.mem x).modname = (s.mem x).modname ∧ (s1.mem x).handle = (s.mem x).handle ∧
      (s1.mem x).type = (s.mem x).type)
    (h : registry_unique env s L) : registry_unique env s1 L1 := by
  obtain ⟨h1, h2, h3, h4⟩ := h
  refine ⟨?_, ?_, ?_, ?_⟩
  · intro x hx
    obtain ⟨e1, e2, e3, _⟩ := hsame x hx
    rw [e1, e2, e3]
    exact h1 x (hsub x hx)
  · intro x hx y hy hxy tx ty
    obtain ⟨_, e2, _, e4⟩ := hsame x hx
    obtain ⟨_, g2, _, g4⟩ := hsame y hy
    rw [e2, g2]
    exact h2 x (hsub x hx) y (hsub y hy) hxy (e4 ▸ tx) (g4 ▸ ty)
  · intro x hx y hy hxy tx ty
    obtain ⟨e1, _, _, e4⟩ := hsame x hx
    obtain ⟨g1, _, _, g4⟩ := hsame y hy
    rw [e1, g1]
    exact h3 x (hsub x hx) y (hsub y hy) hxy (e4 ▸ tx) (g4 ▸ ty)
  · intro x hx y hy hxy
    obtain ⟨_, _, e3, _⟩ := hsame x hx
    obtain ⟨_, _, g3, _⟩ := hsame y hy
    rw [e3, g3]
    exact h4 x (hsub x hx) y (hsub y hy) hxy

theorem payload_ident {a b : dll} (h : a.payload = b.payload) :
    a.name = b.name ∧ a.modname = b.modname ∧ a.handle = b.handle ∧ a.type = b.type :=
  ⟨payload_name h, payload_modname h, payload_handle h, payload_type h⟩

/-- `topsort` on a registry returns a registry, with the sorted chain. -/
theorem topsort_registry (env : Env) (s : dll_list) (L : List Nat) (hreg : s.is_registry L)
    (f : Nat) (s1 : dll_list) (h : dll_list.topsort env f s = .ok s1) :
    s1.is_registry (sorted_chain (chain_deps env s L) L) ∧ s.frame s1 := by
  obtain ⟨h1, h2, h3⟩ := (topsort_on_registry env s L hreg).2 f s1 h
  have hperm := sorted_chain_perm (G := chain_deps env s L) L (chain_deps_closed env s L)
    hreg.1.2.2.1
  refine ⟨⟨h1, ?_, ?_⟩, h2⟩
  · intro x hx
    exact h3 x (hperm.mem_iff.1 hx)
  · rw [h2.2.2.2.1, hreg.2.2]
    congr 1
    have : (sorted_chain (chain_deps env s L) L).filter
        (fun y => decide ((s1.mem y).type = dll_type.DLL_LOAD))
        = (sorted_chain (chain_deps env s L) L).filter
          (fun y => decide ((s.mem y).type = dll_type.DLL_LOAD)) := by
      apply List.filter_congr
      intro x _
      rw [payload_type (h2.1 x)]
    rw [this]
    exact ((hperm.filter _).length_eq).symm

/-- Every reachable registry is a registry at rest whose records are
identified without ambiguity. -/
theorem reachable_registry (env : Env) (s : dll_list) (h : dll_list.reachable env s) :
    ∃ L, s.is_registry L ∧ registry_unique env s L := by
  induction h with
  | start =>
    refine ⟨[], by decide, ?_⟩
    exact ⟨by simp, by simp, by simp, by simp⟩
  | alloc s s1 f h p type fresh d _ hS hfresh hok ih =>
    obtain ⟨L, hreg, huniq⟩ := ih
    have hfL := hfresh L hreg.1
    obtain ⟨modname, hmod, hcase⟩ := alloc_cases env f s h p type fresh s1 d hok
    rcases hcase with ⟨_, _, _, hs1⟩ | ⟨hfind, hd, hs1⟩
    · subst hs1
      refine ⟨L, store_p_registry s L hreg d _, ?_⟩
      apply registry_unique_transfer env s _ L L (fun _ hx => hx) _ huniq
      intro x _
      by_cases hx : x = d
      · subst hx; simp [store_mem_same]
      · simp [store_mem_other _ _ _ _ hx]
    · subst hd
      subst hs1
      have hnone := (alloc_find_chain env.towlower s L type _ modname
        (links_nexts s L START hreg.1.1) f none hfind).symm
      obtain ⟨r1, r2, r3⟩ := alloc_inserted_registry env s L hreg d h p type
        (alloc_name (env.GetModuleFileNameW h)) modname hfL hS
      have hnewf : ((alloc_inserted env s d h p type
          (alloc_name (env.GetModuleFileNameW h)) modname).mem d).name
            = alloc_name (env.GetModuleFileNameW h) ∧
          ((alloc_inserted env s d h p type
            (alloc_name (env.GetModuleFileNameW h)) modname).mem d).modname = modname ∧
          ((alloc_inserted env s d h p type
            (alloc_name (env.GetModuleFileNameW h)) modname).mem d).handle = h ∧
          ((alloc_inserted env s d h p type
            (alloc_name (env.GetModuleFileNameW h)) modname).mem d).type = type := by
        rw [r2]; simp [alloc_record]
      have hold : ∀ x, x ∈ L → ((alloc_inserted env s d h p type
          (alloc_name (env.GetModuleFileNameW h)) modname).mem x).name = (s.mem x).name ∧
          ((alloc_inserted env s d h p type
            (alloc_name (env.GetModuleFileNameW h)) modname).mem x).modname
            = (s.mem x).modname ∧
          ((alloc_inserted env s d h p type
            (alloc_name (env.GetModuleFileNameW h)) modname).mem x).handle
            = (s.mem x).handle ∧
          ((alloc_inserted env s d h p type
            (alloc_name (env.GetModuleFileNameW h)) modname).mem x).type
            = (s.mem x).type := by
        intro x hx
        exact payload_ident (r3 x (fun hh => hfL (hh ▸ hx)))
      have hno : ∀ y, y ∈ L →
          (type = dll_type.DLL_LINK →
            wcscasecmp env.towlower modname (s.mem y).modname ≠ 0) ∧
          (type ≠ dll_type.DLL_LINK →
            wcscasecmp env.towlower (alloc_name (env.GetModuleFileNameW h)) (s.mem y).name
              ≠ 0) := by
        intro y hy
        unfold chain_alloc_find at hnone
        constructor
        · intro ht
          rw [if_pos ht] at hnone
          exact chain_find_modname_none _ _ _ _ hnone y hy
        · intro ht
          rw [if_neg ht] at hnone
          exact chain_find_name_none _ _ _ _ hnone y hy
      obtain ⟨u1, u2, u3, u4⟩ := huniq
      have hhandle : ∀ y, y ∈ L → (s.mem y).handle ≠ h := by
        intro y hy hyh
        obtain ⟨e1, e2⟩ := u1 y hy
        rw [hyh] at e1
        have e3 : (s.mem y).modname = modname := by
          rw [e1, hmod] at e2
          exact (Option.some.inj e2).symm
        by_cases ht : type = dll_type.DLL_LINK
        · have := (hno y hy).1 ht
          rw [e3] at this
          exact this (wcscasecmp_self _ _)
        · have := (hno y hy).2 ht
          rw [e1] at this
          exact this (wcscasecmp_self _ _)
      refine ⟨L ++ [d], r1, ?_, ?_, ?_, ?_⟩
      · intro x hx
        rcases List.mem_append.1 hx with hx | hx
        · obtain ⟨e1, e2, e3, _⟩ := hold x hx
          rw [e1, e2, e3]
          exact u1 x hx
        · simp only [List.mem_singleton] at hx
          subst hx
          rw [hnewf.1, hnewf.2.1, hnewf.2.2.1]
          exact ⟨rfl, hmod⟩
      · intro x hx y hy hxy tx ty
        rcases List.mem_append.1 hx with kx | kx <;> rcases List.mem_append.1 hy with ky | ky
        · rw [(hold x kx).2.1, (hold y ky).2.1]
          exact u2 x kx y ky hxy ((hold x kx).2.2.2 ▸ tx) ((hold y ky).2.2.2 ▸ ty)
        · simp only [List.mem_singleton] at ky
          subst ky
          rw [(hold x kx).2.1, hnewf.2.1]
          rw [hnewf.2.2.2] at ty
          exact fun hh => (hno x kx).1 ty (wcscasecmp_symm _ _ _ hh)
        · simp only [List.mem_singleton] at kx
          subst kx
          rw [(hold y ky).2.1, hnewf.2.1]
          rw [hnewf.2.2.2] at tx
          exact (hno y ky).1 tx
        · simp only [List.mem_singleton] at kx ky
          exact absurd (kx.trans ky.symm) hxy
      · intro x hx y hy hxy tx ty
        rcases List.mem_append.1 hx with kx | kx <;> rcases List.mem_append.1 hy with ky | ky
        · rw [(hold x kx).1, (hold y ky).1]
          exact u3 x kx y ky hxy ((hold x kx).2.2.2 ▸ tx) ((hold y ky).2.2.2 ▸ ty)
        · simp only [List.mem_singleton] at ky
          subst ky
          rw [(hold x kx).1, hnewf.1]
          rw [hnewf.2.2.2] at ty
          have hnl : type ≠ dll_type.DLL_LINK := by rw [ty]; decide
          exact fun hh => (hno x kx).2 hnl (wcscasecmp_symm _ _ _ hh)
        · simp only [List.mem_singleton] at kx
          subst kx
          rw [(hold y ky).1, hnewf.1]
          rw [hnewf.2.2.2] at tx
          have hnl : type ≠ dll_type.DLL_LINK := by rw [tx]; decide
          exact (hno y ky).2 hnl
        · simp only [List.mem_singleton] at kx ky
          exact absurd (kx.trans ky.symm) hxy
      · intro x hx y hy hxy
        rcases List.mem_append.1 hx with kx | kx <;> rcases List.mem_append.1 hy with ky | ky
        · rw [(hold x kx).2.2.1, (hold y ky).2.2.1]
          exact u4 x kx y ky hxy
        · simp only [List.mem_singleton] at ky
          subst ky
          rw [(hold x kx).2.2.1, hnewf.2.2.1]
          exact hhandle x kx
        · simp only [List.mem_singleton] at kx
          subst kx
          rw [(hold y ky).2.2.1, hnewf.2.2.1]
          exact fun hh => hhandle y ky hh.symm
        · simp only [List.mem_singleton] at kx ky
          exact absurd (kx.trans ky.symm) hxy
  | detach s s1 f myself in_forkee query _ hok ih =>
    obtain ⟨L, hreg, huniq⟩ := ih
    obtain ⟨L1, h1, h2, h3⟩ := detach_registry s L hreg f myself in_forkee query s1 hok
    exact ⟨L1, h1, registry_unique_transfer env s s1 L L1 h2
      (fun x _ => payload_ident (h3 x)) huniq⟩
  | topsort s s1 f _ hok ih =>
    obtain ⟨L, hreg, huniq⟩ := ih
    obtain ⟨h1, h2⟩ := topsort_registry env s L hreg f s1 hok
    have hperm := sorted_chain_perm (G := chain_deps env s L) L (chain_deps_closed env s L)
      hreg.1.2.2.1
    exact ⟨_, h1, registry_unique_transfer env s s1 L _ (fun x hx => hperm.mem_iff.1 hx)
      (fun x _ => payload_ident (h2.1 x)) huniq⟩

end reachable_lemmas

section example_reachable

/-- The registry `example_two` is reachable: two modules register in the
initial registry. -/
theorem example_two_reachable : dll_list.reachable example_env_no_imports example_two := by
  have h0 : dll_list.reachable example_env_no_imports dlls := dll_list.reachable.start
  have h1 : dll_list.reachable example_env_no_imports example_one :=
    dll_list.reachable.alloc dlls example_one 1 65 example_meta dll_type.DLL_LINK 1 1 h0
      (by decide)
      (fun L hL => by
        have : L = [] := is_chain_unique dlls L [] hL (by decide)
        rw [this]; simp)
      rfl
  exact dll_list.reachable.alloc example_one example_two 2 66 example_meta
    dll_type.DLL_LINK 2 2 h1 (by decide)
    (fun L hL => by
      have : L = [1] := is_chain_unique example_one L [1] hL (by decide)
      rw [this]; simp)
    rfl

end example_reachable

/-- C6: in every registry reachable from the initial one by `alloc`, `detach`
and `topsort`, the chain is well formed, no two `DLL_LINK` records have base
names that `wcscasecmp` finds equal, and no two `DLL_LOAD` records have full
paths that `wcscasecmp` finds equal. -/
theorem reachable_names_unique (env : Env) (s : dll_list)
    (h : dll_list.reachable env s) :
    ∃ L, s.is_chain L ∧
      (∀ x, x ∈ L → ∀ y, y ∈ L → x ≠ y → (s.mem x).type = dll_type.DLL_LINK →
        (s.mem y).type = dll_type.DLL_LINK →
        wcscasecmp env.towlower (s.mem x).modname (s.mem y).modname ≠ 0) ∧
      (∀ x, x ∈ L → ∀ y, y ∈ L → x ≠ y → (s.mem x).type = dll_type.DLL_LOAD →
        (s.mem y).type = dll_type.DLL_LOAD →
        wcscasecmp env.towlower (s.mem x).name (s.mem y).name ≠ 0) := by
  obtain ⟨L, hreg, _, h2, h3, _⟩ := reachable_registry env s h
  exact ⟨L, hreg.1, h2, h3⟩

/-- C6 on the registry of two linked modules. -/
theorem reachable_names_unique_two :
    dll_list.reachable example_env_no_imports example_two ∧
    ∃ L, example_two.is_chain L ∧
      (∀ x, x ∈ L → ∀ y, y ∈ L → x ≠ y → (example_two.mem x).type = dll_type.DLL_LINK →
        (example_two.mem y).type = dll_type.DLL_LINK →
        wcscasecmp example_env_no_imports.towlower (example_two.mem x).modname
          (example_two.mem y).modname ≠ 0) ∧
      (∀ x, x ∈ L → ∀ y, y ∈ L → x ≠ y → (example_two.mem x).type = dll_type.DLL_LOAD →
        (example_two.mem y).type = dll_type.DLL_LOAD →
        wcscasecmp example_env_no_imports.towlower (example_two.mem x).name
          (example_two.mem y).name ≠ 0) :=
  ⟨example_two_reachable,
    reachable_names_unique example_env_no_imports example_two example_two_reachable⟩

/-- C7: in every registry reachable from the initial one by `alloc` calls that
return, `detach` and `topsort`, the host reporting one fixed path for every
handle, the chain is well formed and no two records have the same handle. -/
theorem reachable_handles_unique (env : Env) (s : dll_list)
    (h : dll_list.reachable env s) :
    ∃ L, s.is_chain L ∧
      ∀ x, x ∈ L → ∀ y, y ∈ L → x ≠ y → (s.mem x).handle ≠ (s.mem y).handle := by
  obtain ⟨L, hreg, _, _, _, h4⟩ := reachable_registry env s h
  exact ⟨L, hreg.1, h4⟩

/-- C7 on the registry of two linked modules. -/
theorem reachable_handles_unique_two :
    dll_list.reachable example_env_no_imports example_two ∧
    ∃ L, example_two.is_chain L ∧
      ∀ x, x ∈ L → ∀ y, y ∈ L → x ≠ y →
        (example_two.mem x).handle ≠ (example_two.mem y).handle :=
  ⟨example_two_reachable,
    reachable_handles_unique example_env_no_imports example_two example_two_reachable⟩

/-- C8: when `alloc` finds a record and returns, it returns that record, and
the registry differs from the one before only in the metadata of the record,
which is the supplied one: the links of every record, `end`, every chain, the
loaded count and the handle, kind, reference count, path and base name of the
record are those before. -/
theorem alloc_found_changes_only_meta (env : Env) (f : Nat) (s : dll_list) (h : Nat)
    (p : per_process) (type : dll_type) (fresh : Nat) (s1 : dll_list) (d d0 : Nat)
    (modname : WStr)
    (hm : wcsrchr_succ (alloc_name (env.GetModuleFileNameW h)) = some modname)
    (hfind : alloc_find env.towlower f s type (alloc_name (env.GetModuleFileNameW h)) modname
      = .ok (some d0))
    (hok : dll_list.alloc env f s h p type fresh = .ok (s1, d)) :
    d = d0 ∧ s1 = s.store d0 { s.mem d0 with p := per_module.assign p } ∧
    (∀ a, (s1.mem a).next = (s.mem a).next ∧ (s1.mem a).prev = (s.mem a).prev) ∧
    s1.tail = s.tail ∧ (∀ L, s.is_chain L → s1.is_chain L) ∧
    s1.loaded_dlls = s.loaded_dlls ∧
    (s1.mem d0).handle = (s.mem d0).handle ∧ (s1.mem d0).type = (s.mem d0).type ∧
    (s1.mem d0).count = (s.mem d0).count ∧ (s1.mem d0).name = (s.mem d0).name ∧
    (s1.mem d0).modname = (s.mem d0).modname ∧
    (s1.mem d0).p = per_module.assign p ∧ (∀ a, a ≠ d0 → s1.mem a = s.mem a) := by
  obtain ⟨m2, hm2, hcase⟩ := alloc_cases env f s h p type fresh s1 d hok
  have hmm : m2 = modname := by
    rw [hm] at hm2; exact (Option.some.inj hm2).symm
  subst hmm
  rcases hcase with ⟨hf, _, _, hs1⟩ | ⟨hf, _, _⟩
  · rw [hfind] at hf
    have hd : d0 = d := by injection hf with hf; exact Option.some.inj hf
    subst hd
    subst hs1
    have hlinks : ∀ a, ((s.store d0 { s.mem d0 with p := per_module.assign p }).mem a).next
        = (s.mem a).next ∧
        ((s.store d0 { s.mem d0 with p := per_module.assign p }).mem a).prev
        = (s.mem a).prev := by
      intro a
      by_cases ha : a = d0
      · subst ha; simp [store_mem_same]
      · simp [store_mem_other _ _ _ _ ha]
    refine ⟨rfl, rfl, hlinks, rfl, ?_, rfl, ?_, ?_, ?_, ?_, ?_, ?_, ?_⟩
    · intro L hL
      exact ⟨links_congr s _ L START (fun a _ => (hlinks a).1) (fun a _ => (hlinks a).2) hL.1,
        hL.2.1, hL.2.2.1, hL.2.2.2⟩
    all_goals first
      | (rw [store_mem_same])
      | (intro a ha; exact store_mem_other _ _ _ _ ha)
  · rw [hfind] at hf
    injection hf with hf
    exact absurd hf (by simp)

/-- C8 on three linked modules: the module `A` registers again with another
metadata block; the hypotheses hold and the theorem applies. -/
theorem alloc_found_changes_only_meta_three :
    wcsrchr_succ (alloc_name (example_env_no_imports.GetModuleFileNameW 65)) = some [65] ∧
    alloc_find example_env_no_imports.towlower 4 (example_three dll_type.DLL_LINK)
      dll_type.DLL_LINK (alloc_name (example_env_no_imports.GetModuleFileNameW 65)) [65]
      = .ok (some 1) ∧
    dll_list.alloc example_env_no_imports 4 (example_three dll_type.DLL_LINK) 65
      example_meta_moved dll_type.DLL_LINK 4
      = .ok (example_three_refreshed, 1) ∧
    (1 = 1 ∧
      example_three_refreshed
        = (example_three dll_type.DLL_LINK).store 1
          { (example_three dll_type.DLL_LINK).mem 1 with
            p := per_module.assign example_meta_moved } ∧
      (∀ a, (example_three_refreshed.mem a).next
          = ((example_three dll_type.DLL_LINK).mem a).next ∧
        (example_three_refreshed.mem a).prev
          = ((example_three dll_type.DLL_LINK).mem a).prev) ∧
      example_three_refreshed.tail
        = (example_three dll_type.DLL_LINK).tail ∧
      (∀ L, (example_three dll_type.DLL_LINK).is_chain L →
        example_three_refreshed.is_chain L) ∧
      example_three_refreshed.loaded_dlls
        = (example_three dll_type.DLL_LINK).loaded_dlls ∧
      (example_three_refreshed.mem 1).handle
        = ((example_three dll_type.DLL_LINK).mem 1).handle ∧
      (example_three_refreshed.mem 1).type
        = ((example_three dll_type.DLL_LINK).mem 1).type ∧
      (example_three_refreshed.mem 1).count
        = ((example_three dll_type.DLL_LINK).mem 1).count ∧
      (example_three_refreshed.mem 1).name
        = ((example_three dll_type.DLL_LINK).mem 1).name ∧
      (example_three_refreshed.mem 1).modname
        = ((example_three dll_type.DLL_LINK).mem 1).modname ∧
      (example_three_refreshed.mem 1).p
        = per_module.assign example_meta_moved ∧
      (∀ a, a ≠ 1 → example_three_refreshed.mem a
        = (example_three dll_type.DLL_LINK).mem a)) :=
  ⟨rfl, rfl, rfl,
    alloc_found_changes_only_meta example_env_no_imports 4 (example_three dll_type.DLL_LINK) 65
      example_meta_moved dll_type.DLL_LINK 4 _ 1 1 [65] rfl rfl rfl⟩

/-- C9, as stated, fails: the linked module `A` registers again with the same
handle and the same path, and a metadata block whose `data_start` differs from
the recorded one; `alloc` finds the record by its base name and returns it, it
does not abort. -/
theorem alloc_mismatch_counterexample :
    alloc_find example_env_no_imports.towlower 4 (example_three dll_type.DLL_LINK)
      dll_type.DLL_LINK (alloc_name (example_env_no_imports.GetModuleFileNameW 65)) [65]
      = .ok (some 1) ∧
    ((example_three dll_type.DLL_LINK).mem 1).handle = 65 ∧
    ((example_three dll_type.DLL_LINK).mem 1).p.data_start ≠ example_meta_moved.data_start ∧
    dll_list.alloc example_env_no_imports 4 (example_three dll_type.DLL_LINK) 65
      example_meta_moved dll_type.DLL_LINK 4 = .ok (example_three_refreshed, 1) :=
  ⟨rfl, rfl, by decide, rfl⟩

/-- C9, amended: when `alloc` of kind `DLL_LINK` finds by base name a record
with the same handle whose recorded path `wcscasecmp` finds different from the
path of the module, and the supplied metadata differs from the recorded one in
`data_start`, `bss_start`, `bss_end`, `ctors` or `dtors`, then `alloc` aborts
with the diagnostic "Loaded different DLL with same basename". -/
theorem alloc_mismatch_aborts (env : Env) (f : Nat) (s : dll_list) (h : Nat)
    (p : per_process) (fresh d0 : Nat) (modname : WStr)
    (hm : wcsrchr_succ (alloc_name (env.GetModuleFileNameW h)) = some modname)
    (hfind : alloc_find env.towlower f s dll_type.DLL_LINK
      (alloc_name (env.GetModuleFileNameW h)) modname = .ok (some d0))
    (hh : (s.mem d0).handle = h)
    (hpath : wcscasecmp env.towlower (alloc_name (env.GetModuleFileNameW h)) (s.mem d0).name
      ≠ 0)
    (hdiff : (s.mem d0).p.data_start ≠ p.data_start ∨ (s.mem d0).p.bss_start ≠ p.bss_start ∨
      (s.mem d0).p.bss_end ≠ p.bss_end ∨ (s.mem d0).p.ctors ≠ p.ctors ∨
      (s.mem d0).p.dtors ≠ p.dtors) :
    dll_list.alloc env f s h p dll_type.DLL_LINK fresh = .error (.fabort MSG_DIFFERENT_DLL) := by
  have hmeta : alloc_meta_differs (s.mem d0).p p = true := by
    unfold alloc_meta_differs
    simp only [Bool.or_eq_true, bne_iff_ne, ne_eq]
    tauto
  unfold dll_list.alloc
  simp only [hm, hfind]
  rw [if_neg (by simpa using hh)]
  exact if_pos ⟨trivial, hpath, hmeta⟩

/-- C9, amended, on a linked module found in another directory: the
hypotheses hold and the theorem applies. -/
theorem alloc_mismatch_aborts_other_path :
    wcsrchr_succ (alloc_name (example_env_no_imports.GetModuleFileNameW 65)) = some [65] ∧
    alloc_find example_env_no_imports.towlower 2 example_other_path dll_type.DLL_LINK
      (alloc_name (example_env_no_imports.GetModuleFileNameW 65)) [65] = .ok (some 1) ∧
    (example_other_path.mem 1).handle = 65 ∧
    wcscasecmp example_env_no_imports.towlower
      (alloc_name (example_env_no_imports.GetModuleFileNameW 65)) (example_other_path.mem 1).name
      ≠ 0 ∧
    ((example_other_path.mem 1).p.data_start ≠ example_meta_moved.data_start ∨
      (example_other_path.mem 1).p.bss_start ≠ example_meta_moved.bss_start ∨
      (example_other_path.mem 1).p.bss_end ≠ example_meta_moved.bss_end ∨
      (example_other_path.mem 1).p.ctors ≠ example_meta_moved.ctors ∨
      (example_other_path.mem 1).p.dtors ≠ example_meta_moved.dtors) ∧
    dll_list.alloc example_env_no_imports 2 example_other_path 65 example_meta_moved
      dll_type.DLL_LINK 2 = .error (.fabort MSG_DIFFERENT_DLL) :=
  ⟨rfl, rfl, rfl, by decide, by decide,
    alloc_mismatch_aborts example_env_no_imports 2 example_other_path 65 example_meta_moved 2 1
      [65] rfl rfl rfl (by decide) (by decide)⟩

/-! ## The fork replay engine -/

/-- An induction principle that follows the control flow of
`load_after_fork_impl`. -/
theorem load_after_fork_impl_induct (H : Host) (all : List dll)
    (P : Nat → List replay_event → List dll → Nat → List replay_event × Option Fault →
      Prop)
    (fuel0 : ∀ log ds r, P 0 log ds r (log, some .out_of_fuel))
    (step3 : ∀ f log r, P (f + 1) log [] r (load_after_fork_step3 H log all))
    (skip : ∀ f log d rest r res, d.handle = d.preferred_base → P f log rest r res →
      P (f + 1) log (d :: rest) r res)
    (protective : ∀ f log d rest, d.handle ≠ d.preferred_base →
      H.VirtualFree log d.handle = false →
      P (f + 1) log (d :: rest) 0 (step2_entry H log d 0, some (.fabort MSG_PROTECTIVE)))
    (interim : ∀ f log d rest r, d.handle ≠ d.preferred_base →
      (r = 0 → H.VirtualFree log d.handle = true) →
      H.LoadLibraryExW (step2_entry H log d r) d.name = 0 →
      P (f + 1) log (d :: rest) r (step2_mapped H log d r, some (.fabort MSG_INTERIM)))
    (landed : ∀ f log d rest r res, d.handle ≠ d.preferred_base →
      (r = 0 → H.VirtualFree log d.handle = true) →
      H.LoadLibraryExW (step2_entry H log d r) d.name = d.handle → d.handle ≠ 0 →
      P f (step2_mapped H log d r) rest r res → P (f + 1) log (d :: rest) r res)
    (reserve_fault : ∀ f log d rest r log4 e, d.handle ≠ d.preferred_base →
      (r = 0 → H.VirtualFree log d.handle = true) →
      H.LoadLibraryExW (step2_entry H log d r) d.name ≠ 0 →
      H.LoadLibraryExW (step2_entry H log d r) d.name ≠ d.handle →
      reserve_at H (step2_freed H log d r) (H.LoadLibraryExW (step2_entry H log d r) d.name)
        d.handle d.image_size = (log4, .error e) →
      P (f + 1) log (d :: rest) r (log4, some e))
    (block : ∀ f log d rest r log4, d.handle ≠ d.preferred_base →
      (r = 0 → H.VirtualFree log d.handle = true) →
      H.LoadLibraryExW (step2_entry H log d r) d.name ≠ 0 →
      H.LoadLibraryExW (step2_entry H log d r) d.name ≠ d.handle →
      reserve_at H (step2_freed H log d r) (H.LoadLibraryExW (step2_entry H log d r) d.name)
        d.handle d.image_size = (log4, .ok 0) →
      P (f + 1) log (d :: rest) r (log4, some (.fabort MSG_BLOCK)))
    (rebase : ∀ f log d rest r log4 reservation, d.handle ≠ d.preferred_base →
      (r = 0 → H.VirtualFree log d.handle = true) →
      H.LoadLibraryExW (step2_entry H log d r) d.name ≠ 0 →
      H.LoadLibraryExW (step2_entry H log d r) d.name ≠ d.handle →
      reserve_at H (step2_freed H log d r) (H.LoadLibraryExW (step2_entry H log d r) d.name)
        d.handle d.image_size = (log4, .ok reservation) → reservation ≠ 0 →
      ¬ r < DLL_RETRY_MAX →
      P (f + 1) log (d :: rest) r (log4, some (.fabort MSG_REBASE)))
    (retry_fault : ∀ f log d rest r log4 reservation log5 e, d.handle ≠ d.preferred_base →
      (r = 0 → H.VirtualFree log d.handle = true) →
      H.LoadLibraryExW (step2_entry H log d r) d.name ≠ 0 →
      H.LoadLibraryExW (step2_entry H log d r) d.name ≠ d.handle →
      reserve_at H (step2_freed H log d r) (H.LoadLibraryExW (step2_entry H log d r) d.name)
        d.handle d.image_size = (log4, .ok reservation) → reservation ≠ 0 →
      r < DLL_RETRY_MAX →
      P f log4 (d :: rest) (r + 1) (log5, some e) →
      P (f + 1) log (d :: rest) r (log5, some e))
    (retry_done : ∀ f log d rest r log4 reservation log5, d.handle ≠ d.preferred_base →
      (r = 0 → H.VirtualFree log d.handle = true) →
      H.LoadLibraryExW (step2_entry H log d r) d.name ≠ 0 →
      H.LoadLibraryExW (step2_entry H log d r) d.name ≠ d.handle →
      reserve_at H (step2_freed H log d r) (H.LoadLibraryExW (step2_entry H log d r) d.name)
        d.handle d.image_size = (log4, .ok reservation) → reservation ≠ 0 →
      r < DLL_RETRY_MAX →
      P f log4 (d :: rest) (r + 1) (log5, none) →
      P (f + 1) log (d :: rest) r (release_at H log5 reservation)) :
    ∀ fuel log ds r, P fuel log ds r (load_after_fork_impl H all fuel log ds r) := by
  intro fuel
  induction fuel with
  | zero => intro log ds r; exact fuel0 log ds r
  | succ f ih =>
    intro log ds r
    cases ds with
    | nil => exact step3 f log r
    | cons d rest =>
      rw [load_after_fork_impl]
      by_cases hpb : d.handle = d.preferred_base
      · rw [if_neg (not_not.mpr hpb)]
        exact skip f log d rest r _ hpb (ih log rest r)
      · rw [if_pos hpb]
        by_cases hfree : r = 0 ∧ H.VirtualFree log d.handle = false
        · obtain ⟨hr, hv⟩ := hfree
          subst hr
          simp only [if_true, hv]
          have := protective f log d rest hpb hv
          simpa [step2_entry, hv] using this
        · have hok : r = 0 → H.VirtualFree log d.handle = true := by
            intro hr
            cases hv : H.VirtualFree log d.handle
            · exact absurd ⟨hr, hv⟩ hfree
            · rfl
          have hentry : (if r = 0 then
                (log ++ [replay_event.release_protective d (H.VirtualFree log d.handle)],
                  H.VirtualFree log d.handle)
              else (log, true)) = (step2_entry H log d r, true) := by
            unfold step2_entry
            split
            · rename_i hr; rw [hok hr]
            · rfl
          simp only [hentry]
          rw [if_neg (by simp)]
          show P (f + 1) log (d :: rest) r
            (if H.LoadLibraryExW (step2_entry H log d r) d.name = 0 then
              (step2_mapped H log d r, some (.fabort MSG_INTERIM))
            else if H.LoadLibraryExW (step2_entry H log d r) d.name ≠ d.handle then
              match reserve_at H (step2_freed H log d r)
                (H.LoadLibraryExW (step2_entry H log d r) d.name) d.handle d.image_size with
              | (log4, .error e) => (log4, some e)
              | (log4, .ok reservation) =>
                if reservation = 0 then (log4, some (.fabort MSG_BLOCK))
                else if r < DLL_RETRY_MAX then
                  match load_after_fork_impl H all f log4 (d :: rest) (r + 1) with
                  | (log5, some e) => (log5, some e)
                  | (log5, none) => release_at H log5 reservation
                else (log4, some (.fabort MSG_REBASE))
            else load_after_fork_impl H all f (step2_mapped H log d r) rest r)
          by_cases h0 : H.LoadLibraryExW (step2_entry H log d r) d.name = 0
          · rw [if_pos h0]
            exact interim f log d rest r hpb hok h0
          · rw [if_neg h0]
            by_cases hh : H.LoadLibraryExW (step2_entry H log d r) d.name = d.handle
            · rw [if_neg (not_not.mpr hh)]
              exact landed f log d rest r _ hpb hok hh (hh ▸ h0) (ih _ rest r)
            · rw [if_pos hh]
              rcases hres : reserve_at H (step2_freed H log d r)
                (H.LoadLibraryExW (step2_entry H log d r) d.name) d.handle d.image_size
                with ⟨log4, e | reservation⟩
              · exact reserve_fault f log d rest r log4 e hpb hok h0 hh hres
              · show P (f + 1) log (d :: rest) r
                  (if reservation = 0 then (log4, some (.fabort MSG_BLOCK))
                  else if r < DLL_RETRY_MAX then
                    match load_after_fork_impl H all f log4 (d :: rest) (r + 1) with
                    | (log5, some e) => (log5, some e)
                    | (log5, none) => release_at H log5 reservation
                  else (log4, some (.fabort MSG_REBASE)))
                by_cases hr0 : reservation = 0
                · rw [if_pos hr0]
                  subst hr0
                  exact block f log d rest r log4 hpb hok h0 hh hres
                · rw [if_neg hr0]
                  by_cases hlt : r < DLL_RETRY_MAX
                  · rw [if_pos hlt]
                    have := ih log4 (d :: rest) (r + 1)
                    rcases hrec : load_after_fork_impl H all f log4 (d :: rest) (r + 1)
                      with ⟨log5, _ | e⟩
                    · rw [hrec] at this
                      exact retry_done f log d rest r log4 reservation log5 hpb hok h0 hh hres
                        hr0 hlt this
                    · rw [hrec] at this
                      exact retry_fault f log d rest r log4 reservation log5 e hpb hok h0 hh hres
                        hr0 hlt this
                  · rw [if_neg hlt]
                    exact rebase f log d rest r log4 reservation hpb hok h0 hh hres hr0 hlt

theorem host_answers_append (H : Host) (a b : List replay_event) :
    ∀ pre, host_answers H pre (a ++ b) ↔ host_answers H pre a ∧ host_answers H (pre ++ a) b := by
  induction a with
  | nil => intro pre; simp [host_answers]
  | cons e a ih =>
    intro pre
    simp only [List.cons_append, host_answers, List.append_eq]
    rw [ih]
    simp only [and_assoc, List.append_assoc, List.singleton_append]

theorem host_answers_snoc (H : Host) (l : List replay_event) (e : replay_event) :
    host_answers H [] (l ++ [e]) ↔ host_answers H [] l ∧ e.answered H l := by
  rw [host_answers_append]
  simp [host_answers]

theorem realizing_loads_append (a b : List replay_event) :
    realizing_loads (a ++ b) = realizing_loads a ++ realizing_loads b := by
  induction a with
  | nil => rfl
  | cons e a ih => cases e <;> simp [realizing_loads, ih]

theorem realizing_loads_no_step3 (a : List replay_event)
    (h : ∀ e ∈ a, replay_event.is_step3 e = false) : realizing_loads a = [] := by
  induction a with
  | nil => rfl
  | cons e a ih =>
    have he := h e (List.mem_cons_self _ _)
    have ih2 := ih (fun x hx => h x (List.mem_cons_of_mem _ hx))
    cases e <;> simp_all [realizing_loads, replay_event.is_step3]

theorem wrong_count_append (a b : List replay_event) :
    wrong_count (a ++ b) = wrong_count a + wrong_count b := by
  simp [wrong_count]

theorem wrong_count_no_interim (a : List replay_event)
    (h : ∀ e ∈ a, replay_event.is_interim e = false) : wrong_count a = 0 := by
  unfold wrong_count
  rw [List.length_eq_zero, List.filter_eq_nil_iff]
  intro e he
  have := h e he
  cases e <;> simp_all [replay_event.is_interim, replay_event.is_wrong_landing]

theorem counters_follow_no_interim (a : List replay_event)
    (h : ∀ e ∈ a, replay_event.is_interim e = false) : ∀ c, counters_follow c a := by
  induction a with
  | nil => intro c; trivial
  | cons e a ih =>
    intro c
    have he := h e (List.mem_cons_self _ _)
    have ih2 := ih (fun x hx => h x (List.mem_cons_of_mem _ hx))
    cases e <;> simp_all [counters_follow, replay_event.is_interim]

theorem counters_follow_append (a b : List replay_event) :
    ∀ c, counters_follow c (a ++ b) ↔
      counters_follow c a ∧ counters_follow (c + wrong_count a) b := by
  induction a with
  | nil => intro c; simp [counters_follow, wrong_count]
  | cons e a ih =>
    intro c
    have : (if e.is_wrong_landing = true then c + 1 else c) + wrong_count a
        = c + wrong_count (e :: a) := by
      unfold wrong_count
      rw [List.filter_cons]
      by_cases hw : e.is_wrong_landing = true
      · rw [if_pos hw, if_pos hw, List.length_cons]; omega
      · rw [if_neg hw, if_neg hw]
    simp only [List.cons_append, counters_follow, List.append_eq]
    rw [ih, this, and_assoc]

/-- The log `reserve_at` returns continues the log it is given with the query
and, possibly, the reservation. -/
theorem reserve_at_log (H : Host) (log : List replay_event) (here dll_base dll_size : Nat) :
    ∃ ext, (reserve_at H log here dll_base dll_size).1 = log ++ ext ∧
      host_answers H log ext ∧
      (∀ e ∈ ext, replay_event.is_interim e = false ∧ replay_event.is_step3 e = false) := by
  unfold reserve_at
  rcases hq : H.VirtualQuery log here with _ | ⟨free, sz⟩
  · exact ⟨[_], rfl, by simp [host_answers, replay_event.answered, hq],
      by simp [replay_event.is_interim, replay_event.is_step3]⟩
  · cases free
    · exact ⟨[_], rfl, by simp [host_answers, replay_event.answered, hq],
        by simp [replay_event.is_interim, replay_event.is_step3]⟩
    · simp only [Bool.true_eq_false, if_false]
      (repeat' split) <;>
        exact ⟨[_] ++ [_], List.append_assoc _ _ _,
          by simp [host_answers, replay_event.answered, hq],
          by simp [replay_event.is_interim, replay_event.is_step3]⟩

/-- The faults of `reserve_at`. -/
theorem reserve_at_fault (H : Host) (log log4 : List replay_event) (here dll_base dll_size : Nat)
    (e : Fault) (h : reserve_at H log here dll_base dll_size = (log4, .error e)) :
    e = .fabort MSG_EXAMINE ∨ e = .fabort MSG_ALLOCATE := by
  unfold reserve_at at h
  rcases hq : H.VirtualQuery log here with _ | ⟨free, sz⟩
  · rw [hq] at h
    simp only [Prod.mk.injEq, Except.error.injEq] at h
    exact Or.inl h.2.symm
  · rw [hq] at h
    cases free
    · simp at h
    · simp only [Bool.true_eq_false, if_false] at h
      repeat' split at h
      all_goals first
        | (simp only [Prod.mk.injEq, Except.error.injEq] at h; exact Or.inr h.2.symm)
        | (simp at h)

theorem fix_reference_count_log (H : Host) (d : dll) : ∀ (n : Nat) (log : List replay_event),
    ∃ ext, fix_reference_count H d n log = log ++ ext ∧ host_answers H log ext ∧
      (∀ e ∈ ext, replay_event.is_interim e = false) ∧ realizing_loads ext = [] := by
  intro n
  induction n with
  | zero => intro log; exact ⟨[], by simp [fix_reference_count], trivial, by simp, rfl⟩
  | succ n ih =>
    intro log
    obtain ⟨ext, h1, h2, h3, h4⟩ :=
      ih (log ++ [replay_event.load_again d (H.LoadLibraryW log d.name)])
    refine ⟨replay_event.load_again d (H.LoadLibraryW log d.name) :: ext, ?_, ?_, ?_, ?_⟩
    · rw [fix_reference_count, h1]; simp
    · exact ⟨rfl, h2⟩
    · intro e he
      rcases List.mem_cons.mp he with rfl | he
      · rfl
      · exact h3 e he
    · simpa [realizing_loads] using h4

/-- Step 3 continues the log with calls that are no interim mappings; when it
ends without a fault, the realizing loads it made are those of the records, in
order, each at the handle of its record.  It never fails with the rebase
diagnostic and needs no fuel. -/
theorem load_after_fork_step3_log (H : Host) : ∀ (ds : List dll) (log : List replay_event),
    ∃ ext, (load_after_fork_step3 H log ds).1 = log ++ ext ∧ host_answers H log ext ∧
      (∀ e ∈ ext, replay_event.is_interim e = false) ∧
      ((load_after_fork_step3 H log ds).2 = none →
        realizing_loads ext = ds.map (fun d => (d, d.handle))) ∧
      ((load_after_fork_step3 H log ds).2 ≠ some (.fabort MSG_REBASE) ∧
        (load_after_fork_step3 H log ds).2 ≠ some .out_of_fuel) := by
  intro ds
  induction ds with
  | nil => intro log; exact ⟨[], by simp [load_after_fork_step3], trivial, by simp, by simp [realizing_loads], by simp [load_after_fork_step3]⟩
  | cons d rest ih =>
    intro log
    rw [load_after_fork_step3]
    by_cases hpb : d.handle = d.preferred_base
    · simp only [hpb, if_true]
      cases hv : H.VirtualFree log d.preferred_base
      · refine ⟨[replay_event.release_preferred d false], by simp, ?_, ?_, by simp, by simp [MSG_PROTECTIVE, MSG_REBASE]⟩
        · simp [host_answers, replay_event.answered, hpb, hv]
        · simp [replay_event.is_interim]
      · simp only [Bool.true_eq_false, if_false]
        by_cases h0 : H.LoadLibraryW (log ++ [replay_event.release_preferred d true]) d.name = 0
        · rw [if_pos h0]
          refine ⟨[replay_event.release_preferred d true, replay_event.load d 0], by simp [h0], ?_, ?_, by simp, by simp [MSG_MAP, MSG_REBASE]⟩
          · simp [host_answers, replay_event.answered, hpb, hv, h0]
          · simp [replay_event.is_interim]
        · rw [if_neg h0]
          by_cases hh : H.LoadLibraryW (log ++ [replay_event.release_preferred d true]) d.name
              = d.preferred_base
          · rw [if_neg (not_not.mpr hh)]
            obtain ⟨e1, k1, k2, k3, k4⟩ := fix_reference_count_log H d (d.count - 1).toNat
              (log ++ [replay_event.release_preferred d true] ++
                [replay_event.load d (H.LoadLibraryW (log ++ [replay_event.release_preferred d true]) d.name)])
            obtain ⟨e2, j1, j2, j3, j4, j5⟩ := ih (fix_reference_count H d (d.count - 1).toNat
              (log ++ [replay_event.release_preferred d true] ++
                [replay_event.load d (H.LoadLibraryW (log ++ [replay_event.release_preferred d true]) d.name)]))
            refine ⟨[replay_event.release_preferred d true,
              replay_event.load d (H.LoadLibraryW (log ++ [replay_event.release_preferred d true]) d.name)]
              ++ e1 ++ e2, ?_, ?_, ?_, ?_, j5⟩
            · rw [j1, k1]; simp
            · rw [host_answers_append, host_answers_append]
              refine ⟨⟨?_, ?_⟩, ?_⟩
              · simp [host_answers, replay_event.answered, hpb, hv]
              · simpa using k2
              · rw [k1] at j2; simpa using j2
            · intro e he
              simp only [List.mem_append, List.mem_cons, List.mem_singleton, List.not_mem_nil,
                or_false] at he
              rcases he with ((rfl | rfl) | he) | he
              · rfl
              · rfl
              · exact k3 e he
              · exact j3 e he
            · intro hn
              rw [realizing_loads_append, realizing_loads_append, k4, j4 hn]
              simp [realizing_loads, hh, hpb]
          · rw [if_pos hh]
            refine ⟨[replay_event.release_preferred d true, replay_event.load d
              (H.LoadLibraryW (log ++ [replay_event.release_preferred d true]) d.name)],
              by simp, ?_, ?_, by simp, by simp [MSG_MAP_ADDRESS, MSG_REBASE]⟩
            · simp [host_answers, replay_event.answered, hpb, hv]
            · simp [replay_event.is_interim]
    · simp only [hpb, if_false]
      cases hv : H.FreeLibrary log d.handle
      · refine ⟨[replay_event.unload_interim d false], by simp, ?_, ?_, by simp, by simp [MSG_UNLOAD, MSG_REBASE]⟩
        · simp [host_answers, replay_event.answered, hv]
        · simp [replay_event.is_interim]
      · simp only [Bool.true_eq_false, if_false]
        by_cases h0 : H.LoadLibraryW (log ++ [replay_event.unload_interim d true]) d.name = 0
        · rw [if_pos h0]
          refine ⟨[replay_event.unload_interim d true, replay_event.load d 0], by simp [h0], ?_, ?_, by simp, by simp [MSG_MAP, MSG_REBASE]⟩
          · simp [host_answers, replay_event.answered, hv, h0]
          · simp [replay_event.is_interim]
        · rw [if_neg h0]
          by_cases hh : H.LoadLibraryW (log ++ [replay_event.unload_interim d true]) d.name
              = d.handle
          · rw [if_neg (not_not.mpr hh)]
            obtain ⟨e1, k1, k2, k3, k4⟩ := fix_reference_count_log H d (d.count - 1).toNat
              (log ++ [replay_event.unload_interim d true] ++
                [replay_event.load d (H.LoadLibraryW (log ++ [replay_event.unload_interim d true]) d.name)])
            obtain ⟨e2, j1, j2, j3, j4, j5⟩ := ih (fix_reference_count H d (d.count - 1).toNat
              (log ++ [replay_event.unload_interim d true] ++
                [replay_event.load d (H.LoadLibraryW (log ++ [replay_event.unload_interim d true]) d.name)]))
            refine ⟨[replay_event.unload_interim d true,
              replay_event.load d (H.LoadLibraryW (log ++ [replay_event.unload_interim d true]) d.name)]
              ++ e1 ++ e2, ?_, ?_, ?_, ?_, j5⟩
            · rw [j1, k1]; simp
            · rw [host_answers_append, host_answers_append]
              refine ⟨⟨?_, ?_⟩, ?_⟩
              · simp [host_answers, replay_event.answered, hv]
              · simpa using k2
              · rw [k1] at j2; simpa using j2
            · intro e he
              simp only [List.mem_append, List.mem_cons, List.mem_singleton, List.not_mem_nil,
                or_false] at he
              rcases he with ((rfl | rfl) | he) | he
              · rfl
              · rfl
              · exact k3 e he
              · exact j3 e he
            · intro hn
              rw [realizing_loads_append, realizing_loads_append, k4, j4 hn]
              simp [realizing_loads, hh]
          · rw [if_pos hh]
            refine ⟨[replay_event.unload_interim d true, replay_event.load d
              (H.LoadLibraryW (log ++ [replay_event.unload_interim d true]) d.name)],
              by simp, ?_, ?_, by simp, by simp [MSG_MAP_ADDRESS, MSG_REBASE]⟩
            · simp [host_answers, replay_event.answered, hv]
            · simp [replay_event.is_interim]

theorem quiet_interim {ext : List replay_event} (h : quiet ext) :
    ∀ e ∈ ext, replay_event.is_interim e = false := fun e he => (h e he).1

theorem quiet_step3 {ext : List replay_event} (h : quiet ext) :
    ∀ e ∈ ext, replay_event.is_step3 e = false := fun e he => (h e he).2

theorem quiet_append {a b : List replay_event} (ha : quiet a) (hb : quiet b) :
    quiet (a ++ b) := by
  intro e he
  rcases List.mem_append.mp he with h | h
  · exact ha e h
  · exact hb e h

theorem step2_entry_log (H : Host) (log : List replay_event) (d : dll) (r : Nat) :
    ∃ ext, step2_entry H log d r = log ++ ext ∧ host_answers H log ext ∧ quiet ext := by
  unfold step2_entry
  split
  · refine ⟨[_], rfl, by simp [host_answers, replay_event.answered], ?_⟩
    intro e he
    rw [List.mem_singleton.mp he]
    exact ⟨rfl, rfl⟩
  · exact ⟨[], by simp, trivial, by intro e he; simp at he⟩

theorem step2_freed_log (H : Host) (log : List replay_event) (d : dll) (r : Nat) :
    ∃ ext, step2_freed H log d r = step2_mapped H log d r ++ ext ∧
      host_answers H (step2_mapped H log d r) ext ∧ quiet ext := by
  refine ⟨[_], rfl, by simp [host_answers, replay_event.answered], ?_⟩
  intro e he
  rw [List.mem_singleton.mp he]
  exact ⟨rfl, rfl⟩

theorem reserve_at_quiet (H : Host) (log log4 : List replay_event) (here dll_base dll_size : Nat)
    (x : Except Fault Nat) (h : reserve_at H log here dll_base dll_size = (log4, x)) :
    ∃ ext, log4 = log ++ ext ∧ host_answers H log ext ∧ quiet ext := by
  obtain ⟨ext, h1, h2, h3⟩ := reserve_at_log H log here dll_base dll_size
  rw [h] at h1
  exact ⟨ext, h1, h2, h3⟩

theorem release_at_log (H : Host) (log : List replay_event) (here : Nat) :
    (release_at H log here).1 = log ++ [replay_event.release here (H.VirtualFree log here)] ∧
    ((release_at H log here).2 = none ∨
      (release_at H log here).2 = some (.fabort MSG_RELEASE)) := by
  cases hv : H.VirtualFree log here <;> simp [release_at, hv]

/-- A blocked frame: the log after the blockade continues the log of the frame
with quiet events, the interim mapping, and quiet events. -/
theorem step2_blocked_log (H : Host) (log log4 : List replay_event) (d : dll) (r : Nat)
    (x : Except Fault Nat)
    (h : reserve_at H (step2_freed H log d r) (H.LoadLibraryExW (step2_entry H log d r) d.name)
      d.handle d.image_size = (log4, x)) :
    ∃ q0 q, log4 = log ++ q0 ++
        [replay_event.interim_mapping d r (H.LoadLibraryExW (step2_entry H log d r) d.name)] ++ q ∧
      quiet q0 ∧ quiet q ∧ (host_answers H [] log → host_answers H [] log4) := by
  obtain ⟨q0, h0, a0, k0⟩ := step2_entry_log H log d r
  obtain ⟨q1, h1, a1, k1⟩ := step2_freed_log H log d r
  obtain ⟨q2, h2, a2, k2⟩ := reserve_at_quiet H _ _ _ _ _ _ h
  refine ⟨q0, q1 ++ q2, ?_, k0, quiet_append k1 k2, ?_⟩
  · rw [h2, h1]
    unfold step2_mapped
    rw [h0]
    simp
  · intro ha
    rw [h2, host_answers_append]
    refine ⟨?_, by simpa using a2⟩
    rw [h1, host_answers_append]
    refine ⟨?_, by simpa using a1⟩
    unfold step2_mapped
    rw [host_answers_snoc]
    refine ⟨?_, rfl⟩
    rw [h0, host_answers_append]
    exact ⟨ha, by simpa using a0⟩

/-- The log of the replay records, call by call, what the host answered. -/
theorem load_after_fork_impl_answers (H : Host) (all : List dll) :
    ∀ fuel log ds r, host_answers H [] log →
      host_answers H [] (load_after_fork_impl H all fuel log ds r).1 := by
  apply load_after_fork_impl_induct H all
    (fun _ log _ _ res => host_answers H [] log → host_answers H [] res.1)
  · intro log ds r h; exact h
  · intro f log r h
    obtain ⟨ext, h1, h2, -⟩ := load_after_fork_step3_log H all log
    rw [h1, host_answers_append]
    exact ⟨h, by simpa using h2⟩
  · intro f log d rest r res _ ih h; exact ih h
  · intro f log d rest _ _ h
    obtain ⟨q0, h0, a0, -⟩ := step2_entry_log H log d 0
    show host_answers H [] (step2_entry H log d 0)
    rw [h0, host_answers_append]
    exact ⟨h, by simpa using a0⟩
  · intro f log d rest r _ _ _ h
    obtain ⟨q0, h0, a0, -⟩ := step2_entry_log H log d r
    show host_answers H [] (step2_mapped H log d r)
    unfold step2_mapped
    rw [host_answers_snoc]
    refine ⟨?_, rfl⟩
    rw [h0, host_answers_append]
    exact ⟨h, by simpa using a0⟩
  · intro f log d rest r res _ _ _ _ ih h
    apply ih
    obtain ⟨q0, h0, a0, -⟩ := step2_entry_log H log d r
    unfold step2_mapped
    rw [host_answers_snoc]
    refine ⟨?_, rfl⟩
    rw [h0, host_answers_append]
    exact ⟨h, by simpa using a0⟩
  · intro f log d rest r log4 e _ _ _ _ hres h
    obtain ⟨_, _, _, _, _, ha⟩ := step2_blocked_log H log log4 d r _ hres
    exact ha h
  · intro f log d rest r log4 _ _ _ _ hres h
    obtain ⟨_, _, _, _, _, ha⟩ := step2_blocked_log H log log4 d r _ hres
    exact ha h
  · intro f log d rest r log4 reservation _ _ _ _ hres _ _ h
    obtain ⟨_, _, _, _, _, ha⟩ := step2_blocked_log H log log4 d r _ hres
    exact ha h
  · intro f log d rest r log4 reservation log5 e _ _ _ _ hres _ _ ih h
    obtain ⟨_, _, _, _, _, ha⟩ := step2_blocked_log H log log4 d r _ hres
    exact ih (ha h)
  · intro f log d rest r log4 reservation log5 _ _ _ _ hres _ _ ih h
    obtain ⟨_, _, _, _, _, ha⟩ := step2_blocked_log H log log4 d r _ hres
    rw [(release_at_log H log5 reservation).1, host_answers_snoc]
    exact ⟨ih (ha h), rfl⟩

theorem realizing_loads_quiet (l : List replay_event) {ext : List replay_event}
    (h : quiet ext) : realizing_loads (l ++ ext) = realizing_loads l := by
  rw [realizing_loads_append, realizing_loads_no_step3 ext (quiet_step3 h), List.append_nil]

/-- When the replay ends without a fault, the realizing loads it made after
the log it started with are those of the records `all`, in order, each at the
handle of its record. -/
theorem load_after_fork_impl_loads (H : Host) (all : List dll) :
    ∀ fuel log ds r, (load_after_fork_impl H all fuel log ds r).2 = none →
      realizing_loads (load_after_fork_impl H all fuel log ds r).1 =
        realizing_loads log ++ all.map (fun d => (d, d.handle)) := by
  apply load_after_fork_impl_induct H all
    (fun _ log _ _ res => res.2 = none →
      realizing_loads res.1 = realizing_loads log ++ all.map (fun d => (d, d.handle)))
  · intro log ds r h; simp at h
  · intro f log r h
    obtain ⟨ext, h1, -, -, h4, -⟩ := load_after_fork_step3_log H all log
    rw [h1, realizing_loads_append, h4 h]
  · intro f log d rest r res _ ih h; exact ih h
  · intro f log d rest _ _ h; simp at h
  · intro f log d rest r _ _ _ h; simp at h
  · intro f log d rest r res _ _ _ _ ih h
    rw [ih h]
    obtain ⟨q0, h0, -, k0⟩ := step2_entry_log H log d r
    unfold step2_mapped
    rw [h0, realizing_loads_append, realizing_loads_quiet log k0]
    simp [realizing_loads]
  · intro f log d rest r log4 e _ _ _ _ _ h; simp at h
  · intro f log d rest r log4 _ _ _ _ _ h; simp at h
  · intro f log d rest r log4 reservation _ _ _ _ _ _ _ h; simp at h
  · intro f log d rest r log4 reservation log5 e _ _ _ _ _ _ _ _ h; simp at h
  · intro f log d rest r log4 reservation log5 _ _ _ _ hres _ _ ih _
    obtain ⟨q0, q, h4, k0, k, -⟩ := step2_blocked_log H log log4 d r _ hres
    rw [(release_at_log H log5 reservation).1, realizing_loads_append, ih rfl, h4,
      realizing_loads_quiet _ k, realizing_loads_append, realizing_loads_quiet log k0]
    simp [realizing_loads]

/-- A replay over `n` records needs no more than `n + 8` frames: with that
much fuel it does not run out of fuel. -/
theorem load_after_fork_impl_enough_fuel (H : Host) (all : List dll) :
    ∀ fuel log ds r, ds.length + (DLL_RETRY_MAX + 1 - r) < fuel →
      (load_after_fork_impl H all fuel log ds r).2 ≠ some .out_of_fuel := by
  apply load_after_fork_impl_induct H all
    (fun fuel _ ds r res => ds.length + (DLL_RETRY_MAX + 1 - r) < fuel →
      res.2 ≠ some .out_of_fuel)
  · intro log ds r h; omega
  · intro f log r _
    obtain ⟨ext, -, -, -, -, -, h6⟩ := load_after_fork_step3_log H all log
    exact h6
  · intro f log d rest r res _ ih h
    apply ih
    simp only [List.length_cons] at h
    omega
  · intro f log d rest _ _ _; simp
  · intro f log d rest r _ _ _ _; simp
  · intro f log d rest r res _ _ _ _ ih h
    apply ih
    simp only [List.length_cons] at h
    omega
  · intro f log d rest r log4 e _ _ _ _ hres _
    rcases reserve_at_fault H _ _ _ _ _ _ hres with h | h <;> simp [h]
  · intro f log d rest r log4 _ _ _ _ _ _; simp
  · intro f log d rest r log4 reservation _ _ _ _ _ _ _ _; simp
  · intro f log d rest r log4 reservation log5 e _ _ _ _ _ _ hlt ih h
    apply ih
    unfold DLL_RETRY_MAX at hlt h ⊢
    simp only [List.length_cons] at h ⊢
    omega
  · intro f log d rest r log4 reservation log5 _ _ _ _ _ _ _ _ _
    rcases (release_at_log H log5 reservation).2 with h | h <;> simp [h]

theorem interim_mem_no_interim (l : List replay_event) {q : List replay_event}
    (hq : ∀ e ∈ q, replay_event.is_interim e = false) (d : dll) (c h : Nat) :
    replay_event.interim_mapping d c h ∈ l ++ q ↔ replay_event.interim_mapping d c h ∈ l := by
  rw [List.mem_append]
  constructor
  · rintro (h1 | h1)
    · exact h1
    · have := hq _ h1
      simp [replay_event.is_interim] at this
  · exact Or.inl

theorem counters_follow_quiet (l : List replay_event) {q : List replay_event}
    (hq : ∀ e ∈ q, replay_event.is_interim e = false) (c : Nat) :
    counters_follow c (l ++ q) ↔ counters_follow c l := by
  rw [counters_follow_append]
  exact ⟨fun h => h.1, fun h => ⟨h, counters_follow_no_interim q hq _⟩⟩

theorem step2_inv_quiet {r : Nat} {log q : List replay_event} (h : step2_inv r log)
    (hq : quiet q) : step2_inv r (log ++ q) := by
  obtain ⟨h1, h2, h3, h4⟩ := h
  refine ⟨?_, ?_, ?_, ?_⟩
  · rw [wrong_count_append, wrong_count_no_interim q (quiet_interim hq), h1]; rfl
  · exact (counters_follow_quiet log (quiet_interim hq) 0).mpr h2
  · intro e he
    rcases List.mem_append.mp he with k | k
    · exact h3 e k
    · exact quiet_step3 hq e k
  · intro d c h he
    exact h4 d c h ((interim_mem_no_interim log (quiet_interim hq) d c h).mp he)

theorem counters_follow_snoc_interim (log : List replay_event) (d : dll) (r h : Nat) :
    counters_follow 0 (log ++ [replay_event.interim_mapping d r h]) ↔
      counters_follow 0 log ∧ r = wrong_count log := by
  rw [counters_follow_append]
  simp [counters_follow]

theorem step2_inv_right {r : Nat} {log : List replay_event} (hi : step2_inv r log)
    (hr : r ≤ DLL_RETRY_MAX) (d : dll) (h : Nat) (hh : h = 0 ∨ h = d.handle) :
    step2_inv r (log ++ [replay_event.interim_mapping d r h]) := by
  obtain ⟨h1, h2, h3, h4⟩ := hi
  refine ⟨?_, ?_, ?_, ?_⟩
  · rw [wrong_count_append, h1]
    have : wrong_count [replay_event.interim_mapping d r h] = 0 := by
      unfold wrong_count
      rw [List.length_eq_zero, List.filter_eq_nil_iff]
      intro e he
      rw [List.mem_singleton.mp he]
      rcases hh with k | k <;> simp [replay_event.is_wrong_landing, k]
    rw [this]; rfl
  · rw [counters_follow_snoc_interim]
    exact ⟨h2, h1.symm⟩
  · intro e he
    rcases List.mem_append.mp he with k | k
    · exact h3 e k
    · rw [List.mem_singleton.mp k]; rfl
  · intro d1 c h0 he
    rcases List.mem_append.mp he with k | k
    · exact h4 d1 c h0 k
    · have := List.mem_singleton.mp k
      injection this with e1 e2 e3
      subst e1 e2 e3
      exact ⟨hr, fun _ => hh⟩

theorem step2_inv_wrong {r : Nat} {log : List replay_event} (hi : step2_inv r log)
    (hr : r < DLL_RETRY_MAX) (d : dll) (h : Nat) (h0 : h ≠ 0) (hh : h ≠ d.handle) :
    step2_inv (r + 1) (log ++ [replay_event.interim_mapping d r h]) := by
  obtain ⟨h1, h2, h3, h4⟩ := hi
  refine ⟨?_, ?_, ?_, ?_⟩
  · rw [wrong_count_append, h1]
    have : wrong_count [replay_event.interim_mapping d r h] = 1 := by
      simp [wrong_count, List.filter, replay_event.is_wrong_landing, h0, hh]
    rw [this]
  · rw [counters_follow_snoc_interim]
    exact ⟨h2, h1.symm⟩
  · intro e he
    rcases List.mem_append.mp he with k | k
    · exact h3 e k
    · rw [List.mem_singleton.mp k]; rfl
  · intro d1 c h5 he
    rcases List.mem_append.mp he with k | k
    · exact h4 d1 c h5 k
    · have := List.mem_singleton.mp k
      injection this with e1 e2 e3
      subst e1 e2 e3
      exact ⟨Nat.le_of_lt hr, fun hc => absurd hc (Nat.ne_of_lt hr)⟩

theorem replay_post_of_inv {r : Nat} {log : List replay_event} (hi : step2_inv r log)
    (x : Option Fault) (hx : x ≠ some (.fabort MSG_REBASE)) : replay_post (log, x) := by
  obtain ⟨_, h2, _, h4⟩ := hi
  refine ⟨h2, fun d c h he => (h4 d c h he).1, ?_, fun hc => absurd hc hx⟩
  intro d h he h0 hh
  rcases (h4 d _ h he).2 rfl with k | k
  · exact absurd k h0
  · exact absurd k hh

theorem replay_post_last_wrong {r : Nat} {log q : List replay_event} (hi : step2_inv r log)
    (hr : r ≤ DLL_RETRY_MAX) (hq : quiet q) (d : dll) (h : Nat) (h0 : h ≠ 0)
    (hh : h ≠ d.handle) (m : Nat)
    (hm : m = MSG_REBASE ∨ m = MSG_EXAMINE ∨ m = MSG_ALLOCATE ∨ m = MSG_BLOCK)
    (hreb : m = MSG_REBASE → r = DLL_RETRY_MAX) :
    replay_post (log ++ [replay_event.interim_mapping d r h] ++ q, some (.fabort m)) := by
  obtain ⟨h1, h2, h3, h4⟩ := hi
  have hmem : ∀ d1 c h5, replay_event.interim_mapping d1 c h5 ∈
      log ++ [replay_event.interim_mapping d r h] ++ q → c ≤ DLL_RETRY_MAX := by
    intro d1 c h5 he
    rw [interim_mem_no_interim _ (quiet_interim hq)] at he
    rcases List.mem_append.mp he with k | k
    · exact (h4 d1 c h5 k).1
    · have := List.mem_singleton.mp k
      injection this with e1 e2 e3
      subst e2
      exact hr
  refine ⟨?_, hmem, ?_, ?_⟩
  · show counters_follow 0 (log ++ [replay_event.interim_mapping d r h] ++ q)
    rw [counters_follow_quiet _ (quiet_interim hq), counters_follow_snoc_interim]
    exact ⟨h2, h1.symm⟩
  · intro d1 h5 _ _ _
    refine ⟨⟨m, rfl, hm⟩, ?_⟩
    intro e he
    rcases List.mem_append.mp he with k | k
    · rcases List.mem_append.mp k with k | k
      · exact h3 e k
      · rw [List.mem_singleton.mp k]; rfl
    · exact quiet_step3 hq e k
  · intro hres
    have hmr : m = MSG_REBASE := by
      simp only [Option.some.injEq, Fault.fabort.injEq] at hres
      exact hres
    refine ⟨d, h, ?_, h0, hh⟩
    rw [← hreb hmr]
    exact List.mem_append_left _ (List.mem_append_right _ (List.mem_singleton.mpr rfl))

theorem replay_post_step3 (H : Host) (all : List dll) {r : Nat} {log : List replay_event}
    (hi : step2_inv r log) : replay_post (load_after_fork_step3 H log all) := by
  obtain ⟨ext, h1, -, h3, -, h5, -⟩ := load_after_fork_step3_log H all log
  obtain ⟨_, k2, _, k4⟩ := hi
  refine ⟨?_, ?_, ?_, fun hc => absurd hc h5⟩
  · rw [h1, counters_follow_quiet log h3]; exact k2
  · intro d c h he
    rw [h1, interim_mem_no_interim log h3] at he
    exact (k4 d c h he).1
  · intro d h he h0 hh
    rw [h1, interim_mem_no_interim log h3] at he
    rcases (k4 d _ h he).2 rfl with k | k
    · exact absurd k h0
    · exact absurd k hh

theorem replay_post_release (H : Host) {log5 : List replay_event} (reservation : Nat)
    (hp : replay_post (log5, none)) : replay_post (release_at H log5 reservation) := by
  obtain ⟨p1, p2, p3, _⟩ := hp
  obtain ⟨h1, h2⟩ := release_at_log H log5 reservation
  have hq : ∀ e ∈ [replay_event.release reservation (H.VirtualFree log5 reservation)],
      replay_event.is_interim e = false := by
    intro e he
    rw [List.mem_singleton.mp he]; rfl
  refine ⟨?_, ?_, ?_, ?_⟩
  · rw [h1, counters_follow_quiet log5 hq]; exact p1
  · intro d c h he
    rw [h1, interim_mem_no_interim log5 hq] at he
    exact p2 d c h he
  · intro d h he h0 hh
    rw [h1, interim_mem_no_interim log5 hq] at he
    obtain ⟨⟨m, hm, _⟩, _⟩ := p3 d h he h0 hh
    simp at hm
  · intro hc
    rcases h2 with k | k
    · rw [k] at hc; simp at hc
    · rw [k] at hc
      simp [MSG_RELEASE, MSG_REBASE] at hc

/-- The retry counter of the replay: started in a frame with counter `r` on a
log that satisfies the invariant of Step 2, the replay ends in a result that
satisfies `replay_post`. -/
theorem load_after_fork_impl_counters (H : Host) (all : List dll) :
    ∀ fuel log ds r, r ≤ DLL_RETRY_MAX → step2_inv r log →
      replay_post (load_after_fork_impl H all fuel log ds r) := by
  apply load_after_fork_impl_induct H all
    (fun _ log _ r res => r ≤ DLL_RETRY_MAX → step2_inv r log → replay_post res)
  · intro log ds r _ hi
    exact replay_post_of_inv hi _ (by simp)
  · intro f log r _ hi
    exact replay_post_step3 H all hi
  · intro f log d rest r res _ ih hr hi
    exact ih hr hi
  · intro f log d rest _ _ _ hi
    obtain ⟨q0, h0, -, k0⟩ := step2_entry_log H log d 0
    rw [h0]
    exact replay_post_of_inv (step2_inv_quiet hi k0) _ (by simp [MSG_PROTECTIVE, MSG_REBASE])
  · intro f log d rest r _ _ hz hr hi
    obtain ⟨q0, h0, -, k0⟩ := step2_entry_log H log d r
    unfold step2_mapped
    rw [hz, h0]
    exact replay_post_of_inv (step2_inv_right (step2_inv_quiet hi k0) hr d 0 (Or.inl rfl)) _
      (by simp [MSG_INTERIM, MSG_REBASE])
  · intro f log d rest r res _ _ hh _ ih hr hi
    apply ih hr
    obtain ⟨q0, h0, -, k0⟩ := step2_entry_log H log d r
    unfold step2_mapped
    rw [hh, h0]
    exact step2_inv_right (step2_inv_quiet hi k0) hr d _ (Or.inr rfl)
  · intro f log d rest r log4 e _ _ hn0 hne hres hr hi
    obtain ⟨q0, q, h4, k0, k, -⟩ := step2_blocked_log H log log4 d r _ hres
    rw [h4]
    rcases reserve_at_fault H _ _ _ _ _ _ hres with he | he
    · rw [he]
      exact replay_post_last_wrong (step2_inv_quiet hi k0) hr k d _ hn0 hne _
        (Or.inr (Or.inl rfl)) (by simp [MSG_EXAMINE, MSG_REBASE])
    · rw [he]
      exact replay_post_last_wrong (step2_inv_quiet hi k0) hr k d _ hn0 hne _
        (Or.inr (Or.inr (Or.inl rfl))) (by simp [MSG_ALLOCATE, MSG_REBASE])
  · intro f log d rest r log4 _ _ hn0 hne hres hr hi
    obtain ⟨q0, q, h4, k0, k, -⟩ := step2_blocked_log H log log4 d r _ hres
    rw [h4]
    exact replay_post_last_wrong (step2_inv_quiet hi k0) hr k d _ hn0 hne _
      (Or.inr (Or.inr (Or.inr rfl))) (by simp [MSG_BLOCK, MSG_REBASE])
  · intro f log d rest r log4 reservation _ _ hn0 hne hres _ hlt hr hi
    obtain ⟨q0, q, h4, k0, k, -⟩ := step2_blocked_log H log log4 d r _ hres
    rw [h4]
    exact replay_post_last_wrong (step2_inv_quiet hi k0) hr k d _ hn0 hne _
      (Or.inl rfl) (fun _ => Nat.le_antisymm hr (Nat.le_of_not_lt hlt))
  · intro f log d rest r log4 reservation log5 e _ _ hn0 hne hres _ hlt ih hr hi
    obtain ⟨q0, q, h4, k0, k, -⟩ := step2_blocked_log H log log4 d r _ hres
    apply ih hlt
    rw [h4]
    exact step2_inv_quiet (step2_inv_wrong (step2_inv_quiet hi k0) hlt d _ hn0 hne) k
  · intro f log d rest r log4 reservation log5 _ _ hn0 hne hres _ hlt ih hr hi
    obtain ⟨q0, q, h4, k0, k, -⟩ := step2_blocked_log H log log4 d r _ hres
    apply replay_post_release
    apply ih hlt
    rw [h4]
    exact step2_inv_quiet (step2_inv_wrong (step2_inv_quiet hi k0) hlt d _ hn0 hne) k

/-- C3: whenever `dll_list::load_after_fork` returns normally (the replay ends
without a fault), the log records what the host answered to every call, and the
normal loads (`LoadLibraryW`) of Step 3 are exactly one per LOADED record, in the
order of the records, each answered by the host with the handle of its record;
this holds for every host, so for every behaviour of the host loader in Step 2.
With eight frames more than there are records the replay does not run out of
fuel. -/
theorem load_after_fork_realizes_handles (H : Host) (fuel : Nat) (all : List dll)
    (h : (load_after_fork H fuel all).2 = none) :
    host_answers H [] (load_after_fork H fuel all).1 ∧
    realizing_loads (load_after_fork H fuel all).1 = all.map (fun d => (d, d.handle)) ∧
    (load_after_fork H (all.length + 8) all).2 ≠ some Fault.out_of_fuel := by
  refine ⟨load_after_fork_impl_answers H all fuel [] all 0 trivial, ?_, ?_⟩
  · have := load_after_fork_impl_loads H all fuel [] all 0 h
    simpa [realizing_loads] using this
  · apply load_after_fork_impl_enough_fuel
    unfold DLL_RETRY_MAX
    omega

/-- C3 (witness): `A` is away from its preferred base, `C` is at its preferred
base.  The first interim mapping of `A` lands at the preferred base of `A`, the
replay blocks that address, maps `A` at its handle and returns after Step 3;
the loads of Step 3 are answered with the handles of `A` and `C`. -/
theorem load_after_fork_realizes_handles_two :
    (load_after_fork (example_host [example_loaded_a, example_loaded_c] 1) 12
      [example_loaded_a, example_loaded_c]).2 = none ∧
    realizing_loads (load_after_fork (example_host [example_loaded_a, example_loaded_c] 1) 12
      [example_loaded_a, example_loaded_c]).1 =
      [(example_loaded_a, 268435456), (example_loaded_c, 805306368)] :=
  ⟨by decide,
    (load_after_fork_realizes_handles (example_host [example_loaded_a, example_loaded_c] 1) 12
      [example_loaded_a, example_loaded_c] (by decide)).2.1⟩

/-- C4 (failing input): two LOADED records `A` and `B`, both away from their
preferred base, on a host that honours reservations.  The first interim mapping
of `A` lands at its preferred base, so `B` is first reached in a frame whose
retry counter is `1`: the replay requests the interim mapping of `B` without
ever releasing the protective reservation at the handle of `B`, the mapping
cannot land there, and the replay ends with the rebase diagnostic. -/
theorem load_after_fork_keeps_protective_reservation :
    example_loaded_b.handle ≠ example_loaded_b.preferred_base ∧
    replay_event.interim_mapping example_loaded_b 1 example_loaded_b.preferred_base ∈
      (load_after_fork (example_host_strict [example_loaded_a, example_loaded_b]) 12
        [example_loaded_a, example_loaded_b]).1 ∧
    (∀ ok, replay_event.release_protective example_loaded_b ok ∉
      (load_after_fork (example_host_strict [example_loaded_a, example_loaded_b]) 12
        [example_loaded_a, example_loaded_b]).1) ∧
    (load_after_fork (example_host_strict [example_loaded_a, example_loaded_b]) 12
      [example_loaded_a, example_loaded_b]).2 = some (Fault.fabort MSG_REBASE) := by
  decide

/-- C5 (counterexample): six interim mappings of `A` land at a wrong address,
the seventh is requested with the retry counter at `6` and lands at the handle;
the replay goes on to Step 3, loads `A` and returns normally. -/
theorem retry_limit_counterexample :
    wrong_count (load_after_fork (example_host [example_loaded_a] 6) 10 [example_loaded_a]).1
      = 6 ∧
    replay_event.interim_mapping example_loaded_a 6 example_loaded_a.handle ∈
      (load_after_fork (example_host [example_loaded_a] 6) 10 [example_loaded_a]).1 ∧
    replay_event.load example_loaded_a example_loaded_a.handle ∈
      (load_after_fork (example_host [example_loaded_a] 6) 10 [example_loaded_a]).1 ∧
    (load_after_fork (example_host [example_loaded_a] 6) 10 [example_loaded_a]).2 = none := by
  decide

/-- C5: in `dll_list::load_after_fork_impl` the retry counter starts at `0` and
grows by one each time an interim mapping lands at an address other than the
handle of its record; it never exceeds `DLL_RETRY_MAX = 6`; whenever an interim
mapping requested with the counter at `6` lands at a wrong address (the seventh
wrong landing) the replay fails fatally, with the rebase diagnostic or with the
diagnostic of the blockade of that address, and the log holds no event of
Step 3; the rebase diagnostic is produced in this case only. -/
theorem retry_counter_limit (H : Host) (fuel : Nat) (all : List dll) :
    counters_follow 0 (load_after_fork H fuel all).1 ∧
    (∀ d c h, replay_event.interim_mapping d c h ∈ (load_after_fork H fuel all).1 →
      c ≤ DLL_RETRY_MAX) ∧
    (∀ d h, replay_event.interim_mapping d DLL_RETRY_MAX h ∈ (load_after_fork H fuel all).1 →
      h ≠ 0 → h ≠ d.handle →
      (∃ m, (load_after_fork H fuel all).2 = some (Fault.fabort m) ∧
        (m = MSG_REBASE ∨ m = MSG_EXAMINE ∨ m = MSG_ALLOCATE ∨ m = MSG_BLOCK)) ∧
      ∀ e ∈ (load_after_fork H fuel all).1, replay_event.is_step3 e = false) ∧
    ((load_after_fork H fuel all).2 = some (Fault.fabort MSG_REBASE) →
      ∃ d h, replay_event.interim_mapping d DLL_RETRY_MAX h ∈ (load_after_fork H fuel all).1 ∧
        h ≠ 0 ∧ h ≠ d.handle) :=
  load_after_fork_impl_counters H all fuel [] all 0 (Nat.zero_le _)
    ⟨rfl, trivial, fun _ he => absurd he (List.not_mem_nil _),
      fun _ _ _ he => absurd he (List.not_mem_nil _)⟩

/-- C5 (witness): seven interim mappings of `A` land at a wrong address; the
seventh is requested with the counter at `6` and lands six megabytes above the
preferred base, and the replay ends with the rebase diagnostic before any
event of Step 3. -/
theorem retry_counter_limit_seventh :
    (load_after_fork (example_host [example_loaded_a] 7) 10 [example_loaded_a]).2 =
      some (Fault.fabort MSG_REBASE) ∧
    ((∃ m, (load_after_fork (example_host [example_loaded_a] 7) 10 [example_loaded_a]).2 =
        some (Fault.fabort m) ∧
        (m = MSG_REBASE ∨ m = MSG_EXAMINE ∨ m = MSG_ALLOCATE ∨ m = MSG_BLOCK)) ∧
      ∀ e ∈ (load_after_fork (example_host [example_loaded_a] 7) 10 [example_loaded_a]).1,
        replay_event.is_step3 e = false) :=
  ⟨by decide,
    (retry_counter_limit (example_host [example_loaded_a] 7) 10 [example_loaded_a]).2.2.1
      example_loaded_a 1885339648 (by decide) (by decide) (by decide)⟩

/-- C11: `dll_list::topsort`, with the recursion of `dll_list::topsort_visit`,
terminates on every registry at rest, whatever the dependency edges are (no
assumption excludes cycles or a record that depends on itself): there is an
amount of fuel from which on it returns, always the same registry. -/
theorem topsort_terminates (env : Env) (s : dll_list) (L : List Nat)
    (hreg : s.is_registry L) :
    ∃ f0 s1, ∀ f, f0 ≤ f → dll_list.topsort env f s = .ok s1 :=
  (topsort_on_registry env s L hreg).1

/-- C11, the cycle: `P` imports `Q` and `Q` imports `P`.  The dependency edges
have a cycle (each of the two records reaches itself), and the sort returns. -/
theorem topsort_terminates_cycle :
    example_two.is_registry [1, 2] ∧
    Relation.TransGen (dep_edge (chain_deps example_env_cycle example_two [1, 2]) [1, 2]) 1 1 ∧
    ∃ f0 s1, ∀ f, f0 ≤ f → dll_list.topsort example_env_cycle f example_two = .ok s1 :=
  ⟨by decide,
    Relation.TransGen.head (b := 2) ⟨by decide, by decide⟩
      (Relation.TransGen.single ⟨by decide, by decide⟩),
    topsort_terminates example_env_cycle example_two [1, 2] (by decide)⟩

/-- C20: on every registry at rest, acyclic or not, `dll_list::topsort` returns,
and the chain it leaves is a permutation of the chain before it: it is well
formed (every record occurs once, `end` designates the last one), it holds the
same records, and every record has the dependency count 0 and an empty
dependency array again.  The fields of the records other than the links are
unchanged. -/
theorem topsort_permutes_chain (env : Env) (s : dll_list) (L : List Nat)
    (hreg : s.is_registry L) :
    (∃ f0 s1, ∀ f, f0 ≤ f → dll_list.topsort env f s = .ok s1) ∧
    ∀ f s1, dll_list.topsort env f s = .ok s1 →
      ∃ L1, s1.is_chain L1 ∧ L1.Perm L ∧ L1.Nodup ∧ (L1 ≠ [] → s1.tail = L1.getLast?) ∧
        (∀ x, x ∈ L1 → (s1.mem x).ndeps = 0 ∧ (s1.mem x).deps = []) ∧
        (∀ a, (s1.mem a).payload = (s.mem a).payload) := by
  obtain ⟨h1, h2⟩ := topsort_on_registry env s L hreg
  refine ⟨h1, ?_⟩
  intro f s1 h
  obtain ⟨hch, hfr, hcl⟩ := h2 f s1 h
  have hperm := sorted_chain_perm L (chain_deps_closed env s L) hreg.1.2.2.1
  refine ⟨_, hch, hperm, hch.2.2.1, ?_, ?_, hfr.1⟩
  · intro hne
    have := hch.2.2.2
    rw [if_neg hne] at this
    exact this
  · intro x hx
    exact hcl x (hperm.mem_iff.mp hx)

/-- C20, a record that depends on itself: `A` names itself among its imports;
the hypothesis holds for the registry of `A` and `B`, so the sort returns a
permutation of the chain with the dependency counts and arrays cleared. -/
theorem topsort_permutes_chain_self :
    example_two.is_registry [1, 2] ∧
    1 ∈ chain_deps example_env_self example_two [1, 2] 1 ∧
    ((∃ f0 s1, ∀ f, f0 ≤ f → dll_list.topsort example_env_self f example_two = .ok s1) ∧
      ∀ f s1, dll_list.topsort example_env_self f example_two = .ok s1 →
        ∃ L1, s1.is_chain L1 ∧ L1.Perm [1, 2] ∧ L1.Nodup ∧ (L1 ≠ [] → s1.tail = L1.getLast?) ∧
          (∀ x, x ∈ L1 → (s1.mem x).ndeps = 0 ∧ (s1.mem x).deps = []) ∧
          (∀ a, (s1.mem a).payload = (example_two.mem a).payload)) :=
  ⟨by decide, by decide,
    topsort_permutes_chain example_env_self example_two [1, 2] (by decide)⟩

theorem alloc_name_unprefixed (buf : WStr) (h : buf.take 4 ≠ LONG_PREFIX) :
    alloc_name buf = buf := by
  unfold alloc_name
  rw [if_neg h]

theorem alloc_name_length_lt (buf : WStr) (h : buf.take 4 = LONG_PREFIX) :
    (alloc_name buf).length < buf.length := by
  have hlen : 4 ≤ buf.length := by
    have := congrArg List.length h
    simp only [List.length_take, LONG_PREFIX, List.length_cons, List.length_nil] at this
    omega
  unfold alloc_name
  rw [if_pos h]
  simp only
  split
  · rename_i hu
    have := congrArg List.length hu
    simp only [List.length_take, List.length_drop, UNC_PREFIX, List.length_cons,
      List.length_nil] at this
    simp only [List.length_cons, List.length_drop]
    omega
  · simp only [List.length_drop]
    omega

/-- C15 (counterexample): the path `\\?\UNC\?\C:\A` is stripped to `\\?\C:\A`,
which is stripped again to `C:\A`. -/
theorem alloc_name_twice_counterexample :
    alloc_name [92, 92, 63, 92, 85, 78, 67, 92, 63, 92, 67, 58, 92, 65]
      = [92, 92, 63, 92, 67, 58, 92, 65] ∧
    alloc_name (alloc_name [92, 92, 63, 92, 85, 78, 67, 92, 63, 92, 67, 58, 92, 65])
      = [67, 58, 92, 65] ∧
    alloc_name (alloc_name [92, 92, 63, 92, 85, 78, 67, 92, 63, 92, 67, 58, 92, 65])
      ≠ alloc_name [92, 92, 63, 92, 85, 78, 67, 92, 63, 92, 67, 58, 92, 65] := by
  decide

/-- C15: the long path prefix stripping of `dll_list::alloc` (drop a leading
`\\?\` and, when `UNC\` follows, replace it by `\\`) applied to its own result
gives that result again exactly when the result does not itself begin with
`\\?\`; in particular it is idempotent on every path `p` whose stripped form
does not begin with `\\?\`. -/
theorem alloc_name_idempotent (p : WStr) :
    (alloc_name (alloc_name p) = alloc_name p ↔ (alloc_name p).take 4 ≠ LONG_PREFIX) ∧
    ((alloc_name p).take 4 ≠ LONG_PREFIX → alloc_name (alloc_name p) = alloc_name p) := by
  have h : (alloc_name p).take 4 ≠ LONG_PREFIX → alloc_name (alloc_name p) = alloc_name p :=
    alloc_name_unprefixed _
  refine ⟨⟨?_, h⟩, h⟩
  intro heq hpre
  have := alloc_name_length_lt _ hpre
  rw [heq] at this
  exact Nat.lt_irrefl _ this

/-- C15 (witness): the path `\\?\UNC\srv\A` is stripped to `\\srv\A`, which
does not begin with `\\?\` and is stripped to itself. -/
theorem alloc_name_idempotent_unc :
    alloc_name [92, 92, 63, 92, 85, 78, 67, 92, 115, 114, 118, 92, 65]
      = [92, 92, 115, 114, 118, 92, 65] ∧
    alloc_name (alloc_name [92, 92, 63, 92, 85, 78, 67, 92, 115, 114, 118, 92, 65])
      = alloc_name [92, 92, 63, 92, 85, 78, 67, 92, 115, 114, 118, 92, 65] :=
  ⟨by decide,
    (alloc_name_idempotent [92, 92, 63, 92, 85, 78, 67, 92, 115, 114, 118, 92, 65]).2
      (by decide)⟩

theorem to_DWORD_le (x : Nat) (y : Nat) (h : y ≤ x) :
    to_DWORD ((x : Int) - (y : Int)) ≤ x - y := by
  unfold to_DWORD
  omega

/-- C14: when the host reports the region at `here` as free, `reserve_at` asks
the host to reserve one range, and no address of that range lies in the target
range `[dll_base, dll_base + dll_size)`; when the host reports the region as
not free, `reserve_at` makes no reservation request and returns `0`. -/
theorem reserve_at_avoids_target (H : Host) (log : List replay_event)
    (here dll_base dll_size : Nat) :
    (∀ size, H.VirtualQuery log here = some (true, size) →
      ∃ a n, (reserve_at H log here dll_base dll_size).1 =
          log ++ [replay_event.query here (some (true, size)),
            replay_event.reserve a n
              (H.VirtualAlloc (log ++ [replay_event.query here (some (true, size))]) a n)] ∧
        ∀ x, a ≤ x → x < a + n → ¬ (dll_base ≤ x ∧ x < dll_base + dll_size)) ∧
    (∀ size, H.VirtualQuery log here = some (false, size) →
      reserve_at H log here dll_base dll_size =
        (log ++ [replay_event.query here (some (false, size))], .ok 0)) := by
  constructor
  · intro size hq
    have hfst : ∀ (c : Prop) [Decidable c] (l : List replay_event) (x y : Except Fault Nat),
        (if c then (l, x) else (l, y)).1 = l := by
      intro c _ l x y
      split <;> rfl
    unfold reserve_at
    rw [hq]
    simp only [Bool.true_eq_false, if_false]
    by_cases h1 : dll_base < here ∧ dll_base + dll_size > here
    · simp only [if_pos h1]
      refine ⟨dll_base + dll_size,
        to_DWORD (((here + to_DWORD size : Nat) : Int) - ((dll_base + dll_size : Nat) : Int)),
        ?_, ?_⟩
      · rw [hfst, List.append_assoc]
        rfl
      · intro x hx _ hin
        omega
    · simp only [if_neg h1]
      by_cases h2 : dll_base ≥ here ∧ dll_base < here + to_DWORD size
      · simp only [if_pos h2]
        refine ⟨here, to_DWORD ((dll_base : Int) - (here : Int)), ?_, ?_⟩
        · rw [hfst, List.append_assoc]
          rfl
        · intro x hx hlt hin
          have := to_DWORD_le dll_base here h2.1
          omega
      · simp only [if_neg h2]
        refine ⟨here, to_DWORD (((here + to_DWORD size : Nat) : Int) - (here : Int)), ?_, ?_⟩
        · rw [hfst, List.append_assoc]
          rfl
        · intro x hx hlt hin
          have h3 : to_DWORD (((here + to_DWORD size : Nat) : Int) - (here : Int))
              ≤ here + to_DWORD size - here := to_DWORD_le _ _ (Nat.le_add_right _ _)
          omega
  · intro size hq
    unfold reserve_at
    rw [hq]
    simp

/-- C14 (witness): the target range `[0x6fff8000, 0x70008000)` straddles the
left edge of the free region at `0x70000000`; the host reports the region as
free, so the range requested holds no address of the target range. -/
theorem reserve_at_avoids_target_straddle :
    (example_host [] 0).VirtualQuery [] 1879048192 = some (true, 1048576) ∧
    ∃ a n, (reserve_at (example_host [] 0) [] 1879048192 1879015424 65536).1 =
        [] ++ [replay_event.query 1879048192 (some (true, 1048576)),
          replay_event.reserve a n
            ((example_host [] 0).VirtualAlloc
              ([] ++ [replay_event.query 1879048192 (some (true, 1048576))]) a n)] ∧
      ∀ x, a ≤ x → x < a + n → ¬ (1879015424 ≤ x ∧ x < 1879015424 + 65536) :=
  ⟨rfl, (reserve_at_avoids_target (example_host [] 0) [] 1879048192 1879015424 65536).1
    1048576 rfl⟩

theorem run_ctors_scan_spec (pfunc : Nat → Nat) (n : Nat) (hz : pfunc n = 0) :
    ∀ (k i f : Nat), i + k = n → (∀ j, i ≤ j → j < n → pfunc j ≠ 0) → k < f →
      run_ctors_scan pfunc f i = .ok n := by
  intro k
  induction k with
  | zero =>
    intro i f hi _ hf
    obtain ⟨f, rfl⟩ : ∃ g, f = g + 1 := ⟨f - 1, by omega⟩
    have : i = n := by omega
    subst this
    rw [run_ctors_scan, if_neg (not_not.mpr hz)]
  | succ k ih =>
    intro i f hi hnz hf
    obtain ⟨f, rfl⟩ : ∃ g, f = g + 1 := ⟨f - 1, by omega⟩
    rw [run_ctors_scan, if_pos (hnz i (Nat.le_refl _) (by omega))]
    exact ih (i + 1) f (by omega) (fun j h1 h2 => hnz j (by omega) h2) (by omega)

theorem run_ctors_calls_spec (pfunc : Nat → Nat) :
    ∀ j, run_ctors_calls pfunc j = ((List.range' 1 j).reverse).map pfunc := by
  intro j
  induction j with
  | zero => rfl
  | succ j ih =>
    rw [run_ctors_calls, ih, List.range'_1_concat, List.reverse_append]
    simp [Nat.add_comm]

theorem run_ctors_scan_congr (p1 p2 : Nat → Nat) :
    ∀ (f i : Nat), 1 ≤ i → (∀ j, 1 ≤ j → p2 j = p1 j) →
      run_ctors_scan p2 f i = run_ctors_scan p1 f i := by
  intro f
  induction f with
  | zero => intro i _ _; rfl
  | succ f ih =>
    intro i hi h
    rw [run_ctors_scan, run_ctors_scan, h i hi, ih (i + 1) (by omega) h]

theorem run_ctors_calls_congr (p1 p2 : Nat → Nat) (h : ∀ j, 1 ≤ j → p2 j = p1 j) :
    ∀ j, run_ctors_calls p2 j = run_ctors_calls p1 j := by
  intro j
  induction j with
  | zero => rfl
  | succ j ih => rw [run_ctors_calls, run_ctors_calls, ih, h (j + 1) (by omega)]

/-- C13: on a constructor array whose entries at the indices `1 .. n-1` are
not null and whose entry at the index `n` is null, `per_module::run_ctors`
returns (from `n` units of fuel on) after calling exactly `ctors[n-1]`,
`ctors[n-2]`, ..., `ctors[1]`, in this order; the entry at index `0` has no
influence on what it does; it calls nothing when `n = 1` and when the `ctors`
pointer is null. -/
theorem run_ctors_reverse_order (arrays : Nat → Nat → Nat) (p : per_module) :
    (p.ctors = 0 → ∀ fuel, p.run_ctors arrays fuel = .ok []) ∧
    (p.ctors ≠ 0 → ∀ n, 1 ≤ n → (∀ i, 1 ≤ i → i < n → arrays p.ctors i ≠ 0) →
      arrays p.ctors n = 0 → ∀ fuel, n ≤ fuel →
        p.run_ctors arrays fuel = .ok (((List.range' 1 (n - 1)).reverse).map (arrays p.ctors)) ∧
        (n = 1 → p.run_ctors arrays fuel = .ok []) ∧
        ∀ arrays2 : Nat → Nat → Nat, (∀ i, 1 ≤ i → arrays2 p.ctors i = arrays p.ctors i) →
          p.run_ctors arrays2 fuel = p.run_ctors arrays fuel) := by
  constructor
  · intro h fuel
    unfold per_module.run_ctors
    rw [if_neg (not_not.mpr h)]
  · intro h n hn hnz hz fuel hf
    have hscan := run_ctors_scan_spec (arrays p.ctors) n hz (n - 1) 1 fuel (by omega)
      (fun j h1 h2 => hnz j h1 h2) (by omega)
    have hrun : p.run_ctors arrays fuel
        = .ok (((List.range' 1 (n - 1)).reverse).map (arrays p.ctors)) := by
      unfold per_module.run_ctors
      rw [if_pos h, hscan]
      simp only
      rw [run_ctors_calls_spec]
    refine ⟨hrun, ?_, ?_⟩
    · intro h1
      rw [hrun, h1]
      rfl
    · intro arrays2 h2
      unfold per_module.run_ctors
      rw [if_pos h, if_pos h, run_ctors_scan_congr (arrays p.ctors) (arrays2 p.ctors) fuel 1
        (Nat.le_refl _) h2, hscan]
      simp only
      rw [run_ctors_calls_congr (arrays p.ctors) (arrays2 p.ctors) h2]

/-- C13 (witness): the array `9, 11, 12, 13, null` has `n = 4`; the functions
called are `13, 12, 11`, and the entry `9` at index `0` is not called. -/
theorem run_ctors_reverse_order_three :
    example_module.run_ctors example_arrays 4 = .ok [13, 12, 11] :=
  ((run_ctors_reverse_order example_arrays example_module).2 (by decide) 4 (by decide)
    (by decide) (by decide) 4 (by decide)).1

theorem payload_count {a b : dll} (h : a.payload = b.payload) : a.count = b.count := by
  have := congrArg dll.count h
  simpa [dll.payload] using this

/-- No operation of the registry changes the reference count of a record:
in every reachable registry every record of the chain has the count `0` that
`alloc` gave it. -/
theorem reachable_count (env : Env) (s : dll_list) (h : dll_list.reachable env s) :
    ∃ L, s.is_registry L ∧ ∀ x, x ∈ L → (s.mem x).count = 0 := by
  induction h with
  | start => exact ⟨[], by decide, by simp⟩
  | alloc s s1 f h p type fresh d _ hS hfresh hok ih =>
    obtain ⟨L, hreg, hc⟩ := ih
    have hfL := hfresh L hreg.1
    obtain ⟨modname, hmod, hcase⟩ := alloc_cases env f s h p type fresh s1 d hok
    rcases hcase with ⟨_, _, _, hs1⟩ | ⟨hfind, hd, hs1⟩
    · subst hs1
      refine ⟨L, store_p_registry s L hreg d _, ?_⟩
      intro x hx
      by_cases hxd : x = d
      · subst hxd
        rw [store_mem_same]
        exact hc x hx
      · rw [store_mem_other _ _ _ _ hxd]
        exact hc x hx
    · subst hd
      subst hs1
      obtain ⟨r1, r2, r3⟩ := alloc_inserted_registry env s L hreg d h p type
        (alloc_name (env.GetModuleFileNameW h)) modname hfL hS
      refine ⟨L ++ [d], r1, ?_⟩
      intro x hx
      rcases List.mem_append.1 hx with hx | hx
      · rw [payload_count (r3 x (fun hh => hfL (hh ▸ hx)))]
        exact hc x hx
      · simp only [List.mem_singleton] at hx
        subst hx
        rw [r2]
        rfl
  | detach s s1 f myself in_forkee query _ hok ih =>
    obtain ⟨L, hreg, hc⟩ := ih
    obtain ⟨L1, h1, h2, h3⟩ := detach_registry s L hreg f myself in_forkee query s1 hok
    exact ⟨L1, h1, fun x hx => by rw [payload_count (h3 x)]; exact hc x (h2 x hx)⟩
  | topsort s s1 f _ hok ih =>
    obtain ⟨L, hreg, hc⟩ := ih
    obtain ⟨h1, h2⟩ := topsort_registry env s L hreg f s1 hok
    refine ⟨_, h1, ?_⟩
    intro x hx
    rw [payload_count (h2.1 x)]
    exact hc x ((sorted_chain_perm L (chain_deps_closed env s L) hreg.1.2.2.1).mem_iff.mp hx)

/-- C17 (counterexample): the record `dll_list::alloc` creates and returns in
the initial registry for the module `A` has the reference count `0`, not a
count of at least `1`, as a `DLL_LINK` record and as a `DLL_LOAD` record. -/
theorem alloc_count_counterexample :
    dll_list.alloc example_env_no_imports 1 dlls 65 example_meta dll_type.DLL_LINK 1
      = .ok (example_one, 1) ∧
    (example_one.mem 1).count = 0 ∧
    dll_list.alloc example_env_no_imports 1 dlls 65 example_meta dll_type.DLL_LOAD 1
      = .ok (alloc_inserted example_env_no_imports dlls 1 65 example_meta dll_type.DLL_LOAD
          [67, 58, 92, 65] [65], 1) ∧
    ((alloc_inserted example_env_no_imports dlls 1 65 example_meta dll_type.DLL_LOAD
      [67, 58, 92, 65] [65]).mem 1).count = 0 ∧
    ¬ ((1 : Int) ≤ (example_one.mem 1).count) :=
  ⟨rfl, by decide, rfl, by decide, by decide⟩

/-- C17: every record in the registry has a reference count of at least `0`
in every state reachable by `alloc`, `detach` and `topsort`; the registry never
gives it another value than `0`: the record that `dll_list::alloc` has just
created and returned has the count `0`, whether its kind is `DLL_LINK` or
`DLL_LOAD`, and every record of a reachable registry still has the count `0`. -/
theorem record_count_zero (env : Env) :
    (∀ f s h p type fresh s1 d, dll_list.alloc env f s h p type fresh = .ok (s1, d) →
      (∀ modname, wcsrchr_succ (alloc_name (env.GetModuleFileNameW h)) = some modname →
        alloc_find env.towlower f s type (alloc_name (env.GetModuleFileNameW h)) modname
          = .ok none) →
      (s1.mem d).count = 0 ∧ d = fresh) ∧
    (∀ s, dll_list.reachable env s →
      ∃ L, s.is_chain L ∧ ∀ x, x ∈ L → (s.mem x).count = 0 ∧ 0 ≤ (s.mem x).count) := by
  constructor
  · intro f s h p type fresh s1 d hok hnone
    obtain ⟨modname, hmod, hcase⟩ := alloc_cases env f s h p type fresh s1 d hok
    rcases hcase with ⟨hfind, _⟩ | ⟨_, hd, hs1⟩
    · rw [hnone modname hmod] at hfind
      simp at hfind
    · subst hd hs1
      refine ⟨?_, rfl⟩
      have hp : ((alloc_inserted env s d h p type
          (alloc_name (env.GetModuleFileNameW h)) modname).mem d).payload
          = (alloc_record env s d h p type
            (alloc_name (env.GetModuleFileNameW h)) modname).payload := by
        unfold alloc_inserted
        split
        · show (((s.store d _).append d).mem d).payload = _
          rw [append_payload, store_mem_same]
        · rw [append_payload, store_mem_same]
      rw [payload_count hp]
      rfl
  · intro s hs
    obtain ⟨L, hreg, hc⟩ := reachable_count env s hs
    exact ⟨L, hreg.1, fun x hx => ⟨hc x hx, by rw [hc x hx]⟩⟩

/-- C17 (witness): in the registry reached by registering the modules `A` and
`B`, both records have the count `0`. -/
theorem record_count_zero_two :
    ∃ L, example_two.is_chain L ∧
      ∀ x, x ∈ L → (example_two.mem x).count = 0 ∧ 0 ≤ (example_two.mem x).count :=
  (record_count_zero example_env_no_imports).2 example_two example_two_reachable

theorem loader_calls_append (a b : List replay_event) :
    loader_calls (a ++ b) = loader_calls a ++ loader_calls b := by
  induction a with
  | nil => rfl
  | cons e a ih => cases e <;> simp [loader_calls, ih]

theorem loader_calls_no_step3 (a : List replay_event)
    (h : ∀ e ∈ a, replay_event.is_step3 e = false) : loader_calls a = [] := by
  induction a with
  | nil => rfl
  | cons e a ih =>
    have he := h e (List.mem_cons_self _ _)
    have ih2 := ih (fun x hx => h x (List.mem_cons_of_mem _ hx))
    cases e <;> simp_all [loader_calls, replay_event.is_step3]

theorem loader_calls_quiet (l : List replay_event) {ext : List replay_event}
    (h : quiet ext) : loader_calls (l ++ ext) = loader_calls l := by
  rw [loader_calls_append, loader_calls_no_step3 ext (quiet_step3 h), List.append_nil]

theorem fix_reference_count_loader (H : Host) (d : dll) : ∀ (n : Nat) (log : List replay_event),
    loader_calls (fix_reference_count H d n log) = loader_calls log ++ List.replicate n d := by
  intro n
  induction n with
  | zero => intro log; simp [fix_reference_count]
  | succ n ih =>
    intro log
    rw [fix_reference_count, ih, loader_calls_append]
    simp [loader_calls, List.replicate_succ]

theorem load_after_fork_step3_loader (H : Host) : ∀ (ds : List dll) (log : List replay_event),
    (load_after_fork_step3 H log ds).2 = none →
      loader_calls (load_after_fork_step3 H log ds).1 =
        loader_calls log ++ (ds.map (fun d => List.replicate (loader_call_count d) d)).flatten := by
  intro ds
  induction ds with
  | nil => intro log _; simp [load_after_fork_step3]
  | cons d rest ih =>
    intro log h
    rw [load_after_fork_step3] at h ⊢
    by_cases hpb : d.handle = d.preferred_base
    · simp only [hpb, if_true] at h ⊢
      cases hv : H.VirtualFree log d.preferred_base
      · rw [hv] at h; simp at h
      · rw [hv] at h
        simp only [Bool.true_eq_false, if_false] at h ⊢
        by_cases h0 : H.LoadLibraryW (log ++ [replay_event.release_preferred d true]) d.name = 0
        · rw [if_pos h0] at h; simp at h
        · rw [if_neg h0] at h ⊢
          by_cases hh : H.LoadLibraryW (log ++ [replay_event.release_preferred d true]) d.name
              = d.preferred_base
          · rw [if_neg (not_not.mpr hh)] at h ⊢
            rw [ih _ h, fix_reference_count_loader, loader_calls_append, loader_calls_append]
            have e1 : List.replicate (loader_call_count d) d
                = d :: List.replicate (d.count - 1).toNat d := by
              unfold loader_call_count
              rw [Nat.add_comm, List.replicate_succ]
            rw [List.map_cons, List.flatten_cons, e1]
            simp only [loader_calls, List.append_nil, List.append_assoc, List.cons_append,
              List.nil_append]
          · rw [if_pos hh] at h; simp at h
    · simp only [hpb, if_false] at h ⊢
      cases hv : H.FreeLibrary log d.handle
      · rw [hv] at h; simp at h
      · rw [hv] at h
        simp only [Bool.true_eq_false, if_false] at h ⊢
        by_cases h0 : H.LoadLibraryW (log ++ [replay_event.unload_interim d true]) d.name = 0
        · rw [if_pos h0] at h; simp at h
        · rw [if_neg h0] at h ⊢
          by_cases hh : H.LoadLibraryW (log ++ [replay_event.unload_interim d true]) d.name
              = d.handle
          · rw [if_neg (not_not.mpr hh)] at h ⊢
            rw [ih _ h, fix_reference_count_loader, loader_calls_append, loader_calls_append]
            have e1 : List.replicate (loader_call_count d) d
                = d :: List.replicate (d.count - 1).toNat d := by
              unfold loader_call_count
              rw [Nat.add_comm, List.replicate_succ]
            rw [List.map_cons, List.flatten_cons, e1]
            simp only [loader_calls, List.append_nil, List.append_assoc, List.cons_append,
              List.nil_append]
          · rw [if_pos hh] at h; simp at h

/-- When the replay ends without a fault, the calls of the normal host loader
it made after the log it started with are, for every record in order, the
realizing load and the loads that fix the reference count. -/
theorem load_after_fork_impl_loader (H : Host) (all : List dll) :
    ∀ fuel log ds r, (load_after_fork_impl H all fuel log ds r).2 = none →
      loader_calls (load_after_fork_impl H all fuel log ds r).1 =
        loader_calls log ++ (all.map (fun d => List.replicate (loader_call_count d) d)).flatten := by
  apply load_after_fork_impl_induct H all
    (fun _ log _ _ res => res.2 = none →
      loader_calls res.1 =
        loader_calls log ++ (all.map (fun d => List.replicate (loader_call_count d) d)).flatten)
  · intro log ds r h; simp at h
  · intro f log r h
    exact load_after_fork_step3_loader H all log h
  · intro f log d rest r res _ ih h; exact ih h
  · intro f log d rest _ _ h; simp at h
  · intro f log d rest r _ _ _ h; simp at h
  · intro f log d rest r res _ _ _ _ ih h
    rw [ih h]
    obtain ⟨q0, h0, -, k0⟩ := step2_entry_log H log d r
    unfold step2_mapped
    rw [h0, loader_calls_append, loader_calls_quiet log k0]
    simp [loader_calls]
  · intro f log d rest r log4 e _ _ _ _ _ h; simp at h
  · intro f log d rest r log4 _ _ _ _ _ h; simp at h
  · intro f log d rest r log4 reservation _ _ _ _ _ _ _ h; simp at h
  · intro f log d rest r log4 reservation log5 e _ _ _ _ _ _ _ _ h; simp at h
  · intro f log d rest r log4 reservation log5 _ _ _ _ hres _ _ ih _
    obtain ⟨q0, q, h4, k0, k, -⟩ := step2_blocked_log H log log4 d r _ hres
    rw [(release_at_log H log5 reservation).1, loader_calls_append, ih rfl, h4,
      loader_calls_quiet _ k, loader_calls_append, loader_calls_quiet log k0]
    simp [loader_calls]

theorem count_flatten_replicate (all : List dll) (d : dll) (n : dll → Nat) :
    ((all.map (fun x => List.replicate (n x) x)).flatten).count d = all.count d * n d := by
  induction all with
  | nil => simp
  | cons a rest ih =>
    simp only [List.map_cons, List.flatten_cons, List.count_append, ih, List.count_cons]
    by_cases ha : a = d
    · subst ha
      simp [List.count_replicate_self, Nat.add_mul, Nat.add_comm]
    · have : (a == d) = false := by simpa using ha
      simp [this, List.count_replicate, ha]

/-- C16 (counterexample): a `DLL_LOAD` record with the reference count `0`,
the count `dll_list::alloc` gives a record.  The replay returns normally and
Step 3 has called the normal host loader for it once, not `0` times. -/
theorem loader_calls_counterexample :
    (load_after_fork (example_host [example_loaded_uncounted] 0) 3
      [example_loaded_uncounted]).2 = none ∧
    loader_calls (load_after_fork (example_host [example_loaded_uncounted] 0) 3
      [example_loaded_uncounted]).1 = [example_loaded_uncounted] ∧
    example_loaded_uncounted.count = 0 := by
  decide

/-- C16: in every replay that returns normally, Step 3 of
`dll_list::load_after_fork_impl` has called the normal host loader
(`LoadLibraryW`) for each record of the iteration one time for the realizing
load plus `count - 1` further times when `count` is at least `1`, whatever
Step 2 did; so exactly `count` times for every record whose reference count is
at least `1`, and exactly once for a record whose count is `0` or less. -/
theorem loader_calls_match_count (H : Host) (fuel : Nat) (all : List dll)
    (h : (load_after_fork H fuel all).2 = none) :
    loader_calls (load_after_fork H fuel all).1 =
      (all.map (fun d => List.replicate (loader_call_count d) d)).flatten ∧
    (all.Nodup → ∀ d, d ∈ all →
      (1 ≤ d.count → ((loader_calls (load_after_fork H fuel all).1).count d : Int) = d.count) ∧
      (d.count ≤ 0 → (loader_calls (load_after_fork H fuel all).1).count d = 1)) := by
  have h1 := load_after_fork_impl_loader H all fuel [] all 0 h
  simp only [loader_calls, List.nil_append] at h1
  refine ⟨h1, ?_⟩
  intro hnd d hd
  have hc : (loader_calls (load_after_fork H fuel all).1).count d = loader_call_count d := by
    show (loader_calls (load_after_fork_impl H all fuel [] all 0).1).count d = _
    rw [h1, count_flatten_replicate, List.count_eq_one_of_mem hnd hd, Nat.one_mul]
  rw [hc]
  unfold loader_call_count
  constructor
  · intro hge
    omega
  · intro hle
    omega

/-- C16 (witness): `A` was opened twice and is away from its preferred base,
`C` was opened once; after a retry in Step 2 the replay returns, and Step 3 has
called the normal host loader twice for `A` and once for `C`. -/
theorem loader_calls_match_count_two :
    (load_after_fork (example_host [example_loaded_a, example_loaded_c] 1) 12
      [example_loaded_a, example_loaded_c]).2 = none ∧
    loader_calls (load_after_fork (example_host [example_loaded_a, example_loaded_c] 1) 12
      [example_loaded_a, example_loaded_c]).1 =
      [example_loaded_a, example_loaded_a, example_loaded_c] :=
  ⟨by decide,
    (loader_calls_match_count (example_host [example_loaded_a, example_loaded_c] 1) 12
      [example_loaded_a, example_loaded_c] (by decide)).1⟩

/-- The walk over the `prev` pointers from the last record of a chain calls
`run_dtors` on the records in reverse order. -/
theorem dtors_loop_prevs (s : dll_list) : ∀ (L : List Nat),
    (∀ P d Q, L = P ++ d :: Q →
      (s.mem d).prev = some ((START :: P).getLast (List.cons_ne_nil _ _))) →
    START ∉ L → ∀ fuel, L.length < fuel →
    dtors_loop fuel s (some ((START :: L).getLast (List.cons_ne_nil _ _))) = .ok L.reverse := by
  intro L
  induction L using List.reverseRecOn with
  | nil =>
    intro _ _ fuel hf
    obtain ⟨f, rfl⟩ : ∃ g, fuel = g + 1 := ⟨fuel - 1, by simp at hf; omega⟩
    simp [dtors_loop]
  | append_singleton P x ih =>
    intro hprev hS fuel hf
    obtain ⟨f, rfl⟩ : ∃ g, fuel = g + 1 := ⟨fuel - 1, by omega⟩
    have hx : x ≠ START := fun h => hS (by rw [← h]; simp)
    have hlast : (START :: (P ++ [x])).getLast (List.cons_ne_nil _ _) = x := by
      simp
    rw [hlast, dtors_loop]
    simp only [if_neg hx]
    rw [hprev P x [] rfl]
    rw [ih (fun P1 d Q h => by
        apply hprev P1 d (Q ++ [x])
        rw [h]; simp)
      (fun h => hS (List.mem_append_left _ h)) f (by simp at hf; omega)]
    simp

theorem dtors_loop_chain (s : dll_list) (L : List Nat) (hch : s.is_chain L) (hne : L ≠ [])
    (fuel : Nat) (hf : L.length < fuel) : dtors_loop fuel s s.tail = .ok L.reverse := by
  obtain ⟨hlinks, hS, hnd, htail⟩ := hch
  rw [if_neg hne] at htail
  have hprev : ∀ P d Q, L = P ++ d :: Q →
      (s.mem d).prev = some ((START :: P).getLast (List.cons_ne_nil _ _)) := by
    intro P d Q h
    subst h
    exact (links_prev_next s d Q P START hlinks).1
  have := dtors_loop_prevs s L hprev hS fuel hf
  have hl : (START :: L).getLast (List.cons_ne_nil _ _) = L.getLast hne := by
    rw [List.getLast_cons hne]
  rw [hl] at this
  rw [htail, List.getLast?_eq_getLast _ hne]
  exact this

theorem chain_next_ne_none (s : dll_list) (L : List Nat) (hch : s.is_chain L) :
    (s.mem START).next ≠ none ↔ L ≠ [] := by
  obtain ⟨hlinks, _⟩ := hch
  cases L with
  | nil => simp [links] at hlinks; simp [hlinks]
  | cons x xs => simp [links] at hlinks; simp [hlinks.1]

/-- What `dll_global_dtors` does on a well-formed chain when `in_forkee` is
false: it clears the flag, and it runs the pass, over the records of the chain
in reverse order, exactly when the flag was set and the chain has a record. -/
theorem dll_global_dtors_chain (g : Process) (L : List Nat) (hch : g.dlls.is_chain L)
    (fuel : Nat) (hf : L.length < fuel) :
    dll_global_dtors fuel false g =
      .ok ({ g with dll_global_dtors_recorded := false },
        if g.dll_global_dtors_recorded = true ∧ L ≠ [] then some L.reverse else none) := by
  unfold dll_global_dtors
  simp only [Bool.false_eq_true, if_false]
  by_cases hc : g.dll_global_dtors_recorded = true ∧ L ≠ []
  · rw [if_pos ⟨hc.1, (chain_next_ne_none g.dlls L hch).mpr hc.2⟩, if_pos hc,
      dtors_loop_chain g.dlls L hch hc.2 fuel hf]
  · rw [if_neg hc, if_neg]
    intro h
    exact hc ⟨h.1, (chain_next_ne_none g.dlls L hch).mp h.2⟩

/-- The records of a registry reached by `alloc` and `detach` alone stand in
the chain in the order in which they were registered. -/
theorem registered_registry (env : Env) (s : dll_list) (R : List Nat)
    (h : dll_list.registered env s R) : s.is_registry R := by
  induction h with
  | start => decide
  | alloc s s1 R f h p type fresh d _ hS hfresh hok ih =>
    obtain ⟨modname, hmod, hcase⟩ := alloc_cases env f s h p type fresh s1 d hok
    rcases hcase with ⟨hfind, _, _, hs1⟩ | ⟨hfind, hd, hs1⟩
    · subst hs1
      have hdR : d ∈ R := by
        have := alloc_find_chain env.towlower s R type _ modname
          (links_nexts s R START ih.1.1) f (some d) hfind
        exact chain_alloc_find_mem _ _ _ _ _ _ _ this.symm
      rw [if_pos hdR]
      exact store_p_registry s R ih d _
    · subst hd hs1
      rw [if_neg hfresh]
      exact (alloc_inserted_registry env s R ih d h p type _ modname hfresh hS).1
  | detach s s1 R f myself in_forkee query _ hok ih =>
    obtain ⟨L1, h1, _, _, h4⟩ := detach_registry_erase s R ih f myself in_forkee query s1 hok
    rw [← h4]
    exact h1

theorem example_three_registered_order :
    dll_list.registered example_env_no_imports example_three_registered [1, 2, 3] := by
  have h0 : dll_list.registered example_env_no_imports dlls [] := dll_list.registered.start
  have h1 : dll_list.registered example_env_no_imports example_one [1] :=
    dll_list.registered.alloc dlls example_one [] 1 65 example_meta dll_type.DLL_LINK 1 1 h0
      (by decide) (by decide) rfl
  have h2 : dll_list.registered example_env_no_imports example_two [1, 2] :=
    dll_list.registered.alloc example_one example_two [1] 2 66 example_meta
      dll_type.DLL_LINK 2 2 h1 (by decide) (by decide) rfl
  exact dll_list.registered.alloc example_two example_three_registered [1, 2] 3 67
    example_meta dll_type.DLL_LINK 3 3 h2 (by decide) (by decide) rfl

/-- C12 (counterexample): the modules `A`, `B`, `C` register in this order as
`DLL_LINK` records 1, 2, 3 and none imports another; `dll_list::topsort` then
leaves the chain 3, 2, 1, and the destructor pass of `dll_global_dtors` calls
`run_dtors` on 1, 2, 3: the registration order, not its reverse. -/
theorem dtors_order_counterexample :
    dll_list.registered example_env_no_imports example_three_registered [1, 2, 3] ∧
    ∃ s1, (∃ f, dll_list.topsort example_env_no_imports f example_three_registered = .ok s1) ∧
      dll_global_dtors 4 false ⟨s1, true⟩ = .ok (⟨s1, false⟩, some [1, 2, 3]) ∧
      [1, 2, 3] ≠ [1, 2, 3].reverse := by
  refine ⟨example_three_registered_order, ?_⟩
  have hreg : example_three_registered.is_registry [1, 2, 3] := by decide
  obtain ⟨⟨f0, s1, hf⟩, h2⟩ := topsort_on_registry example_env_no_imports
    example_three_registered [1, 2, 3] hreg
  refine ⟨s1, ⟨f0, hf f0 (Nat.le_refl _)⟩, ?_, by decide⟩
  have hch := (h2 f0 s1 (hf f0 (Nat.le_refl _))).1
  have hs : sorted_chain (chain_deps example_env_no_imports example_three_registered [1, 2, 3])
      [1, 2, 3] = [3, 2, 1] := by decide
  rw [hs] at hch
  have := dll_global_dtors_chain ⟨s1, true⟩ [3, 2, 1] hch 4 (by decide)
  rw [this]
  rfl

/-- C12: whenever `dll_global_dtors` runs its destructor pass (`in_forkee`
false, the flag set, a record in the chain), it calls `run_dtors` on every
record of the chain exactly once, in the exact reverse of the chain order, in
every registry reached by `alloc`, `detach` and `topsort`; and in a registry
reached by `alloc` and `detach` alone the chain order is the order in which the
surviving records were registered, so that the pass runs in the exact reverse
of the registration order. -/
theorem dtors_reverse_order (env : Env) :
    (∀ s, dll_list.reachable env s → ∃ L, s.is_chain L ∧ L.Nodup ∧
      (L ≠ [] → ∀ fuel, L.length < fuel →
        dll_global_dtors fuel false ⟨s, true⟩ = .ok (⟨s, false⟩, some L.reverse))) ∧
    (∀ s R, dll_list.registered env s R → R.Nodup ∧
      (R ≠ [] → ∀ fuel, R.length < fuel →
        dll_global_dtors fuel false ⟨s, true⟩ = .ok (⟨s, false⟩, some R.reverse))) := by
  have key : ∀ (s : dll_list) (L : List Nat), s.is_chain L → L ≠ [] → ∀ fuel, L.length < fuel →
      dll_global_dtors fuel false ⟨s, true⟩ = .ok (⟨s, false⟩, some L.reverse) := by
    intro s L hch hne fuel hf
    have := dll_global_dtors_chain ⟨s, true⟩ L hch fuel hf
    rw [this, if_pos ⟨rfl, hne⟩]
  constructor
  · intro s hs
    obtain ⟨L, hreg, _⟩ := reachable_registry env s hs
    exact ⟨L, hreg.1, hreg.1.2.2.1, key s L hreg.1⟩
  · intro s R hR
    have hreg := registered_registry env s R hR
    exact ⟨hreg.1.2.2.1, key s R hreg.1⟩

/-- C12 (witness): after `A`, `B`, `C` registered in this order, the pass calls
`run_dtors` on 3, 2, 1. -/
theorem dtors_reverse_order_three :
    dll_global_dtors 4 false ⟨example_three_registered, true⟩
      = .ok (⟨example_three_registered, false⟩, some [3, 2, 1]) :=
  ((dtors_reverse_order example_env_no_imports).2 example_three_registered [1, 2, 3]
    example_three_registered_order).2 (by decide) 4 (by decide)

/-- In every state reached by insert, detach, `dll_list::init` and
`dll_global_dtors` the registry is at rest. -/
theorem process_reachable_registry (env : Env) (R : Runtime) (g : Process)
    (h : process_reachable env R g) : ∃ L, g.dlls.is_registry L := by
  induction h with
  | start => exact ⟨[], by decide⟩
  | insert g s1 f h p type fresh d _ hS hfresh hok ih =>
    obtain ⟨L, hreg⟩ := ih
    obtain ⟨modname, hmod, hcase⟩ := alloc_cases env f g.dlls h p type fresh s1 d hok
    rcases hcase with ⟨_, _, _, hs1⟩ | ⟨_, hd, hs1⟩
    · subst hs1
      exact ⟨L, store_p_registry g.dlls L hreg d _⟩
    · subst hd hs1
      exact ⟨L ++ [d], (alloc_inserted_registry env g.dlls L hreg d h p type _ modname
        (hfresh L hreg.1) hS).1⟩
  | detach g s1 f myself in_forkee query _ hok ih =>
    obtain ⟨L, hreg⟩ := ih
    obtain ⟨L1, h1, _⟩ := detach_registry g.dlls L hreg f myself in_forkee query s1 hok
    exact ⟨L1, h1⟩
  | init g g1 f in_forkee ev _ hok ih =>
    obtain ⟨L, hreg⟩ := ih
    unfold dll_list.init at hok
    simp only at hok
    split at hok
    · simp at hok
    · simp only [Except.ok.injEq, Prod.mk.injEq] at hok
      rw [← hok.1]
      exact ⟨L, hreg⟩
  | dtors g g1 f r _ hok ih =>
    obtain ⟨L, hreg⟩ := ih
    unfold dll_global_dtors at hok
    simp only [Bool.false_eq_true, if_false] at hok
    split at hok
    · split at hok
      · simp at hok
      · simp only [Except.ok.injEq, Prod.mk.injEq] at hok
        rw [← hok.1]
        exact ⟨L, hreg⟩
    · simp only [Except.ok.injEq, Prod.mk.injEq] at hok
      rw [← hok.1]
      exact ⟨L, hreg⟩

theorem example_one_process_reachable :
    process_reachable example_env_no_imports example_runtime ⟨example_one, false⟩ :=
  process_reachable.insert ⟨dlls, false⟩ example_one 1 65 example_meta dll_type.DLL_LINK 1 1
    process_reachable.start (by decide)
    (fun L hL => by
      have : L = [] := is_chain_unique dlls L [] hL (by decide)
      rw [this]; simp)
    rfl

/-- C19 (counterexample): the module `A` has registered and `dll_list::init`
has not run.  The state is reachable and the registry is not empty (its chain
is the record 1), yet `dll_global_dtors` does not run the destructor pass; and
after `dll_list::init`, a first `dll_global_dtors` runs the pass and a second
one, on the same non-empty registry, does not. -/
theorem dtors_flag_counterexample :
    process_reachable example_env_no_imports example_runtime ⟨example_one, false⟩ ∧
    example_one.is_chain [1] ∧
    dll_global_dtors 2 false ⟨example_one, false⟩ = .ok (⟨example_one, false⟩, none) ∧
    dll_list.init example_runtime 2 false ⟨example_one, false⟩
      = .ok (⟨example_one, true⟩, []) ∧
    dll_global_dtors 2 false ⟨example_one, true⟩ = .ok (⟨example_one, false⟩, some [1]) := by
  refine ⟨example_one_process_reachable, by decide, ?_, rfl, ?_⟩
  · rw [dll_global_dtors_chain ⟨example_one, false⟩ [1] (by decide) 2 (by decide)]
    rfl
  · rw [dll_global_dtors_chain ⟨example_one, true⟩ [1] (by decide) 2 (by decide)]
    rfl

/-- C19: the flag `dll_global_dtors_recorded` is not redundant with "the
registry is non-empty".  In every state reachable by insert, detach,
`dll_list::init` and `dll_global_dtors` with `in_forkee` false, the registry is
a well-formed chain, and a call to `dll_global_dtors` (with fuel above the
length of the chain) returns, clears the flag, and runs the destructor pass if
and only if the flag was set and the registry is non-empty; so the pass runs
only on a non-empty registry, and a non-empty registry whose flag is clear gets
no pass. -/
theorem dtors_pass_iff_flag (env : Env) (R : Runtime) (g : Process)
    (h : process_reachable env R g) :
    ∃ L, g.dlls.is_chain L ∧ ∀ fuel, L.length < fuel →
      ∃ r, dll_global_dtors fuel false g
          = .ok ({ g with dll_global_dtors_recorded := false }, r) ∧
        (r ≠ none ↔ g.dll_global_dtors_recorded = true ∧ L ≠ []) ∧
        (r ≠ none → r = some L.reverse) := by
  obtain ⟨L, hreg⟩ := process_reachable_registry env R g h
  refine ⟨L, hreg.1, ?_⟩
  intro fuel hf
  refine ⟨_, dll_global_dtors_chain g L hreg.1 fuel hf, ?_, ?_⟩
  · by_cases hc : g.dll_global_dtors_recorded = true ∧ L ≠ []
    · rw [if_pos hc]; simp [hc]
    · rw [if_neg hc]; simp [hc]
  · intro hr
    by_cases hc : g.dll_global_dtors_recorded = true ∧ L ≠ []
    · rw [if_pos hc]
    · rw [if_neg hc] at hr; exact absurd rfl hr

/-- C19 (witness): in the reachable state in which `A` has registered and
`dll_list::init` has not run, `dll_global_dtors` returns without the pass, the
chain being the record 1. -/
theorem dtors_pass_iff_flag_one :
    ∃ L, example_one.is_chain L ∧ ∀ fuel, L.length < fuel →
      ∃ r, dll_global_dtors fuel false ⟨example_one, false⟩
          = .ok ({ (⟨example_one, false⟩ : Process) with dll_global_dtors_recorded := false }, r) ∧
        (r ≠ none ↔ (⟨example_one, false⟩ : Process).dll_global_dtors_recorded = true ∧ L ≠ []) ∧
        (r ≠ none → r = some L.reverse) :=
  dtors_pass_iff_flag example_env_no_imports example_runtime ⟨example_one, false⟩
    example_one_process_reachable

theorem run_ctors_enough_fuel (arrays : Nat → Nat → Nat) (p : per_module) (fuel : Nat)
    (h : p.ctors = 0 ∨ ∃ n, 1 ≤ n ∧ n ≤ fuel ∧ (∀ i, 1 ≤ i → i < n → arrays p.ctors i ≠ 0) ∧
      arrays p.ctors n = 0) :
    ∃ cs, p.run_ctors arrays fuel = .ok cs := by
  unfold per_module.run_ctors
  by_cases hc : p.ctors = 0
  · rw [if_neg (not_not.mpr hc)]
    exact ⟨[], rfl⟩
  · rw [if_pos hc]
    rcases h with h | ⟨n, hn, hf, hnz, hz⟩
    · exact absurd h hc
    · rw [run_ctors_scan_spec (arrays p.ctors) n hz (n - 1) 1 fuel (by omega)
        (fun j h1 h2 => hnz j h1 h2) (by omega)]
      exact ⟨_, rfl⟩

theorem dll_init_enough_fuel (R : Runtime) (fuel : Nat) (in_forkee : Bool) (d : dll)
    (h : d.p.ctors = 0 ∨ ∃ n, 1 ≤ n ∧ n ≤ fuel ∧
      (∀ i, 1 ≤ i → i < n → R.arrays d.p.ctors i ≠ 0) ∧ R.arrays d.p.ctors n = 0) :
    ∃ r, dll.init R fuel in_forkee d = .ok r := by
  unfold dll.init
  split
  · obtain ⟨cs, hcs⟩ := run_ctors_enough_fuel R.arrays d.p fuel h
    rw [hcs]
    simp only
    split
    · exact ⟨_, rfl⟩
    · exact ⟨_, rfl⟩
  · exact ⟨_, rfl⟩

theorem alloc_enough_fuel (env : Env) (s : dll_list) (L : List Nat) (hn : nexts s START L)
    (fuel : Nat) (hf : L.length < fuel) (h : Nat) (p : per_process) (type : dll_type)
    (fresh : Nat) : dll_list.alloc env fuel s h p type fresh ≠ .error .out_of_fuel := by
  unfold dll_list.alloc
  simp only
  split
  · simp
  · rename_i modname _
    have hfind : alloc_find env.towlower fuel s type (alloc_name (env.GetModuleFileNameW h))
        modname = .ok (chain_alloc_find env.towlower s L type
          (alloc_name (env.GetModuleFileNameW h)) modname) := by
      unfold alloc_find chain_alloc_find
      split
      · exact find_by_modname_nexts _ s _ L START hn fuel hf
      · exact operator_index_nexts _ s _ L START hn fuel hf
    rw [hfind]
    split
    · rename_i heq; simp at heq
    · split
      · simp [MSG_DIFFERENT_ADDRESS]
      · split
        · simp [MSG_DIFFERENT_DLL]
        · simp
    · simp

theorem payload_p {a b : dll} (h : a.payload = b.payload) : a.p = b.p := by
  have := congrArg dll.p h
  simpa [dll.payload] using this

theorem alloc_ok_meta (env : Env) (f : Nat) (s : dll_list) (h : Nat) (p : per_process)
    (type : dll_type) (fresh : Nat) (s1 : dll_list) (d : Nat)
    (hok : dll_list.alloc env f s h p type fresh = .ok (s1, d)) :
    (s1.mem d).p = per_module.assign p := by
  obtain ⟨modname, _, hcase⟩ := alloc_cases env f s h p type fresh s1 d hok
  rcases hcase with ⟨_, _, _, hs1⟩ | ⟨_, hd, hs1⟩
  · subst hs1
    rw [store_mem_same]
  · subst hd hs1
    have hp : ((alloc_inserted env s d h p type
        (alloc_name (env.GetModuleFileNameW h)) modname).mem d).payload
        = (alloc_record env s d h p type
          (alloc_name (env.GetModuleFileNameW h)) modname).payload := by
      unfold alloc_inserted
      split
      · show (((s.store d _).append d).mem d).payload = _
        rw [append_payload, store_mem_same]
      · rw [append_payload, store_mem_same]
    rw [payload_p hp]
    rfl

/-- C18: `dll_dllcrt0` returns the sentinel `1`, with the registry untouched
and no call into the module, when `dynamically_loaded` is set.  Otherwise, when
it returns, it has registered the module with `dll_list::alloc`; for a module
classified `DLL_LINK` (initialization not finished and not in
`load_after_fork`) it made no call into the module and returns the record,
never `-1`; for a module classified `DLL_LOAD` it set `reload_on_fork`, ran
`dll::init` on the record, and returns `-1` exactly when `init` returned `0`,
the record otherwise. -/
theorem dll_dllcrt0_returns (env : Env) (R : Runtime) (fuel : Nat) (fl : Globals)
    (s : dll_list) (h : Nat) (p : Option per_process) (fresh : Nat) :
    (fl.dynamically_loaded = true →
      dll_dllcrt0 env R fuel fl s h p fresh = .ok (s, dllcrt0_result.one, [])) ∧
    (fl.dynamically_loaded = false → ∀ s1 res ev,
      dll_dllcrt0 env R fuel fl s h p fresh = .ok (s1, res, ev) →
      (dllcrt0_linked fl = true →
        ∃ d, dll_list.alloc env fuel s h (dllcrt0_meta R p) dll_type.DLL_LINK fresh = .ok (s1, d) ∧
          res = dllcrt0_result.record d ∧ ev = [] ∧ res ≠ dllcrt0_result.minus_one) ∧
      (dllcrt0_linked fl = false →
        ∃ d ret, dll_list.alloc env fuel { s with reload_on_fork := 1 } h (dllcrt0_meta R p)
            dll_type.DLL_LOAD fresh = .ok (s1, d) ∧
          dll.init R fuel fl.in_forkee (s1.mem d) = .ok (ret, ev) ∧
          (res = dllcrt0_result.minus_one ↔ ret = 0) ∧
          (ret ≠ 0 → res = dllcrt0_result.record d))) ∧
    (∀ L, s.is_chain L → L.length < fuel →
      ((dllcrt0_meta R p).ctors = 0 ∨ ∃ n, 1 ≤ n ∧ n ≤ fuel ∧
        (∀ i, 1 ≤ i → i < n → R.arrays (dllcrt0_meta R p).ctors i ≠ 0) ∧
        R.arrays (dllcrt0_meta R p).ctors n = 0) →
      dll_dllcrt0 env R fuel fl s h p fresh ≠ .error .out_of_fuel) := by
  refine ⟨?_, ?_, ?_⟩
  · intro hd
    unfold dll_dllcrt0
    rw [if_pos hd]
  rotate_left
  · intro L hch hf hct
    unfold dll_dllcrt0
    split
    · simp
    · unfold dll_dllcrt0_1
      simp only
      split
      · simp [MSG_SANITY]
      · have hn : nexts s START L := links_nexts s L START hch.1
        have hn1 : nexts { s with reload_on_fork := 1 } START L :=
          nexts_congr s _ L START (fun _ _ => rfl) hn
        have hn0 : nexts (if dllcrt0_linked fl = true then s
            else { s with reload_on_fork := 1 }) START L := by
          split
          · exact hn
          · exact hn1
        have ha := alloc_enough_fuel env _ L hn0 fuel hf h (dllcrt0_meta R p)
          (if dllcrt0_linked fl = true then dll_type.DLL_LINK else dll_type.DLL_LOAD) fresh
        split
        · rename_i e heq
          intro hc
          apply ha
          rw [heq]
          injection hc with hc
          rw [hc]
        · rename_i s1 d heq
          split
          · simp
          · have hm := alloc_ok_meta env fuel _ h (dllcrt0_meta R p) _ fresh s1 d heq
            obtain ⟨r, hr⟩ := dll_init_enough_fuel R fuel fl.in_forkee (s1.mem d)
              (by rw [hm]; exact hct)
            rw [hr]
            simp only
            split <;> simp
  · intro hd s1 res ev hok
    unfold dll_dllcrt0 at hok
    rw [if_neg (by rw [hd]; decide)] at hok
    unfold dll_dllcrt0_1 at hok
    simp only at hok
    split at hok
    · simp at hok
    · constructor
      · intro hl
        rw [hl] at hok
        simp only [if_true] at hok
        split at hok
        · simp at hok
        · rename_i s2 d halloc
          simp only [Except.ok.injEq, Prod.mk.injEq] at hok
          obtain ⟨e1, e2, e3⟩ := hok
          subst e1
          refine ⟨d, halloc, e2.symm, e3.symm, ?_⟩
          rw [← e2]
          intro hh
          cases hh
      · intro hl
        rw [hl] at hok
        simp only [Bool.false_eq_true, if_false] at hok
        split at hok
        · simp at hok
        · rename_i s2 d halloc
          split at hok
          · simp at hok
          · rename_i ret ev2 hinit
            by_cases hret : ret = 0
            · rw [if_pos hret] at hok
              simp only [Except.ok.injEq, Prod.mk.injEq] at hok
              obtain ⟨e1, e2, e3⟩ := hok
              subst e1 e3
              refine ⟨d, ret, halloc, hinit, ?_, fun hne => absurd hret hne⟩
              rw [← e2]
              simp [hret]
            · rw [if_neg hret] at hok
              simp only [Except.ok.injEq, Prod.mk.injEq] at hok
              obtain ⟨e1, e2, e3⟩ := hok
              subst e1 e3
              refine ⟨d, ret, halloc, hinit, ?_, fun _ => e2.symm⟩
              rw [← e2]
              simp [hret]

/-- C18 (witness): after initialization a module whose entry function returns
`0` is opened; it is classified `DLL_LOAD`, registered at the address 1,
`dll::init` calls the entry function, and the stub returns `-1`. -/
theorem dll_dllcrt0_returns_failure :
    dll_dllcrt0 example_env_no_imports example_runtime 2
        ⟨false, true, false, false⟩ dlls 65 (some example_meta_main) 1
      = .ok (alloc_inserted example_env_no_imports { dlls with reload_on_fork := 1 } 1 65
          example_meta_main dll_type.DLL_LOAD [67, 58, 92, 65] [65],
        dllcrt0_result.minus_one, [init_event.main 100]) ∧
    ∃ d ret, dll_list.alloc example_env_no_imports 2 { dlls with reload_on_fork := 1 } 65
          (dllcrt0_meta example_runtime (some example_meta_main)) dll_type.DLL_LOAD 1
        = .ok (alloc_inserted example_env_no_imports { dlls with reload_on_fork := 1 } 1 65
          example_meta_main dll_type.DLL_LOAD [67, 58, 92, 65] [65], d) ∧
      dll.init example_runtime 2 false
          ((alloc_inserted example_env_no_imports { dlls with reload_on_fork := 1 } 1 65
            example_meta_main dll_type.DLL_LOAD [67, 58, 92, 65] [65]).mem d)
        = .ok (ret, [init_event.main 100]) ∧
      (dllcrt0_result.minus_one = dllcrt0_result.minus_one ↔ ret = 0) ∧
      (ret ≠ 0 → dllcrt0_result.minus_one = dllcrt0_result.record d) :=
  ⟨rfl,
    (((dll_dllcrt0_returns example_env_no_imports example_runtime 2
      ⟨false, true, false, false⟩ dlls 65 (some example_meta_main) 1).2.1 rfl
      _ _ _ rfl).2 rfl)⟩

theorem example_one_loaded_reachable :
    dll_list.reachable example_env_no_imports example_one_loaded :=
  dll_list.reachable.alloc dlls example_one_loaded 1 65 example_meta dll_type.DLL_LOAD 1 1
    dll_list.reachable.start (by decide)
    (fun L hL => by
      have : L = [] := is_chain_unique dlls L [] hL (by decide)
      rw [this]; simp)
    rfl

/-- C22: in every registry reachable from the initial one by `alloc` (which
covers the registration of a record that is already present), `detach` and
`topsort`, `loaded_dlls` is the number of `DLL_LOAD` records of the chain; hence
the test `loaded_dlls > 0` with which `topsort` allocates its scratch list
`dlopen_deps` succeeds whenever the chain holds a `DLL_LOAD` record. -/
theorem loaded_count_exact (env : Env) (s : dll_list) (h : dll_list.reachable env s) :
    ∃ L, s.is_chain L ∧
      s.loaded_dlls =
        ((L.filter (fun y => decide ((s.mem y).type = dll_type.DLL_LOAD))).length : Int) ∧
      ((∃ x, x ∈ L ∧ (s.mem x).type = dll_type.DLL_LOAD) → s.loaded_dlls > 0) := by
  obtain ⟨L, hreg, _⟩ := reachable_registry env s h
  refine ⟨L, hreg.1, hreg.2.2, ?_⟩
  rintro ⟨x, hx, hty⟩
  exact is_registry_load hreg x hx hty

/-- C22 (witness): after the module `A` registered as `DLL_LOAD`, the chain is
the record 1 and `loaded_dlls` is 1. -/
theorem loaded_count_exact_one :
    example_one_loaded.loaded_dlls = 1 ∧
    ∃ L, example_one_loaded.is_chain L ∧
      example_one_loaded.loaded_dlls =
        ((L.filter (fun y =>
          decide ((example_one_loaded.mem y).type = dll_type.DLL_LOAD))).length : Int) ∧
      ((∃ x, x ∈ L ∧ (example_one_loaded.mem x).type = dll_type.DLL_LOAD) →
        example_one_loaded.loaded_dlls > 0) :=
  ⟨by decide, loaded_count_exact example_env_no_imports example_one_loaded
    example_one_loaded_reachable⟩

section reversal

variable {G : Nat → List Nat}

theorem sort_visit_marked (k : Nat) (st : SortSt) (d : Nat) (h : d ∈ st.marked) :
    sort_visit G k st d = st := by
  cases k with
  | zero => rfl
  | succ k => rw [sort_visit, if_pos h]

theorem sort_visit_self_loops (k : Nat) (st : SortSt) (d : Nat) (h : d ∉ st.marked)
    (hG : ∀ y, y ∈ G d → y = d) :
    sort_visit G (k + 1) st d = ⟨d :: st.marked, st.out ++ [d]⟩ := by
  rw [sort_visit, if_neg h]
  have : ∀ (l : List Nat), (∀ y, y ∈ l → y = d) →
      l.foldl (sort_visit G k) ⟨d :: st.marked, st.out⟩ = ⟨d :: st.marked, st.out⟩ := by
    intro l
    induction l with
    | nil => intro _; rfl
    | cons y ys ih =>
      intro hl
      rw [List.foldl_cons, hl y (List.mem_cons_self _ _),
        sort_visit_marked k _ d (List.mem_cons_self _ _)]
      exact ih (fun z hz => hl z (List.mem_cons_of_mem _ hz))
  simp only
  rw [this (G d) hG]

theorem sort_fold_self_loops (k : Nat) : ∀ (M : List Nat) (st : SortSt),
    M.Nodup → (∀ x, x ∈ M → x ∉ st.marked) → (∀ x, x ∈ M → ∀ y, y ∈ G x → y = x) →
    M.foldl (sort_visit G (k + 1)) st = ⟨M.reverse ++ st.marked, st.out ++ M⟩ := by
  intro M
  induction M with
  | nil => intro st _ _ _; simp
  | cons x xs ih =>
    intro st hnd hm hG
    rw [List.foldl_cons, sort_visit_self_loops k st x (hm x (List.mem_cons_self _ _))
      (hG x (List.mem_cons_self _ _))]
    rw [ih _ (List.nodup_cons.1 hnd).2
      (fun z hz hzm => by
        rcases List.mem_cons.1 hzm with h1 | h1
        · exact (List.nodup_cons.1 hnd).1 (h1 ▸ hz)
        · exact hm z (List.mem_cons_of_mem _ hz) h1)
      (fun z hz => hG z (List.mem_cons_of_mem _ hz))]
    simp

/-- When no record depends on another one, the traversal reverses the
chain. -/
theorem sorted_chain_reverse (L : List Nat) (hnd : L.Nodup)
    (hG : ∀ x, x ∈ L → ∀ y, y ∈ G x → y = x) : sorted_chain G L = L.reverse := by
  unfold sorted_chain
  rw [sort_fold_self_loops L.length L.reverse ⟨[], []⟩ (List.nodup_reverse.2 hnd)
    (fun _ _ h => by simp at h)
    (fun x hx => hG x (List.mem_reverse.1 hx))]
  simp

end reversal

theorem chain_deps_self (env : Env) (s : dll_list) (L : List Nat)
    (hlink : ∀ x, x ∈ L → (s.mem x).type = dll_type.DLL_LINK)
    (himp : imports_none_other env s L) :
    ∀ x, x ∈ L → ∀ y, y ∈ chain_deps env s L x → y = x := by
  intro x hx y hy
  unfold chain_deps at hy
  rw [if_neg (by rw [hlink x hx]; decide), List.nil_append, List.mem_filterMap] at hy
  obtain ⟨m, hm, hf⟩ := hy
  obtain ⟨hyL, hcmp⟩ := chain_find_modname_mem _ _ _ _ _ hf
  exact himp x hx m hm y hyL hcmp

theorem imports_none_other_transfer (env : Env) (s s1 : dll_list) (L L1 : List Nat)
    (hfr : s.frame s1) (hsub : ∀ x, x ∈ L1 → x ∈ L) (h : imports_none_other env s L) :
    imports_none_other env s1 L1 := by
  intro x hx m hm y hy hc
  rw [payload_handle (hfr.1 x)] at hm
  rw [payload_modname (hfr.1 y)] at hc
  exact h x (hsub x hx) m hm y (hsub y hy) hc

/-- C23: on a registry that holds only `DLL_LINK` records, none of which names
another record of the registry among its imports, `dll_list::topsort` returns
and exactly reverses the chain (the record at position `i` counted from the
front is at position `i` counted from the back); the registry it leaves is of
the same kind, and sorting it again returns and restores the original chain. -/
theorem topsort_reverses_linked (env : Env) (s : dll_list) (L : List Nat)
    (hreg : s.is_registry L) (hlink : ∀ x, x ∈ L → (s.mem x).type = dll_type.DLL_LINK)
    (himp : imports_none_other env s L) :
    (∃ f0 s1, ∀ f, f0 ≤ f → dll_list.topsort env f s = .ok s1) ∧
    ∀ f s1, dll_list.topsort env f s = .ok s1 →
      s1.is_chain L.reverse ∧
      (∀ i, i < L.length → L.reverse[L.length - 1 - i]? = L[i]?) ∧
      (∃ f0 s2, ∀ g, f0 ≤ g → dll_list.topsort env g s1 = .ok s2) ∧
      ∀ g s2, dll_list.topsort env g s1 = .ok s2 → s2.is_chain L := by
  obtain ⟨h1, _⟩ := topsort_on_registry env s L hreg
  refine ⟨h1, ?_⟩
  intro f s1 h
  obtain ⟨hreg1, hfr⟩ := topsort_registry env s L hreg f s1 h
  have hrev : sorted_chain (chain_deps env s L) L = L.reverse :=
    sorted_chain_reverse L hreg.1.2.2.1 (chain_deps_self env s L hlink himp)
  rw [hrev] at hreg1
  have hlink1 : ∀ x, x ∈ L.reverse → (s1.mem x).type = dll_type.DLL_LINK := by
    intro x hx
    rw [payload_type (hfr.1 x)]
    exact hlink x (List.mem_reverse.1 hx)
  have himp1 : imports_none_other env s1 L.reverse :=
    imports_none_other_transfer env s s1 L L.reverse hfr
      (fun x hx => List.mem_reverse.1 hx) himp
  obtain ⟨h3, _⟩ := topsort_on_registry env s1 L.reverse hreg1
  refine ⟨hreg1.1, ?_, h3, ?_⟩
  · intro i hi
    rw [List.getElem?_reverse (by omega)]
    congr 1
    omega
  · intro g s2 h2
    obtain ⟨hreg2, _⟩ := topsort_registry env s1 L.reverse hreg1 g s2 h2
    have hrev2 : sorted_chain (chain_deps env s1 L.reverse) L.reverse = L.reverse.reverse :=
      sorted_chain_reverse L.reverse (List.nodup_reverse.2 hreg.1.2.2.1)
        (chain_deps_self env s1 L.reverse hlink1 himp1)
    rw [hrev2, List.reverse_reverse] at hreg2
    exact hreg2.1

/-- C23 (witness): three `DLL_LINK` records 1, 2, 3 without imports; the
hypotheses hold, so the sort leaves the chain 3, 2, 1 and a second sort leaves
1, 2, 3. -/
theorem topsort_reverses_linked_three :
    (example_three dll_type.DLL_LINK).is_registry [1, 2, 3] ∧
    ((∃ f0 s1, ∀ f, f0 ≤ f →
        dll_list.topsort example_env_no_imports f (example_three dll_type.DLL_LINK) = .ok s1) ∧
      ∀ f s1, dll_list.topsort example_env_no_imports f (example_three dll_type.DLL_LINK)
          = .ok s1 →
        s1.is_chain [3, 2, 1] ∧
        (∀ i, i < 3 → [3, 2, 1][3 - 1 - i]? = [1, 2, 3][i]?) ∧
        (∃ f0 s2, ∀ g, f0 ≤ g → dll_list.topsort example_env_no_imports g s1 = .ok s2) ∧
        ∀ g s2, dll_list.topsort example_env_no_imports g s1 = .ok s2 →
          s2.is_chain [1, 2, 3]) :=
  ⟨by decide,
    topsort_reverses_linked example_env_no_imports (example_three dll_type.DLL_LINK) [1, 2, 3]
      (by decide) (by decide) (by decide)⟩

theorem reserved_blockades_append (a b : List replay_event) :
    reserved_blockades (a ++ b) = reserved_blockades a ++ reserved_blockades b := by
  induction a with
  | nil => rfl
  | cons e a ih =>
    cases e with
    | reserve x n ok => cases ok <;> simp [reserved_blockades, ih]
    | _ => simp [reserved_blockades, ih]

theorem released_blockades_append (a b : List replay_event) :
    released_blockades (a ++ b) = released_blockades a ++ released_blockades b := by
  induction a with
  | nil => rfl
  | cons e a ih =>
    cases e with
    | release x ok => cases ok <;> simp [released_blockades, ih]
    | _ => simp [released_blockades, ih]

theorem reserved_blockades_none (a : List replay_event)
    (h : ∀ e ∈ a, replay_event.is_blockade e = false) : reserved_blockades a = [] := by
  induction a with
  | nil => rfl
  | cons e a ih =>
    have he := h e (List.mem_cons_self _ _)
    have ih2 := ih (fun x hx => h x (List.mem_cons_of_mem _ hx))
    cases e <;> simp_all [reserved_blockades, replay_event.is_blockade]

theorem released_blockades_none (a : List replay_event)
    (h : ∀ e ∈ a, replay_event.is_release e = false) : released_blockades a = [] := by
  induction a with
  | nil => rfl
  | cons e a ih =>
    have he := h e (List.mem_cons_self _ _)
    have ih2 := ih (fun x hx => h x (List.mem_cons_of_mem _ hx))
    cases e <;> simp_all [released_blockades, replay_event.is_release]

theorem released_blockade_releases (l : List Nat) :
    released_blockades (blockade_releases l) = l.reverse := by
  unfold blockade_releases
  induction l.reverse with
  | nil => rfl
  | cons a r ih => simp [released_blockades, ih]

theorem reserved_blockade_releases (l : List Nat) :
    reserved_blockades (blockade_releases l) = [] := by
  unfold blockade_releases
  induction l.reverse with
  | nil => rfl
  | cons a r ih => simp [reserved_blockades, ih]

theorem not_blockade_not_release {e : replay_event} (h : replay_event.is_blockade e = false) :
    replay_event.is_release e = false := by
  cases e <;> simp_all [replay_event.is_blockade, replay_event.is_release]

theorem step3_not_blockade {e : replay_event} (h : replay_event.is_step3 e = true) :
    replay_event.is_blockade e = false := by
  cases e <;> simp_all [replay_event.is_blockade, replay_event.is_step3]

theorem fix_reference_count_step3 (H : Host) (d : dll) : ∀ (n : Nat) (log : List replay_event),
    ∃ ext, fix_reference_count H d n log = log ++ ext ∧
      ∀ e ∈ ext, replay_event.is_step3 e = true := by
  intro n
  induction n with
  | zero => intro log; exact ⟨[], by simp [fix_reference_count], by simp⟩
  | succ n ih =>
    intro log
    obtain ⟨ext, h1, h2⟩ :=
      ih (log ++ [replay_event.load_again d (H.LoadLibraryW log d.name)])
    refine ⟨replay_event.load_again d (H.LoadLibraryW log d.name) :: ext, ?_, ?_⟩
    · rw [fix_reference_count, h1]; simp
    · intro e he
      rcases List.mem_cons.mp he with rfl | he
      · rfl
      · exact h2 e he

/-- Step 3 continues the log with events of Step 3 only. -/
theorem load_after_fork_step3_events (H : Host) : ∀ (ds : List dll) (log : List replay_event),
    ∃ ext, (load_after_fork_step3 H log ds).1 = log ++ ext ∧
      ∀ e ∈ ext, replay_event.is_step3 e = true := by
  intro ds
  induction ds with
  | nil => intro log; exact ⟨[], by simp [load_after_fork_step3], by simp⟩
  | cons d rest ih =>
    intro log
    have key : ∀ (e0 : replay_event) (fault0 : Option Fault) (target : Nat),
        replay_event.is_step3 e0 = true →
        ∃ ext, (match ((log ++ [e0], fault0) : List replay_event × Option Fault) with
          | (log1, some e) => (log1, some e)
          | (log1, none) =>
            if H.LoadLibraryW log1 d.name = 0 then
              (log1 ++ [replay_event.load d (H.LoadLibraryW log1 d.name)],
                some (Fault.fabort MSG_MAP))
            else if H.LoadLibraryW log1 d.name ≠ target then
              (log1 ++ [replay_event.load d (H.LoadLibraryW log1 d.name)],
                some (Fault.fabort MSG_MAP_ADDRESS))
            else load_after_fork_step3 H
              (fix_reference_count H d (d.count - 1).toNat
                (log1 ++ [replay_event.load d (H.LoadLibraryW log1 d.name)])) rest).1
            = log ++ ext ∧ ∀ e ∈ ext, replay_event.is_step3 e = true := by
      intro e0 fault0 target he0
      cases fault0 with
      | some e =>
        refine ⟨[e0], rfl, ?_⟩
        intro e1 he1
        rw [List.mem_singleton.mp he1]
        exact he0
      | none =>
        simp only
        split
        · refine ⟨[e0, replay_event.load d (H.LoadLibraryW (log ++ [e0]) d.name)],
            by simp, ?_⟩
          intro e he
          simp only [List.mem_cons, List.mem_singleton, List.not_mem_nil, or_false] at he
          rcases he with rfl | rfl
          · exact he0
          · rfl
        · split
          · refine ⟨[e0, replay_event.load d (H.LoadLibraryW (log ++ [e0]) d.name)],
              by simp, ?_⟩
            intro e he
            simp only [List.mem_cons, List.mem_singleton, List.not_mem_nil, or_false] at he
            rcases he with rfl | rfl
            · exact he0
            · rfl
          · obtain ⟨e1, k1, k2⟩ := fix_reference_count_step3 H d (d.count - 1).toNat
              (log ++ [e0] ++ [replay_event.load d (H.LoadLibraryW (log ++ [e0]) d.name)])
            obtain ⟨e2, j1, j2⟩ := ih (fix_reference_count H d (d.count - 1).toNat
              (log ++ [e0] ++ [replay_event.load d (H.LoadLibraryW (log ++ [e0]) d.name)]))
            refine ⟨[e0, replay_event.load d (H.LoadLibraryW (log ++ [e0]) d.name)]
              ++ e1 ++ e2, ?_, ?_⟩
            · rw [j1, k1]; simp
            · intro e he
              simp only [List.mem_append, List.mem_cons, List.mem_singleton,
                List.not_mem_nil, or_false] at he
              rcases he with ((rfl | rfl) | he) | he
              · exact he0
              · rfl
              · exact k2 e he
              · exact j2 e he
    rw [load_after_fork_step3]
    by_cases hpb : d.handle = d.preferred_base
    · simp only [hpb, if_true]
      exact key _ _ _ rfl
    · simp only [hpb, if_false]
      exact key _ _ _ rfl

theorem step2_entry_plain (H : Host) (log : List replay_event) (d : dll) (r : Nat) :
    ∃ ext, step2_entry H log d r = log ++ ext ∧
      ∀ e ∈ ext, replay_event.is_blockade e = false := by
  unfold step2_entry
  split
  · refine ⟨[_], rfl, ?_⟩
    intro e he
    rw [List.mem_singleton.mp he]
    rfl
  · exact ⟨[], by simp, by simp⟩

theorem step2_mapped_plain (H : Host) (log : List replay_event) (d : dll) (r : Nat) :
    ∃ ext, step2_mapped H log d r = log ++ ext ∧
      ∀ e ∈ ext, replay_event.is_blockade e = false := by
  obtain ⟨q0, h0, k0⟩ := step2_entry_plain H log d r
  refine ⟨q0 ++ [replay_event.interim_mapping d r
    (H.LoadLibraryExW (step2_entry H log d r) d.name)], ?_, ?_⟩
  · unfold step2_mapped
    rw [h0, List.append_assoc]
  · intro e he
    rcases List.mem_append.1 he with h | h
    · exact k0 e h
    · rw [List.mem_singleton.mp h]
      rfl

theorem step2_freed_plain (H : Host) (log : List replay_event) (d : dll) (r : Nat) :
    ∃ ext, step2_freed H log d r = log ++ ext ∧
      ∀ e ∈ ext, replay_event.is_blockade e = false := by
  obtain ⟨q0, h0, k0⟩ := step2_mapped_plain H log d r
  refine ⟨q0 ++ [replay_event.free_interim d (H.LoadLibraryExW (step2_entry H log d r) d.name)
      (H.FreeLibrary (step2_mapped H log d r)
        (H.LoadLibraryExW (step2_entry H log d r) d.name))], ?_, ?_⟩
  · unfold step2_freed
    rw [h0, List.append_assoc]
  · intro e he
    rcases List.mem_append.1 he with h | h
    · exact k0 e h
    · rw [List.mem_singleton.mp h]
      rfl

/-- When `reserve_at` returns an address other than `NULL`, it has made one
reservation, the host granted it, and the address returned is its address. -/
theorem reserve_at_granted (H : Host) (l log4 : List replay_event)
    (here dll_base dll_size r : Nat)
    (h : reserve_at H l here dll_base dll_size = (log4, .ok r)) (hr : r ≠ 0) :
    ∃ ext, log4 = l ++ ext ∧ reserved_blockades ext = [r] ∧
      ∀ e ∈ ext, replay_event.is_release e = false := by
  unfold reserve_at at h
  rcases hq : H.VirtualQuery l here with _ | ⟨free, sz⟩
  · rw [hq] at h; simp at h
  · rw [hq] at h
    cases free
    · simp only [if_true, Prod.mk.injEq, Except.ok.injEq] at h
      exact absurd h.2.symm hr
    · simp only [Bool.true_eq_false, if_false] at h
      have hok2 : ∀ b : Bool, ¬ b = false → b = true := by
        intro b hb; cases b
        · exact absurd rfl hb
        · rfl
      repeat' split at h
      all_goals first
        | (simp at h; done)
        | (rename_i hok
           have hgrant := hok2 _ hok
           simp only [Prod.mk.injEq, Except.ok.injEq] at h
           obtain ⟨h1, h2⟩ := h
           subst h2
           refine ⟨[_] ++ [_], h1.symm.trans (List.append_assoc _ _ _), ?_, ?_⟩
           · simp only [List.singleton_append, reserved_blockades, hgrant]
           · intro e he
             simp only [List.singleton_append, List.mem_cons, List.mem_singleton,
               List.not_mem_nil, or_false] at he
             rcases he with rfl | rfl
             · rfl
             · rfl)

/-- A blocked frame that goes on: the log after the blockade continues the log
of the frame with events that reserve the one blockade at the address
`reserve_at` returned and release none. -/
theorem step2_blocked_reserved (H : Host) (log log4 : List replay_event) (d : dll)
    (r reservation : Nat)
    (h : reserve_at H (step2_freed H log d r) (H.LoadLibraryExW (step2_entry H log d r) d.name)
      d.handle d.image_size = (log4, .ok reservation)) (hr : reservation ≠ 0) :
    ∃ A, log4 = log ++ A ∧ reserved_blockades A = [reservation] ∧
      ∀ e ∈ A, replay_event.is_release e = false := by
  obtain ⟨q0, h0, k0⟩ := step2_freed_plain H log d r
  obtain ⟨q1, h1, k1, k2⟩ := reserve_at_granted H _ _ _ _ _ _ h hr
  refine ⟨q0 ++ q1, by rw [h1, h0, List.append_assoc], ?_, ?_⟩
  · rw [reserved_blockades_append, reserved_blockades_none q0 k0, k1, List.nil_append]
  · intro e he
    rcases List.mem_append.1 he with h | h
    · exact not_blockade_not_release (k0 e h)
    · exact k2 e h

/-- When the replay ends without a fault, what it added to the log it started
with is a part that releases no blockade, followed by the releases of the
blockades that part reserved, last reserved first, each granted. -/
theorem load_after_fork_impl_blockades (H : Host) (all : List dll) :
    ∀ fuel log ds r, (load_after_fork_impl H all fuel log ds r).2 = none →
      ∃ mid, (load_after_fork_impl H all fuel log ds r).1 =
          log ++ mid ++ blockade_releases (reserved_blockades mid) ∧
        ∀ e ∈ mid, replay_event.is_release e = false := by
  apply load_after_fork_impl_induct H all
    (fun _ log _ _ res => res.2 = none →
      ∃ mid, res.1 = log ++ mid ++ blockade_releases (reserved_blockades mid) ∧
        ∀ e ∈ mid, replay_event.is_release e = false)
  · intro log ds r h; simp at h
  · intro f log r _
    obtain ⟨ext, h1, h2⟩ := load_after_fork_step3_events H all log
    refine ⟨ext, ?_, fun e he => not_blockade_not_release (step3_not_blockade (h2 e he))⟩
    rw [h1, reserved_blockades_none ext (fun e he => step3_not_blockade (h2 e he))]
    simp [blockade_releases]
  · intro f log d rest r res _ ih h; exact ih h
  · intro f log d rest _ _ h; simp at h
  · intro f log d rest r _ _ _ h; simp at h
  · intro f log d rest r res _ _ _ _ ih h
    obtain ⟨mid, h1, h2⟩ := ih h
    obtain ⟨q0, h0, k0⟩ := step2_mapped_plain H log d r
    refine ⟨q0 ++ mid, ?_, ?_⟩
    · rw [h1, h0, reserved_blockades_append, reserved_blockades_none q0 k0]
      simp
    · intro e he
      rcases List.mem_append.1 he with h | h
      · exact not_blockade_not_release (k0 e h)
      · exact h2 e h
  · intro f log d rest r log4 e _ _ _ _ _ h; simp at h
  · intro f log d rest r log4 _ _ _ _ _ h; simp at h
  · intro f log d rest r log4 reservation _ _ _ _ _ _ _ h; simp at h
  · intro f log d rest r log4 reservation log5 e _ _ _ _ _ _ _ _ h; simp at h
  · intro f log d rest r log4 reservation log5 _ _ _ _ hres hr0 _ ih hnone
    obtain ⟨mid, h1, h2⟩ := ih rfl
    obtain ⟨A, hA, kA, kr⟩ := step2_blocked_reserved H log log4 d r reservation hres hr0
    have hok : H.VirtualFree log5 reservation = true := by
      cases hv : H.VirtualFree log5 reservation
      · simp [release_at, hv] at hnone
      · rfl
    refine ⟨A ++ mid, ?_, ?_⟩
    · rw [(release_at_log H log5 reservation).1, hok]
      simp only at h1
      rw [h1, hA, reserved_blockades_append, kA]
      simp [blockade_releases]
    · intro e he
      rcases List.mem_append.1 he with h | h
      · exact kr e h
      · exact h2 e h

/-- C21: in every replay that returns normally the log is a first part which
releases no blockade and holds every call of Step 3, followed by nothing but
the releases of the blockades that part reserved: each blockade is released
once, at the address `reserve_at` returned for it, the host grants each
release, and the releases come in the reverse of the order of the
reservations; so the blockades released are those reserved, and none
remains. -/
theorem blockades_released_in_reverse (H : Host) (fuel : Nat) (all : List dll)
    (h : (load_after_fork H fuel all).2 = none) :
    (∃ pre, (load_after_fork H fuel all).1 = pre ++ blockade_releases (reserved_blockades pre) ∧
      (∀ e ∈ pre, replay_event.is_release e = false) ∧
      (∀ e ∈ (load_after_fork H fuel all).1, replay_event.is_step3 e = true → e ∈ pre)) ∧
    released_blockades (load_after_fork H fuel all).1 =
      (reserved_blockades (load_after_fork H fuel all).1).reverse := by
  obtain ⟨mid, h1, h2⟩ := load_after_fork_impl_blockades H all fuel [] all 0 h
  rw [List.nil_append] at h1
  have h1' : (load_after_fork H fuel all).1
      = mid ++ blockade_releases (reserved_blockades mid) := h1
  refine ⟨⟨mid, h1', h2, ?_⟩, ?_⟩
  · intro e he hs
    rw [h1'] at he
    rcases List.mem_append.1 he with k | k
    · exact k
    · unfold blockade_releases at k
      obtain ⟨a, _, rfl⟩ := List.mem_map.1 k
      simp [replay_event.is_step3] at hs
  · rw [h1', released_blockades_append, reserved_blockades_append,
      released_blockades_none mid h2, released_blockade_releases,
      reserved_blockade_releases]
    simp

/-- C21 (witness): two interim mappings of `A` land at wrong addresses, which
the replay blocks at `0x70000000` and `0x70100000`; the third lands at the
handle, Step 3 loads `A`, and the replay releases `0x70100000` and then
`0x70000000` and returns. -/
theorem blockades_released_in_reverse_two :
    (load_after_fork (example_host [example_loaded_a] 2) 10 [example_loaded_a]).2 = none ∧
    reserved_blockades (load_after_fork (example_host [example_loaded_a] 2) 10
      [example_loaded_a]).1 = [1879048192, 1880096768] ∧
    released_blockades (load_after_fork (example_host [example_loaded_a] 2) 10
        [example_loaded_a]).1 =
      (reserved_blockades (load_after_fork (example_host [example_loaded_a] 2) 10
        [example_loaded_a]).1).reverse :=
  ⟨by decide, by decide,
    (blockades_released_in_reverse (example_host [example_loaded_a] 2) 10 [example_loaded_a]
      (by decide)).2⟩
